import Mathlib

/-!
Verification development for the jump-threading CFG/SSA update engine of
gcc/tree-ssa-threadupdate.c.

The C code is shallowly embedded.  Basic blocks, edges, loops and
jump-thread paths become explicit finite structures; the transient
per-edge annotation slot (the aux field) is an Option-valued field of the
edge record; machine integers that only ever hold non-negative profile
data (counts, frequencies, probabilities) are modelled as Nat.

External collaborators that are not part of the repository source
(block duplication, edge redirection, the generic depth-first
enumeration, preheader creation, ...) are modelled from the
specification's interface section; each such definition carries a doc
comment saying so.
-/

namespace ThreadUpdate

/-- Gimple statement codes relevant to this pass.  Only the statement
kinds inspected by redirection_block_p and
remove_ctrl_stmt_and_useless_edges are distinguished; gassign stands for
any other executable statement. -/
inductive GCode
  | glabel
  | gdebug
  | gnop
  | gcond
  | ggoto
  | gswitch
  | gassign
deriving DecidableEq, Repr

/-- True for GIMPLE_COND, GIMPLE_GOTO and GIMPLE_SWITCH: the control
statement kinds that terminate a block. -/
def GCode.isCtrl : GCode → Bool
  | .gcond => true
  | .ggoto => true
  | .gswitch => true
  | _ => false

/-- True for statements skipped when looking for the first executable
statement of a block (labels, debug statements and nops). -/
def GCode.isSkippable : GCode → Bool
  | .glabel => true
  | .gdebug => true
  | .gnop => true
  | _ => false

/-- Kinds of steps of a jump-thread path (enum jump_thread_edge_type). -/
inductive JTEType
  | startThread
  | srcBlock
  | joinerBlock
  | noCopySrc
deriving DecidableEq, Repr

/-- One step of a jump-thread path (struct jump_thread_edge).  The edge
is referenced by identity; a missing edge (NULL in C, for jumps to a
constant address) is none. -/
structure JTE where
  e : Option Nat
  ty : JTEType
deriving DecidableEq, Repr

/-- A jump-thread path: the ordered list of steps. -/
abbrev JTPath := List JTE

/-- Edge flags inspected by this pass. -/
structure EdgeFlags where
  fallthru : Bool
  trueVal : Bool
  falseVal : Bool
  abnormal : Bool
deriving DecidableEq, Repr

/-- An edge of the control-flow graph.  The aux field is the transient
annotation slot holding a staged jump-thread path. -/
structure EdgeD where
  src : Nat
  dest : Nat
  flags : EdgeFlags
  count : Nat
  probability : Nat
  aux : Option JTPath
deriving DecidableEq, Repr

/-- A basic block.  Phi functions are lists of arguments keyed by the
identity of the incoming edge; gcc stores the arguments positionally,
indexed by the dest_idx of the incoming edge, which realizes the same
mapping from incoming edge to value. -/
structure BBD where
  stmts : List GCode
  count : Nat
  frequency : Nat
  loopFather : Nat
  phis : List (List (Nat × Nat))
deriving DecidableEq, Repr

/-- A natural loop: header and latch blocks (clearable, as the pass
clears them on broken loops) and the parent loop in the loop tree. -/
structure LoopD where
  header : Option Nat
  latch : Option Nat
  parent : Option Nat
deriving DecidableEq, Repr

/-- The whole mutable state of the pass: the control-flow graph (blocks
and edges keyed by identity), the loop tree, fresh-identity counters,
the global loop-state flags, a flag recording that a gcc_assert in
ssa_redirect_edges tripped, and the threaded-edge statistics counter. -/
structure CFG where
  blocks : List (Nat × BBD)
  edges : List (Nat × EdgeD)
  loops : List (Nat × LoopD)
  nextBlock : Nat
  nextEdge : Nat
  needsFixup : Bool
  mayHaveMultipleLatches : Bool
  assertFailed : Bool
  numThreadedEdges : Nat
deriving DecidableEq, Repr

instance : Inhabited BBD := ⟨⟨[], 0, 0, 0, []⟩⟩

instance : Inhabited EdgeD := ⟨⟨0, 0, ⟨false, false, false, false⟩, 0, 0, none⟩⟩

instance : Inhabited LoopD := ⟨⟨none, none, none⟩⟩

/-- BB_FREQ_MAX from basic-block.h. -/
def BB_FREQ_MAX : Nat := 10000

/-- REG_BR_PROB_BASE from rtl.h / basic-block.h. -/
def REG_BR_PROB_BASE : Nat := 10000

/-- Look up a basic block by index. -/
def getBB (g : CFG) (b : Nat) : BBD := (g.blocks.lookup b).getD default

/-- Look up an edge by identity. -/
def getEdge (g : CFG) (i : Nat) : EdgeD := (g.edges.lookup i).getD default

/-- Update a basic block in place. -/
def setBB (g : CFG) (b : Nat) (f : BBD → BBD) : CFG :=
  { g with blocks := g.blocks.map (fun p => if p.1 = b then (p.1, f p.2) else p) }

/-- Update an edge in place. -/
def setEdge (g : CFG) (i : Nat) (f : EdgeD → EdgeD) : CFG :=
  { g with edges := g.edges.map (fun p => if p.1 = i then (p.1, f p.2) else p) }

/-- Identities of the incoming edges of a block (its preds vector). -/
def preds (g : CFG) (b : Nat) : List Nat :=
  (g.edges.filter (fun p => p.2.dest = b)).map (·.1)

/-- Identities of the outgoing edges of a block (its succs vector). -/
def succs (g : CFG) (b : Nat) : List Nat :=
  (g.edges.filter (fun p => p.2.src = b)).map (·.1)

/-- Source blocks of the incoming edges of a block. -/
def predSrcs (g : CFG) (b : Nat) : List Nat :=
  (g.edges.filter (fun p => p.2.dest = b)).map (·.2.src)

/-- Identities of all live blocks. -/
def blockIds (g : CFG) : List Nat := g.blocks.map (·.1)

/-- Annotation slot (aux field) of an edge: THREAD_PATH(E). -/
def auxOf (g : CFG) (i : Nat) : Option JTPath := (getEdge g i).aux

/-- Store a value into the annotation slot of an edge. -/
def setAux (g : CFG) (i : Nat) (a : Option JTPath) : CFG :=
  setEdge g i (fun e => { e with aux := a })

/-- Model of find_edge: the edge from src to dest, if any. -/
def find_edge (g : CFG) (s d : Nat) : Option Nat :=
  (g.edges.find? (fun p => p.2.src = s ∧ p.2.dest = d)).map (·.1)

/-- Registering a jump threading opportunity (register_jump_thread).
The debug counter dbg_cnt (registered_jump_thread), an external
admission gate, is passed in as the boolean gate.  A vetoed path, or a
path containing any step with a missing edge, is freed and not stored;
otherwise the path is appended to the pending list.  No duplicate
detection is performed. -/
def register_jump_thread (gate : Bool) (paths : List JTPath) (path : JTPath) :
    List JTPath :=
  if !gate then paths
  else if path.any (fun s => s.e.isNone) then paths
  else paths ++ [path]

/-- Argument of a phi function for a given incoming edge. -/
def phiArg (phi : List (Nat × Nat)) (eid : Nat) : Nat := (phi.lookup eid).getD 0

/-- Modelled from the spec: the collaborator remove-edge primitive.
The edge is taken out of the graph and the phi functions at its
destination drop the argument slot associated with it. -/
def remove_edge (g : CFG) (i : Nat) : CFG :=
  let d := (getEdge g i).dest
  let g1 := setBB g d (fun b =>
    { b with phis := b.phis.map (fun phi => phi.filter (fun pr => pr.1 ≠ i)) })
  { g1 with edges := g1.edges.filter (fun p => p.1 ≠ i) }

/-- Modelled from the spec: the collaborator create-edge(src,dest,flags)
primitive.  A fresh edge with zero profile data is appended; the phi
functions at the destination acquire an (empty) slot for it, which in the
keyed representation needs no explicit entry. -/
def make_edge (g : CFG) (s d : Nat) (fl : EdgeFlags) : CFG × Nat :=
  let i := g.nextEdge
  ({ g with
      edges := g.edges ++ [(i, ⟨s, d, fl, 0, 0, none⟩)]
      nextEdge := i + 1 }, i)

/-- Modelled from the spec: the collaborator
redirect-edge(edge,new-dest) primitive (redirect_edge_and_branch with
redirect_edge_succ_nodup semantics).  If an edge from the same source to
the new destination already exists the redirected edge is merged into it:
the flags are or-ed, the probability is added and capped at
REG_BR_PROB_BASE, the count is added and the redirected edge removed.
Otherwise the edge is retargetted in place; either way the phi argument
slots for the moved edge at the old destination are released (the
external SSA reconciler later rebuilds them at the new destination). -/
def redirect_edge_and_branch (g : CFG) (i : Nat) (newDest : Nat) : CFG × Nat :=
  let e := getEdge g i
  match find_edge g e.src newDest with
  | some s =>
      if s = i then (g, i)
      else
        let g1 := setEdge g s (fun se =>
          { se with
              flags := ⟨se.flags.fallthru || e.flags.fallthru,
                        se.flags.trueVal || e.flags.trueVal,
                        se.flags.falseVal || e.flags.falseVal,
                        se.flags.abnormal || e.flags.abnormal⟩
              probability := min (se.probability + e.probability) REG_BR_PROB_BASE
              count := se.count + e.count })
        (remove_edge g1 i, s)
  | none =>
      let d := e.dest
      let g1 := setBB g d (fun b =>
        { b with phis := b.phis.map (fun phi => phi.filter (fun pr => pr.1 ≠ i)) })
      (setEdge g1 i (fun ed => { ed with dest := newDest }), i)

/-- Modelled from the spec: the collaborator duplicate-node primitive
(duplicate_block).  A fresh block with the same statements, profile data
and loop father is created, and every outgoing edge is replicated with
its flags, probability, count and annotation slot; the copy has no
incoming edges and its phi functions are rebuilt later by the external
SSA reconciler. -/
def duplicate_block (g : CFG) (bb : Nat) : CFG × Nat :=
  let nb := g.nextBlock
  let bd := getBB g bb
  let outIds := succs g bb
  let g1 : CFG :=
    { g with
        blocks := g.blocks ++ [(nb, { bd with phis := [] })]
        nextBlock := nb + 1 }
  let g2 := outIds.foldl (fun (acc : CFG) (oi : Nat) =>
    let oe := getEdge g oi
    { acc with
        edges := acc.edges ++
          [(acc.nextEdge, ⟨nb, oe.dest, oe.flags, oe.count, oe.probability, oe.aux⟩)]
        nextEdge := acc.nextEdge + 1 }) g1
  (g2, nb)

/-- Create a duplicate of BB for threading (create_block_for_threading):
duplicate the block, clear the annotation slots of the copied outgoing
edges, and zero out the profile of the still-unreachable duplicate. -/
def create_block_for_threading (g : CFG) (bb : Nat) : CFG × Nat :=
  let dres := duplicate_block g bb
  let g1 := dres.1
  let nb := dres.2
  let g2 := (succs g1 nb).foldl (fun acc ei => setAux acc ei none) g1
  let g3 := setBB g2 nb (fun b => { b with frequency := 0, count := 0 })
  (g3, nb)

/-- Drop the trailing control statement of a statement list, if any. -/
def removeCtrlStmt (stmts : List GCode) : List GCode :=
  match stmts.getLast? with
  | some c => if c.isCtrl then stmts.dropLast else stmts
  | none => stmts

/-- Function remove_ctrl_stmt_and_useless_edges: remove the last
statement of BB if it is a control statement, and remove all outgoing
edges except those reaching dest (all of them when dest is none). -/
def remove_ctrl_stmt_and_useless_edges (g : CFG) (bb : Nat) (dest : Option Nat) :
    CFG :=
  let g1 := setBB g bb (fun b => { b with stmts := removeCtrlStmt b.stmts })
  (succs g1 bb).foldl (fun acc ei =>
    if some (getEdge acc ei).dest = dest then acc else remove_edge acc ei) g1

/-- Function copy_phi_args: for each phi at BB, copy the argument
associated with the edge srcE to the edge tgtE. -/
def copy_phi_args (g : CFG) (bb : Nat) (srcE tgtE : Nat) : CFG :=
  setBB g bb (fun b =>
    { b with phis := b.phis.map (fun phi => phi ++ [(tgtE, phiArg phi srcE)]) })

/-- Function update_destination_phis: after copying origBB (with its
outgoing edges) to newBB, initialize the new phi argument at every direct
successor from the argument of the original edge. -/
def update_destination_phis (g : CFG) (origBB newBB : Nat) : CFG :=
  (succs g origBB).foldl (fun acc eo =>
    match find_edge acc newBB (getEdge acc eo).dest with
    | some e2 => copy_phi_args acc (getEdge acc eo).dest eo e2
    | none => acc) g

/-- Information for the duplicates of a block (struct redirection_data):
the duplicate block, the jump threading path, and the incoming edges
assigned to this duplicate. -/
structure RD where
  dupBlock : Option Nat
  path : JTPath
  incoming : List Nat
deriving DecidableEq, Repr

/-- Equality of hash-table entries (redirection_data::equal): same
length and, from index 1 onward, same step kinds and same edges. -/
def pathEqual (p1 p2 : JTPath) : Bool :=
  p1.length == p2.length &&
    ((p1.zip p2).drop 1).all (fun pr => pr.1.ty == pr.2.ty && pr.1.e == pr.2.e)

/-- Function lookup_redirection_data with INSERT: find the entry whose
path equals the path staged on edge e and prepend e to its incoming-edge
list, or create a fresh entry with e as sole member.  The hash table is
modelled as a list in insertion order; the hash on the final destination
index only accelerates the exact path comparison. -/
def lookup_redirection_data (table : List RD) (g : CFG) (e : Nat) : List RD :=
  let path := (auxOf g e).getD []
  if table.any (fun rd => pathEqual rd.path path) then
    table.map (fun rd =>
      if pathEqual rd.path path then { rd with incoming := e :: rd.incoming } else rd)
  else
    table ++ [{ dupBlock := none, path := path, incoming := [e] }]

/-- Last step of a path; a dummy step for the empty path (the C code
never reads it there). -/
def pathLast (p : JTPath) : JTE := (p.getLast?).getD ⟨none, .startThread⟩

/-- Step at index i of a path; a dummy step when out of range. -/
def pathStep (p : JTPath) (i : Nat) : JTE := (p.get? i).getD ⟨none, .startThread⟩

/-- Edge id carried by a step; 2^60 is an inert dummy identity for a
missing edge (the C code would dereference NULL there). -/
def stepEdge (s : JTE) : Nat := s.e.getD (2 ^ 60)

/-- Function create_edge_and_update_destination_phis: create the single
outgoing fallthrough edge of a duplicate block towards the final
destination of the path in RD, replicate the duplicate's count onto it,
copy the annotation of the original final edge (deep copy in C, same
value here) and add matching phi arguments at the destination. -/
def create_edge_and_update_destination_phis (g : CFG) (rd : RD) (bb : Nat) : CFG :=
  let lastE := stepEdge (pathLast rd.path)
  let dest := (getEdge g lastE).dest
  let mres := make_edge g bb dest ⟨true, false, false, false⟩
  let g1 := mres.1
  let ne := mres.2
  let g2 := setEdge g1 ne (fun ed =>
    { ed with probability := REG_BR_PROB_BASE, count := (getBB g1 bb).count })
  let g3 := setEdge g2 ne (fun ed => { ed with aux := (getEdge g2 lastE).aux })
  copy_phi_args g3 dest lastE ne

/-- Function ssa_fix_duplicate_block_edges: wire up the outgoing edges
of a duplicate block.  For a path through a joiner block the control
statement is kept and the specific outgoing edge matching the next path
step is redirected to the final destination, copying phi arguments only
when the redirection did not merge with an existing edge; otherwise the
control statement and all outgoing edges are removed and a fresh single
outgoing edge is created. -/
def ssa_fix_duplicate_block_edges (g : CFG) (rd : RD) (infoBB : Nat) : CFG :=
  let e := (rd.incoming.head?).getD (2 ^ 60)
  let path := (auxOf g e).getD []
  let dup := rd.dupBlock.getD (2 ^ 60)
  if (pathStep path 1).ty = .joinerBlock then
    let g1 := update_destination_phis g infoBB dup
    match find_edge g1 dup (getEdge g1 (stepEdge (pathStep path 1))).dest with
    | some victim =>
        let finalE := stepEdge (pathLast path)
        let finalDest := (getEdge g1 finalE).dest
        let rres := redirect_edge_and_branch g1 victim finalDest
        let g2 := rres.1
        let e2 := rres.2
        let g3 := setEdge g2 e2 (fun ed => { ed with count := (getEdge g2 finalE).count })
        if e2 = victim then copy_phi_args g3 finalDest finalE e2 else g3
    | none => g1
  else
    let g1 := remove_ctrl_stmt_and_useless_edges g dup none
    create_edge_and_update_destination_phis g1 rd dup

/-- EDGE_FREQUENCY from basic-block.h: the frequency contribution of an
edge, computed from its source's frequency and its probability. -/
def EDGE_FREQUENCY (g : CFG) (i : Nat) : Nat :=
  let e := getEdge g i
  ((getBB g e.src).frequency * e.probability + REG_BR_PROB_BASE / 2) /
    REG_BR_PROB_BASE

/-- Loop body of ssa_redirect_edges for one incoming edge: accumulate
the edge's count into the duplicate's count, accumulate its frequency
while the duplicate's frequency is below twice BB_FREQ_MAX, bump the
count of the duplicate's first outgoing edge for non-joiner paths,
redirect the incoming edge to the duplicate (the gcc_assert that
redirection returned the very same edge is modelled by the assertFailed
flag), then free the path and clear the annotation slot
unconditionally.  The profile part accumulates the incoming edge's count
into the duplicate's count and, only while the duplicate's frequency is
still below twice BB_FREQ_MAX, adds the edge's frequency. -/
def redirectStepProfile (dup : Nat) (acc : CFG) (e : Nat) : CFG :=
  let a1 := setBB acc dup (fun b =>
    { b with count := b.count + (getEdge acc e).count })
  if (getBB a1 dup).frequency < BB_FREQ_MAX * 2 then
    setBB a1 dup (fun b =>
      { b with frequency := b.frequency + EDGE_FREQUENCY a1 e })
  else a1

/-- For threads not through a joiner block, the count of the duplicate's
single outgoing edge is bumped by the incoming edge's count. -/
def redirectStepSuccCount (dup : Nat) (path : JTPath) (a2 : CFG) (e : Nat) : CFG :=
  if (pathStep path 1).ty ≠ .joinerBlock then
    match (succs a2 dup).head? with
    | some s0 => setEdge a2 s0 (fun ed =>
        { ed with count := ed.count + (getEdge a2 e).count })
    | none => a2
  else a2

/-- Loop body of ssa_redirect_edges for one incoming edge: the profile
accumulation, the successor-count bump, the redirection of the incoming
edge onto the duplicate, and the unconditional release of the annotation
slot. -/
def redirectStep (rd : RD) (acc0 : CFG) (e : Nat) : CFG :=
  let path := (auxOf acc0 e).getD []
  let acc := { acc0 with numThreadedEdges := acc0.numThreadedEdges + 1 }
  let accb :=
    match rd.dupBlock with
    | some dup =>
        let a3 := redirectStepSuccCount dup path (redirectStepProfile dup acc e) e
        let rres := redirect_edge_and_branch a3 e dup
        if rres.2 = e then rres.1 else { rres.1 with assertFailed := true }
    | none => acc
  setAux accb e none

/-- Function ssa_redirect_edges walks the incoming edges of the entry,
applying the step above to each. -/
def ssa_redirect_edges (g : CFG) (rd : RD) : CFG :=
  rd.incoming.foldl (redirectStep rd) g

/-- True when the duplicate-redirection pass threaded at least one jump
for this entry (the incoming-edge list was non-empty). -/
def rdJumpsThreaded (rd : RD) : Bool := !rd.incoming.isEmpty

/-- Look up a loop by identity. -/
def getLoop (g : CFG) (l : Nat) : LoopD := (g.loops.lookup l).getD default

/-- Update a loop in place. -/
def setLoop (g : CFG) (l : Nat) (f : LoopD → LoopD) : CFG :=
  { g with loops := g.loops.map (fun p => if p.1 = l then (p.1, f p.2) else p) }

/-- Depth of a loop in the loop tree (loop_depth), computed along the
parent chain with fuel bounded by the number of loops. -/
def loopDepthAux (g : CFG) : Nat → Nat → Nat
  | 0, _ => 0
  | fuel + 1, l =>
      match (getLoop g l).parent with
      | none => 0
      | some p => loopDepthAux g fuel p + 1

/-- Depth of a loop in the loop tree. -/
def loop_depth (g : CFG) (l : Nat) : Nat := loopDepthAux g g.loops.length l

/-- The chain of a loop and its ancestors in the loop tree. -/
def loopAncestorsAux (g : CFG) : Nat → Nat → List Nat
  | 0, l => [l]
  | fuel + 1, l =>
      l :: (match (getLoop g l).parent with
            | none => []
            | some p => loopAncestorsAux g fuel p)

/-- The chain of a loop and its ancestors in the loop tree. -/
def loopAncestors (g : CFG) (l : Nat) : List Nat :=
  loopAncestorsAux g g.loops.length l

/-- flow_bb_inside_loop_p: block b belongs to loop l (that is, l is the
loop father of b or an ancestor of it). -/
def bbInLoop (g : CFG) (b l : Nat) : Bool :=
  l ∈ loopAncestors g (getBB g b).loopFather

/-- loop_exit_edge_p: the edge leaves loop l. -/
def loop_exit_edge_p (g : CFG) (l e : Nat) : Bool :=
  bbInLoop g (getEdge g e).src l && !bbInLoop g (getEdge g e).dest l

/-- loop_latch_edge: the back edge from the latch to the header. -/
def loop_latch_edge (g : CFG) (l : Nat) : Option Nat :=
  match (getLoop g l).header, (getLoop g l).latch with
  | some h, some lt => find_edge g lt h
  | _, _ => none

/-- Function redirection_block_p: the block has no executable statements
other than a trailing control statement (labels, debug statements and
nops do not count as executable). -/
def redirection_block_p (g : CFG) (bb : Nat) : Bool :=
  match (getBB g bb).stmts.dropWhile GCode.isSkippable with
  | [] => true
  | c :: _ => c.isCtrl

/-- single_succ_p: the block has exactly one outgoing edge. -/
def single_succ_p (g : CFG) (b : Nat) : Bool := (succs g b).length = 1

/-- single_pred_p: the block has exactly one incoming edge. -/
def single_pred_p (g : CFG) (b : Nat) : Bool := (preds g b).length = 1

/-- single_succ_edge: the single outgoing edge of a block. -/
def single_succ_edge (g : CFG) (b : Nat) : Option Nat := (succs g b).head?

/-- Destination blocks of the outgoing edges of a block. -/
def succDests (g : CFG) (b : Nat) : List Nat :=
  (g.edges.filter (fun p => p.2.src = b)).map (·.2.dest)

/-- Modelled from the spec: the collaborator
update_bb_profile_for_threading, profile bookkeeping on the block still
reached through the threaded edge; the block loses the threaded edge's
count and frequency (clamping at zero, as Nat subtraction does). -/
def update_bb_profile_for_threading (g : CFG) (bb edgeFreq cnt : Nat) : CFG :=
  setBB g bb (fun b =>
    { b with count := b.count - cnt, frequency := b.frequency - edgeFreq })

/-- The single-predecessor branch of thread_single_edge: the block is
mutated in place, its control statement and the outgoing edges not
reaching the path target are removed, and the remaining edge is turned
into a pure fallthrough edge. -/
def tse_inplace (g2 : CFG) (bb eto : Nat) : CFG × Nat :=
  let g3 := remove_ctrl_stmt_and_useless_edges g2 bb (some (getEdge g2 eto).dest)
  let g4 := setEdge g3 eto (fun ed =>
    { ed with flags := ⟨true, false, false, false⟩ })
  (g4, bb)

/-- Profile bookkeeping prefix of the general branch of
thread_single_edge: when the threaded edge still enters the block to be
bypassed, shift its count and frequency off that block. -/
def tse_copy_g3 (g2 : CFG) (e bb eto : Nat) : CFG :=
  if (getEdge g2 e).dest = (getEdge g2 eto).src then
    update_bb_profile_for_threading g2 bb (EDGE_FREQUENCY g2 e) (getEdge g2 e).count
  else g2

/-- Duplication tail of the general branch of thread_single_edge:
duplicate the block, strip the duplicate, wire its single outgoing edge,
transfer the threaded edge's profile and redirect the threaded edge to
the duplicate. -/
def tse_copy_tail (g3 : CFG) (e bb eto : Nat) : CFG × Nat :=
  let npath : JTPath := [⟨some e, .startThread⟩, ⟨some eto, .srcBlock⟩]
  let rd : RD := { dupBlock := none, path := npath, incoming := [] }
  let cres := create_block_for_threading g3 bb
  let g4 := cres.1
  let dup := cres.2
  let g5 := remove_ctrl_stmt_and_useless_edges g4 dup none
  let g6 := create_edge_and_update_destination_phis g5 rd dup
  let g7 := setBB g6 dup (fun b =>
    { b with count := (getEdge g6 e).count, frequency := EDGE_FREQUENCY g6 e })
  let g8 :=
    match single_succ_edge g7 dup with
    | some s0 => setEdge g7 s0 (fun ed => { ed with count := (getEdge g7 e).count })
    | none => g7
  let g9 := (redirect_edge_and_branch g8 e dup).1
  (g9, dup)

/-- The general branch of thread_single_edge: profile bookkeeping on the
bypassed block, then the duplication tail. -/
def tse_copy (g2 : CFG) (e bb eto : Nat) : CFG × Nat :=
  tse_copy_tail (tse_copy_g3 g2 e bb eto) e bb eto

/-- Function thread_single_edge: thread edge e through its destination
to the second step of its path, freeing the path, clearing the slot
and counting the threaded edge, then taking the in-place branch for a
single-predecessor destination and the duplication branch otherwise. -/
def thread_single_edge (g : CFG) (e : Nat) : CFG × Nat :=
  let bb := (getEdge g e).dest
  let path := (auxOf g e).getD []
  let eto := stepEdge (pathStep path 1)
  let g1 := setAux g e none
  let g2 := { g1 with numThreadedEdges := g1.numThreadedEdges + 1 }
  if single_pred_p g2 bb then tse_inplace g2 bb eto
  else tse_copy g2 e bb eto

/-- One incoming edge of the pred scan of thread_block_1: skip edges
without a staged path or whose second step does not match the current
sub-pass, cancel requests that would thread through a buried loop
header, skip loop-header requests that are handled by the loop-header
code, update the profile of the bypassed block and record the edge in
the redirection hash table. -/
def threadBlockScanStep (bb : Nat) (noloop_only joiners : Bool)
    (st : CFG × List RD) (e : Nat) : CFG × List RD :=
  let g := st.1
  let table := st.2
  match auxOf g e with
  | none => (g, table)
  | some path =>
      if ((pathStep path 1).ty = .joinerBlock && !joiners) ||
         ((pathStep path 1).ty = .srcBlock && joiners) then (g, table)
      else
        let e2opt := (pathLast path).e
        let e2 := stepEdge (pathLast path)
        let inGuard := e2opt.isNone || noloop_only
        let contHeader := inGuard &&
          ((getLoop g (getBB g bb).loopFather).header = some bb &&
           (!loop_exit_edge_p g (getBB g bb).loopFather e2 ||
            (pathStep path 1).ty = .joinerBlock))
        if contHeader then (g, table)
        else
          let cancel := inGuard &&
            (((getBB g bb).loopFather ≠ (getBB g (getEdge g e2).src).loopFather &&
              !loop_exit_edge_p g (getBB g (getEdge g e2).src).loopFather e2) ||
             ((getBB g (getEdge g e2).src).loopFather ≠
                (getBB g (getEdge g e2).dest).loopFather &&
              !loop_exit_edge_p g (getBB g (getEdge g e2).src).loopFather e2))
          if cancel then (setAux g e none, table)
          else
            let g1 :=
              if (getEdge g e).dest = (getEdge g e2).src then
                update_bb_profile_for_threading g (getEdge g e).dest
                  (EDGE_FREQUENCY g e) (getEdge g e).count
              else g
            (g1, lookup_redirection_data table g1 e)

/-- Function thread_block_1: thread all staged incoming edges of BB that
match the current sub-pass.  The staged edges are grouped by path into
the redirection table, duplicates are created from a template copy,
their outgoing edges are wired up, and the incoming edges are redirected
onto the duplicates. -/
def thread_block_1 (g : CFG) (bb : Nat) (noloop_only joiners : Bool) :
    CFG × Bool :=
  let loopId := (getBB g bb).loopFather
  let g1 :=
    if (getLoop g loopId).header = some bb then
      match loop_latch_edge g loopId with
      | some le =>
          match auxOf g le with
          | some path =>
              if ((pathStep path 1).ty = .joinerBlock && joiners) ||
                 ((pathStep path 1).ty = .srcBlock && !joiners) then
                ((List.range path.length).drop 1).foldl (fun acc i =>
                  if loop_exit_edge_p acc loopId (stepEdge (pathStep path i)) then
                    { setLoop acc loopId (fun l =>
                        { l with header := none, latch := none }) with
                      needsFixup := true }
                  else acc) g
              else g
          | none => g
      | none => g
    else g
  let sres :=
    (preds g1 bb).foldl (threadBlockScanStep bb noloop_only joiners) (g1, [])
  let g2 := sres.1
  let table := sres.2
  let cres := table.foldl
    (fun (acc : CFG × List RD × Option Nat) rd =>
      match acc.2.2 with
      | none =>
          let ca := create_block_for_threading acc.1 bb
          (ca.1, acc.2.1 ++ [{ rd with dupBlock := some ca.2 }], some ca.2)
      | some t =>
          let ca := create_block_for_threading acc.1 t
          let rdn := { rd with dupBlock := some ca.2 }
          (ssa_fix_duplicate_block_edges ca.1 rdn bb, acc.2.1 ++ [rdn], some t))
    (g2, [], none)
  let g3 := cres.1
  let table2 := cres.2.1
  let template : Option Nat := (table2.head?).bind (·.dupBlock)
  let g4 := table2.foldl (fun acc rd =>
      if rd.dupBlock.isSome && rd.dupBlock = template then
        ssa_fix_duplicate_block_edges acc rd bb
      else acc) g3
  let g5 := table2.foldl (fun acc rd => ssa_redirect_edges acc rd) g4
  (g5, table2.any rdJumpsThreaded)

/-- Function thread_block: first thread the paths that do not copy a
joiner block, then the paths that do. -/
def thread_block (g : CFG) (bb : Nat) (noloop_only : Bool) : CFG × Bool :=
  let r1 := thread_block_1 g bb noloop_only false
  let r2 := thread_block_1 r1.1 bb noloop_only true
  (r2.1, r1.2 || r2.2)

/-- Fuel-bounded saturation of a reachability frontier: repeatedly add
the neighbors that satisfy P of the accumulated blocks, stopping when
nothing new is found. -/
def reachAux (adj : Nat → List Nat) (P : Nat → Bool) : Nat → List Nat → List Nat
  | 0, acc => acc
  | fuel + 1, acc =>
      let nxt := ((acc.flatMap adj).filter (fun y => P y && !acc.contains y)).dedup
      if nxt.isEmpty then acc else reachAux adj P fuel (acc ++ nxt)

/-- Modelled from the spec: the collaborator dfs_enumerate_from, a
generic reachability search parameterized by a stop predicate.  It
returns the blocks reachable from start (start itself included
unconditionally) by repeatedly following the predecessor relation (when
reverse) or the successor relation, where only neighbors satisfying P
are entered.  The search is bounded by the number of blocks of the
graph. -/
def dfs_enumerate_from (g : CFG) (reverse : Bool) (P : Nat → Bool)
    (start : Nat) : List Nat :=
  let adj := fun b => if reverse then predSrcs g b else succDests g b
  reachAux adj P (g.blocks.length + 1) [start]

/-- Status of the dominance evaluation (enum bb_dom_status). -/
inductive BbDomStatus
  | nondominating
  | loopBroken
  | dominating
deriving DecidableEq, Repr

/-- Function determine_bb_domination_status: evaluate whether BB
dominates the latch of the loop with the given header and latch.  If BB
is not a successor of the header the answer is NONDOMINATING (always
safe); the latch trivially dominates itself; otherwise the blocks
backward-reachable from the latch without entering BB or the header are
enumerated, and finding the header among their predecessors means
NONDOMINATING, else finding BB means DOMINATING, else the loop is
broken. -/
def determine_bb_domination_status (g : CFG) (header latch bb : Nat) :
    BbDomStatus :=
  if ¬ (header ∈ predSrcs g bb) then .nondominating
  else if bb = latch then .dominating
  else
    let bblocks :=
      dfs_enumerate_from g true (fun x => x ≠ bb && x ≠ header) latch
    if bblocks.any (fun x => header ∈ predSrcs g x) then .nondominating
    else if bblocks.any (fun x => bb ∈ predSrcs g x) then .dominating
    else .loopBroken

/-- Function phi_args_equal_on_edges: the phi arguments at the shared
destination agree between the two edges (operand equality is equality of
the modelled values). -/
def phi_args_equal_on_edges (g : CFG) (e1 e2 : Nat) : Bool :=
  ((getBB g (getEdge g e1).dest).phis).all (fun phi => phiArg phi e1 = phiArg phi e2)

/-- Insert a block index into the sorted-set model of a bitmap;
EXECUTE_IF_SET_IN_BITMAP then iterates in increasing index order. -/
def insertBit (i : Nat) : List Nat → List Nat
  | [] => [i]
  | j :: rest =>
      if i < j then i :: j :: rest
      else if i = j then j :: rest
      else j :: insertBit i rest

/-- Step 1 of mark_threaded_blocks: attach each registered path to the
annotation slot of its step-0 edge. -/
def mtbAttach (g : CFG) (paths : List JTPath) : CFG :=
  paths.foldl (fun acc p =>
    match p.head? with
    | some s =>
        match s.e with
        | some e0 => setAux acc e0 (some p)
        | none => acc
    | none => acc) g

/-- The bitmap of blocks that are threading targets: the destinations of
the step-0 edges of the registered paths. -/
def mtbBits (g : CFG) (paths : List JTPath) : List Nat :=
  paths.foldl (fun bits p =>
    match p.head? with
    | some s =>
        match s.e with
        | some e0 => insertBit ((getEdge g e0).dest) bits
        | none => bits
    | none => bits) []

/-- Cancel the staged request on one edge, if any (the aux-clearing
idiom used by the size filter and the failure paths). -/
def clrAux (acc : CFG) (e : Nat) : CFG :=
  if (auxOf acc e).isSome then setAux acc e none else acc

/-- One block of step 2 of mark_threaded_blocks under the
size-optimization policy: a threading target with more than one
predecessor that is not a pure redirection block has every staged
request into it cancelled; the other targets are recorded in the
threaded-blocks bitmap. -/
def sizeFilterStep (st : CFG × List Nat) (i : Nat) : CFG × List Nat :=
  if (preds st.1 i).length > 1 && !redirection_block_p st.1 i then
    ((preds st.1 i).foldl clrAux st.1, st.2)
  else (st.1, st.2 ++ [i])

/-- Step 2 of mark_threaded_blocks under the size-optimization policy. -/
def mtbSizeFilter (g : CFG) (bits : List Nat) : CFG × List Nat :=
  bits.foldl sizeFilterStep (g, [])

/-- Loop father of the destination block of the edge of a path step. -/
def destFather (g : CFG) (s : JTE) : Nat :=
  (getBB g (getEdge g (stepEdge s)).dest).loopFather

/-- The scan of step 3 of mark_threaded_blocks: walk the steps of a path
remembering the first loop father and the first differing loop father
seen; the index of the first step whose destination belongs to yet a
third distinct loop is returned, if any. -/
def trimFrom (g : CFG) (first : Nat) :
    Option Nat → Nat → JTPath → Option Nat
  | _, _, [] => none
  | second, i, s :: rest =>
      let d := destFather g s
      if d ≠ first ∧ second ≠ some d then
        match second with
        | some _ => some i
        | none => trimFrom g first (some d) (i + 1) rest
      else trimFrom g first second (i + 1) rest

/-- Step 3 of mark_threaded_blocks for a single staged edge: a path
whose steps see three distinct loop structures is truncated at the first
step entering the third one; if the truncation leaves fewer than two
steps or ends on a joiner step, the whole path is discarded. -/
def mtbTrimOne (g : CFG) (e : Nat) : CFG :=
  match auxOf g e with
  | none => g
  | some path =>
      let first := (getBB g (getEdge g (stepEdge (pathStep path 0))).src).loopFather
      match trimFrom g first none 0 path with
      | none => g
      | some i =>
          let tp := path.take i
          if tp.length < 2 || (pathLast tp).ty = .joinerBlock then setAux g e none
          else setAux g e (some tp)

/-- Step 3 of mark_threaded_blocks over all threading targets. -/
def mtbLoopTrim (g : CFG) (bits : List Nat) : CFG :=
  bits.foldl (fun acc i =>
    (preds acc i).foldl (fun acc2 e => mtbTrimOne acc2 e) acc) g

/-- Step 4 of mark_threaded_blocks for a single staged edge: for a
joiner-typed path, when the joiner block has a direct edge to the final
destination whose phi arguments disagree with those of the path's final
edge, the path is discarded. -/
def mtbJoinerOne (g : CFG) (e : Nat) : CFG :=
  match auxOf g e with
  | none => g
  | some path =>
      if (pathStep path 1).ty = .joinerBlock then
        let joiner := (getEdge g e).dest
        let finalE := stepEdge (pathLast path)
        let finalDest := (getEdge g finalE).dest
        match find_edge g joiner finalDest with
        | some e2 =>
            if !phi_args_equal_on_edges g e2 finalE then setAux g e none else g
        | none => g
      else g

/-- Step 4 of mark_threaded_blocks over all threading targets. -/
def mtbJoinerCheck (g : CFG) (bits : List Nat) : CFG :=
  bits.foldl (fun acc i =>
    (preds acc i).foldl (fun acc2 e => mtbJoinerOne acc2 e) acc) g

/-- Function mark_threaded_blocks: attach the registered paths to their
step-0 edges, apply the size-optimization filter, trim paths crossing
three loop structures, check joiner phi arguments, and return the
bitmap of blocks whose incoming edges will be threaded. -/
def mark_threaded_blocks (g : CFG) (paths : List JTPath) (optimizeSize : Bool) :
    CFG × List Nat :=
  let bits := mtbBits g paths
  let g1 := mtbAttach g paths
  let fres := if optimizeSize then mtbSizeFilter g1 bits else (g1, bits)
  let g3 := mtbLoopTrim fres.1 bits
  let g4 := mtbJoinerCheck g3 bits
  (g4, fres.2)

/-- Modelled from the spec: empty_block_p, used only to refuse
redirecting the loop entries to an empty latch; a block with no phi
functions and no executable statements. -/
def empty_block_p (g : CFG) (b : Nat) : Bool :=
  (getBB g b).phis.isEmpty &&
    ((getBB g b).stmts.dropWhile GCode.isSkippable).isEmpty

/-- Modelled from the spec: the collaborator create-preheader(loop).  A
fresh block in the parent loop is interposed before the header: the
entry edges of the header (those coming from outside the loop) are
redirected to it and it falls through to the header. -/
def create_preheader (g : CFG) (loopId : Nat) : CFG × Option Nat :=
  match (getLoop g loopId).header with
  | none => (g, none)
  | some h =>
      let nb := g.nextBlock
      let father := ((getLoop g loopId).parent).getD 0
      let g1 : CFG :=
        { g with
            blocks := g.blocks ++ [(nb, { (default : BBD) with loopFather := father })]
            nextBlock := nb + 1 }
      let entry := (preds g1 h).filter (fun e => !bbInLoop g1 (getEdge g1 e).src loopId)
      let g2 := entry.foldl (fun acc e => (redirect_edge_and_branch acc e nb).1) g1
      let (g3, _) := make_edge g2 nb h ⟨true, false, false, false⟩
      (g3, some nb)

/-- Modelled from the spec: the collaborator split-edge(edge).  A fresh
intermediate block is placed on the edge: the edge is retargetted to it
and it falls through to the old destination, taking over the edge's phi
argument slots there. -/
def split_edge (g : CFG) (e : Nat) : CFG × Nat :=
  let ed := getEdge g e
  let nb := g.nextBlock
  let g1 : CFG :=
    { g with
        blocks := g.blocks ++
          [(nb, { (default : BBD) with loopFather := (getBB g ed.src).loopFather })]
        nextBlock := nb + 1 }
  let g2 := setEdge g1 e (fun x => { x with dest := nb })
  let (g3, ne) := make_edge g2 nb ed.dest ⟨true, false, false, false⟩
  let g4 := setEdge g3 ne (fun x =>
    { x with count := ed.count, probability := REG_BR_PROB_BASE })
  let g5 := setBB g4 ed.dest (fun b =>
    { b with phis := b.phis.map (fun phi =>
        phi.map (fun pr => if pr.1 = e then (ne, pr.2) else pr)) })
  (g5, nb)

/-- Modelled from the spec: make_forwarder_block with the keep-just
policy (mfb_keep_just).  Every incoming edge of bb except the kept one
is redirected to a fresh forwarder block, which falls through to bb; the
identity of that fallthrough edge is returned. -/
def make_forwarder_block (g : CFG) (bb keep : Nat) : CFG × Nat :=
  let nb := g.nextBlock
  let g1 : CFG :=
    { g with
        blocks := g.blocks ++
          [(nb, { (default : BBD) with loopFather := (getBB g bb).loopFather })]
        nextBlock := nb + 1 }
  let moved := (preds g1 bb).filter (fun e => e ≠ keep)
  let g2 := moved.foldl (fun acc e => (redirect_edge_and_branch acc e nb).1) g1
  let (g3, ne) := make_edge g2 nb bb ⟨true, false, false, false⟩
  (g3, ne)

/-- Callback def_split_header_continue_p: block b is part of the new
preheader region split off when threading the latch to the new header. -/
def def_split_header_continue_p (g : CFG) (newHeader b : Nat) : Bool :=
  if b = newHeader ||
     loop_depth g (getBB g b).loopFather <
       loop_depth g (getBB g newHeader).loopFather then false
  else (getBB g newHeader).loopFather ∈ loopAncestors g (getBB g b).loopFather

/-- Failure exit of thread_through_loop_header: cancel the staged
requests on every incoming edge of the header. -/
def tthFail (g : CFG) (header : Nat) : CFG × Bool :=
  ((preds g header).foldl (fun acc e =>
      if (auxOf acc e).isSome then setAux acc e none else acc) g, false)

/-- The target-selection part of thread_through_loop_header: none means
the function fails (cancelling the header requests), some none means
there are no threading requests at all, and some (some (tgt, tgtE))
gives the common threading target and the last target edge seen. -/
def tthTarget (g : CFG) (header : Nat) (latchE : Option Nat)
    (may_peel : Bool) : Option (Option (Nat × Option Nat)) :=
  match latchE.bind (auxOf g) with
  | some path =>
      if (pathStep path 1).ty = .joinerBlock then none
      else
        let te := stepEdge (pathStep path 1)
        some (some ((getEdge g te).dest, some te))
  | none =>
      if !may_peel && !redirection_block_p g header then none
      else
        (preds g header).foldl
          (fun (st : Option (Option (Nat × Option Nat))) e =>
            match st with
            | none => none
            | some cur =>
                match auxOf g e with
                | none => if some e = latchE then some cur else none
                | some path =>
                    if (pathStep path 1).ty = .joinerBlock then none
                    else
                      let te := stepEdge (pathStep path 1)
                      let atgt := (getEdge g te).dest
                      match cur with
                      | none => some (some (atgt, some te))
                      | some (t, _) =>
                          if t = atgt then some (some (t, some te)) else none)
          (some none)

/-- Function thread_through_loop_header: thread jumps through the header
of the given loop, handling only the latch-hoist and common-entry
rotation shapes and cancelling everything else. -/
def thread_through_loop_header (g : CFG) (loopId : Nat) (may_peel : Bool) :
    CFG × Bool :=
  let header := ((getLoop g loopId).header).getD (2 ^ 60)
  let latchB := (getLoop g loopId).latch
  let latchE := loop_latch_edge g loopId
  if single_succ_p g header then tthFail g header
  else
    match tthTarget g header latchE may_peel with
    | none => tthFail g header
    | some none => (g, false)
    | some (some (tgt0, tgtE)) =>
        if some tgt0 = latchB && empty_block_p g tgt0 then tthFail g header
        else
          let domst := determine_bb_domination_status g header
            (latchB.getD (2 ^ 60)) tgt0
          if domst = .nondominating then tthFail g header
          else if domst = .loopBroken then
            let g1 := setLoop g loopId (fun l =>
              { l with header := none, latch := none })
            thread_block { g1 with needsFixup := true } header false
          else
            let (ga, tgt_bb) :=
              if (getLoop g (getBB g tgt0).loopFather).header = some tgt0 then
                if (preds g tgt0).length > 2 then
                  match create_preheader g (getBB g tgt0).loopFather with
                  | (gp, some p) => (gp, p)
                  | (gp, none) => (gp, tgt0)
                else
                  match tgtE with
                  | some te => split_edge g te
                  | none => (g, tgt0)
              else (g, tgt0)
            match latchE.bind (fun le => (auxOf ga le).map (fun _ => le)) with
            | some le =>
                let (gb, newLatch) := thread_single_edge ga le
                let gc := setLoop gb loopId (fun l => { l with latch := some newLatch })
                let gd :=
                  if ((single_succ_edge gc newLatch).map
                        (fun s => (getEdge gc s).dest)) = some tgt_bb then gc
                  else { gc with assertFailed := true }
                let ge := setLoop gd loopId (fun l => { l with header := some tgt_bb })
                let bblocks := dfs_enumerate_from ge false
                  (def_split_header_continue_p ge tgt_bb) header
                let parent := ((getLoop ge loopId).parent).getD 0
                let gf := bblocks.foldl (fun acc b =>
                    if (getBB acc b).loopFather = loopId then
                      setBB acc b (fun bd => { bd with loopFather := parent })
                    else acc) ge
                let hdr := ((getLoop gf loopId).header).getD (2 ^ 60)
                let gh := (preds gf hdr).foldl (fun acc e =>
                    if (getBB acc (getEdge acc e).src).loopFather = loopId &&
                       some ((getEdge acc e).src) ≠ (getLoop acc loopId).latch then
                      { setLoop acc loopId (fun l => { l with latch := none }) with
                        mayHaveMultipleLatches := true }
                    else acc) gf
                let gi := (preds gh header).foldl (fun acc e =>
                    match auxOf acc e with
                    | none => acc
                    | some path =>
                        let e2 := stepEdge (pathLast path)
                        if (getBB acc (getEdge acc e).src).loopFather ≠
                             (getBB acc (getEdge acc e2).dest).loopFather &&
                           some ((getEdge acc e2).dest) ≠ (getLoop acc loopId).header
                        then setAux acc e none
                        else acc) gh
                let (gj, _) := thread_block gi header false
                (gj, true)
            | none =>
                let eOpt := (preds ga header).find? (fun e => (auxOf ga e).isSome)
                let gb := (thread_block ga header false).1
                match eOpt with
                | none => (gb, true)
                | some e =>
                    let new_preheader := (getEdge gb e).dest
                    let gc := setLoop gb loopId (fun l => { l with latch := none })
                    match single_succ_edge gc new_preheader with
                    | none => (gc, true)
                    | some kj =>
                        let gd := setLoop gc loopId (fun l =>
                          { l with header := some ((getEdge gc kj).dest) })
                        let (ge, latchEdge) := make_forwarder_block gd tgt_bb kj
                        let gf := setLoop ge loopId (fun l =>
                          { l with
                              header := some ((getEdge ge latchEdge).dest)
                              latch := some ((getEdge ge latchEdge).src) })
                        (gf, true)

/-- Loop identities ordered innermost first (deepest loop first),
modelling the FOR_EACH_LOOP traversal with LI_FROM_INNERMOST. -/
def insertByDepth (g : CFG) (l : Nat) : List Nat → List Nat
  | [] => [l]
  | x :: rest =>
      if loop_depth g l ≥ loop_depth g x then l :: x :: rest
      else x :: insertByDepth g l rest

/-- Loop identities ordered innermost first. -/
def loopsInnermostFirst (g : CFG) : List Nat :=
  (g.loops.map (·.1)).foldr (fun l acc => insertByDepth g l acc) []

/-- The final sweep of thread_through_all_blocks: walk all blocks and
all their incoming edges and clear any annotation slot still set,
freeing the attached path. -/
def sweepAllAux (g : CFG) : CFG :=
  g.blocks.foldl (fun acc bp =>
    (preds acc bp.1).foldl (fun acc2 e => setAux acc2 e none) acc) g

/-- Function thread_through_all_blocks (the driver, apply_all): move the
registered paths onto the edges, apply the filters, thread the requests
that do not affect loop structure, thread through the loop headers from
the innermost loop outward, sweep every remaining annotation slot clean,
and report whether anything was threaded. -/
def thread_through_all_blocks (g : CFG) (paths : List JTPath)
    (may_peel optimizeSize : Bool) : CFG × Bool :=
  if paths.isEmpty then (g, false)
  else
    let g0 := { g with numThreadedEdges := 0 }
    let mres := mark_threaded_blocks g0 paths optimizeSize
    let threaded := mres.2
    let nres := threaded.foldl (fun (st : CFG × Bool) i =>
        if (preds st.1 i).length > 0 then
          let tres := thread_block st.1 i true
          (tres.1, st.2 || tres.2)
        else st) (mres.1, false)
    let lres := (loopsInnermostFirst nres.1).foldl
        (fun (st : CFG × Bool) li =>
          match (getLoop st.1 li).header with
          | none => st
          | some h =>
              if h ∈ threaded then
                let tres := thread_through_loop_header st.1 li may_peel
                (tres.1, st.2 || tres.2)
              else st) nres
    let g4 := sweepAllAux lres.1
    let g5 := if lres.2 then { g4 with needsFixup := true } else g4
    (g5, lres.2)

/-! ## Infrastructure lemmas about the state accessors -/

/-- Updating one entry of an association list, viewed through lookup. -/
theorem lookup_map_ite {α : Type} (l : List (Nat × α)) (i : Nat) (f : α → α)
    (j : Nat) :
    (l.map (fun p => if p.1 = i then (p.1, f p.2) else p)).lookup j =
      if j = i then (l.lookup j).map f else l.lookup j := by
  induction l with
  | nil => simp [List.lookup]
  | cons hd tl ih =>
      obtain ⟨a, b⟩ := hd
      have hmap : (if (a, b).1 = i then ((a, b).1, f (a, b).2) else (a, b))
          = (a, if a = i then f b else b) := by
        by_cases hai : a = i <;> simp [hai]
      rw [List.map_cons, hmap]
      by_cases hja : j = a
      · subst hja
        by_cases hai : j = i <;> simp [List.lookup, hai]
      · have hb : (j == a) = false := beq_false_of_ne hja
        simp only [List.lookup, hb]
        exact ih

/-- Looking up a block that is not the updated one. -/
theorem getBB_setBB_ne {g : CFG} {b b' : Nat} {f : BBD → BBD} (h : b' ≠ b) :
    getBB (setBB g b f) b' = getBB g b' := by
  simp [getBB, setBB, lookup_map_ite, h]

/-- Looking up the updated block, when it is live. -/
theorem getBB_setBB_self {g : CFG} {b : Nat} {f : BBD → BBD}
    (h : (g.blocks.lookup b).isSome) :
    getBB (setBB g b f) b = f (getBB g b) := by
  rcases Option.isSome_iff_exists.mp h with ⟨v, hv⟩
  simp [getBB, setBB, lookup_map_ite, hv]

/-- Looking up an edge that is not the updated one. -/
theorem getEdge_setEdge_ne {g : CFG} {i j : Nat} {f : EdgeD → EdgeD} (h : j ≠ i) :
    getEdge (setEdge g i f) j = getEdge g j := by
  simp [getEdge, setEdge, lookup_map_ite, h]

/-- Looking up the updated edge, when it is live. -/
theorem getEdge_setEdge_self {g : CFG} {i : Nat} {f : EdgeD → EdgeD}
    (h : (g.edges.lookup i).isSome) :
    getEdge (setEdge g i f) i = f (getEdge g i) := by
  rcases Option.isSome_iff_exists.mp h with ⟨v, hv⟩
  simp [getEdge, setEdge, lookup_map_ite, hv]

/-- The identity/source/destination skeleton of the edge list; the
incidence structure of the graph is a function of it. -/
def edgeSkel (g : CFG) : List (Nat × Nat × Nat) :=
  g.edges.map (fun p => (p.1, p.2.src, p.2.dest))

/-- The key skeleton of the block list. -/
def blockSkel (g : CFG) : List Nat := g.blocks.map (·.1)

/-- setEdge with a function that moves neither endpoint preserves the
edge skeleton. -/
theorem edgeSkel_setEdge {g : CFG} {i : Nat} {f : EdgeD → EdgeD}
    (hf : ∀ e, (f e).src = e.src ∧ (f e).dest = e.dest) :
    edgeSkel (setEdge g i f) = edgeSkel g := by
  simp only [edgeSkel, setEdge, List.map_map]
  refine List.map_congr_left ?_
  intro p _
  by_cases hp : p.1 = i
  · simp [Function.comp, hp, (hf p.2).1, (hf p.2).2]
  · simp [Function.comp, hp]

/-- setAux preserves the edge skeleton. -/
theorem edgeSkel_setAux (g : CFG) (i : Nat) (a : Option JTPath) :
    edgeSkel (setAux g i a) = edgeSkel g :=
  edgeSkel_setEdge (fun _ => ⟨rfl, rfl⟩)

/-- setBB does not touch the edges at all. -/
theorem edges_setBB (g : CFG) (b : Nat) (f : BBD → BBD) :
    (setBB g b f).edges = g.edges := rfl

/-- setBB preserves the block keys. -/
theorem blockSkel_setBB (g : CFG) (b : Nat) (f : BBD → BBD) :
    blockSkel (setBB g b f) = blockSkel g := by
  simp only [blockSkel, setBB, List.map_map]
  refine List.map_congr_left ?_
  intro p _
  by_cases hp : p.1 = b <;> simp [Function.comp, hp]

/-- setEdge preserves the blocks. -/
theorem blocks_setEdge (g : CFG) (i : Nat) (f : EdgeD → EdgeD) :
    (setEdge g i f).blocks = g.blocks := rfl

/-- The incoming edges of a block are a function of the edge skeleton. -/
theorem preds_eq_of_edgeSkel {g g' : CFG} (h : edgeSkel g = edgeSkel g')
    (b : Nat) : preds g b = preds g' b := by
  have key : ∀ (l : List (Nat × EdgeD)),
      ((l.filter (fun p => p.2.dest = b)).map (·.1)) =
        (((l.map (fun p => (p.1, p.2.src, p.2.dest))).filter
            (fun t => t.2.2 = b)).map (·.1)) := by
    intro l
    induction l with
    | nil => rfl
    | cons hd tl ih =>
        by_cases hd2 : hd.2.dest = b <;>
          simp [List.filter, hd2, ih]
  show (g.edges.filter _).map _ = (g'.edges.filter _).map _
  rw [key g.edges, key g'.edges]
  rw [show g.edges.map (fun p => (p.1, p.2.src, p.2.dest)) = edgeSkel g from rfl]
  rw [show g'.edges.map (fun p => (p.1, p.2.src, p.2.dest)) = edgeSkel g' from rfl]
  rw [h]

/-- The outgoing edges of a block are a function of the edge skeleton. -/
theorem succs_eq_of_edgeSkel {g g' : CFG} (h : edgeSkel g = edgeSkel g')
    (b : Nat) : succs g b = succs g' b := by
  have key : ∀ (l : List (Nat × EdgeD)),
      ((l.filter (fun p => p.2.src = b)).map (·.1)) =
        (((l.map (fun p => (p.1, p.2.src, p.2.dest))).filter
            (fun t => t.2.1 = b)).map (·.1)) := by
    intro l
    induction l with
    | nil => rfl
    | cons hd tl ih =>
        by_cases hd2 : hd.2.src = b <;>
          simp [List.filter, hd2, ih]
  show (g.edges.filter _).map _ = (g'.edges.filter _).map _
  rw [key g.edges, key g'.edges]
  rw [show g.edges.map (fun p => (p.1, p.2.src, p.2.dest)) = edgeSkel g from rfl]
  rw [show g'.edges.map (fun p => (p.1, p.2.src, p.2.dest)) = edgeSkel g' from rfl]
  rw [h]

/-- The predecessor sources of a block are a function of the edge
skeleton. -/
theorem predSrcs_eq_of_edgeSkel {g g' : CFG} (h : edgeSkel g = edgeSkel g')
    (b : Nat) : predSrcs g b = predSrcs g' b := by
  have key : ∀ (l : List (Nat × EdgeD)),
      ((l.filter (fun p => p.2.dest = b)).map (·.2.src)) =
        (((l.map (fun p => (p.1, p.2.src, p.2.dest))).filter
            (fun t => t.2.2 = b)).map (·.2.1)) := by
    intro l
    induction l with
    | nil => rfl
    | cons hd tl ih =>
        by_cases hd2 : hd.2.dest = b <;>
          simp [List.filter, hd2, ih]
  show (g.edges.filter _).map _ = (g'.edges.filter _).map _
  rw [key g.edges, key g'.edges]
  rw [show g.edges.map (fun p => (p.1, p.2.src, p.2.dest)) = edgeSkel g from rfl]
  rw [show g'.edges.map (fun p => (p.1, p.2.src, p.2.dest)) = edgeSkel g' from rfl]
  rw [h]

/-- The find_edge query is a function of the edge skeleton. -/
theorem find_edge_eq_of_edgeSkel {g g' : CFG} (h : edgeSkel g = edgeSkel g')
    (s d : Nat) : find_edge g s d = find_edge g' s d := by
  have key : ∀ (l : List (Nat × EdgeD)),
      ((l.find? (fun p => p.2.src = s ∧ p.2.dest = d)).map (·.1)) =
        (((l.map (fun p => (p.1, p.2.src, p.2.dest))).find?
            (fun t => t.2.1 = s ∧ t.2.2 = d)).map (·.1)) := by
    intro l
    induction l with
    | nil => rfl
    | cons hd tl ih =>
        by_cases hd2 : hd.2.src = s ∧ hd.2.dest = d
        · simp [List.find?, hd2]
        · have h1 : (decide (hd.2.src = s ∧ hd.2.dest = d)) = false := by
            simpa using hd2
          simp only [List.find?, List.map_cons, h1]
          exact ih
  show (g.edges.find? _).map _ = (g'.edges.find? _).map _
  rw [key g.edges, key g'.edges]
  rw [show g.edges.map (fun p => (p.1, p.2.src, p.2.dest)) = edgeSkel g from rfl]
  rw [show g'.edges.map (fun p => (p.1, p.2.src, p.2.dest)) = edgeSkel g' from rfl]
  rw [h]

/-- Aux slot after setting the slot of another edge. -/
theorem auxOf_setAux_ne {g : CFG} {i j : Nat} {a : Option JTPath} (h : j ≠ i) :
    auxOf (setAux g i a) j = auxOf g j := by
  unfold auxOf setAux
  rw [getEdge_setEdge_ne h]

/-- Aux slot of the edge whose slot was just set, when it is live. -/
theorem auxOf_setAux_self {g : CFG} {i : Nat} {a : Option JTPath}
    (h : (g.edges.lookup i).isSome) :
    auxOf (setAux g i a) i = a := by
  simp [auxOf, setAux, getEdge_setEdge_self h]

/-- Aux slot of a dead edge identity is none. -/
theorem auxOf_setAux_dead {g : CFG} {i : Nat} {a : Option JTPath}
    (h : (g.edges.lookup i).isSome = false) :
    auxOf (setAux g i a) i = none := by
  have h0 : g.edges.lookup i = none := by
    cases hv : g.edges.lookup i with
    | none => rfl
    | some v => rw [hv] at h; simp at h
  have h1 := lookup_map_ite g.edges i (fun e => { e with aux := a }) i
  rw [if_pos rfl, h0] at h1
  have h2 : List.lookup i (setAux g i a).edges = none := h1
  unfold auxOf getEdge
  rw [h2]
  rfl

/-- Aux slot after a setBB: unchanged. -/
theorem auxOf_setBB (g : CFG) (b : Nat) (f : BBD → BBD) (j : Nat) :
    auxOf (setBB g b f) j = auxOf g j := rfl

/-- Lookup commutes with removing a different key. -/
theorem lookup_filter_ne {α : Type} {l : List (Nat × α)} {i j : Nat} (h : j ≠ i) :
    (l.filter (fun p => p.1 ≠ i)).lookup j = l.lookup j := by
  induction l with
  | nil => rfl
  | cons hd tl ih =>
      obtain ⟨a, b⟩ := hd
      by_cases hh : a = i
      · rw [List.filter_cons_of_neg (by simp [hh])]
        rw [ih]
        have hb : (j == a) = false := beq_false_of_ne (by rw [hh]; exact h)
        simp [List.lookup, hb]
      · rw [List.filter_cons_of_pos (by simp [hh])]
        by_cases hja : j = a
        · subst hja
          simp [List.lookup]
        · have hb : (j == a) = false := beq_false_of_ne hja
          simp only [List.lookup, hb]
          exact ih

/-- Lookup in the blocks of a setBB. -/
theorem lookup_blocks_setBB (g : CFG) (b : Nat) (f : BBD → BBD) (b' : Nat) :
    List.lookup b' (setBB g b f).blocks =
      if b' = b then (List.lookup b' g.blocks).map f
      else List.lookup b' g.blocks :=
  lookup_map_ite g.blocks b f b'

/-- Lookup in the edges of a setEdge. -/
theorem lookup_edges_setEdge (g : CFG) (i : Nat) (f : EdgeD → EdgeD) (j : Nat) :
    List.lookup j (setEdge g i f).edges =
      if j = i then (List.lookup j g.edges).map f
      else List.lookup j g.edges :=
  lookup_map_ite g.edges i f j

/-- setBB keeps every block's liveness. -/
theorem lookup_isSome_setBB (g : CFG) (b : Nat) (f : BBD → BBD) (b' : Nat) :
    (List.lookup b' (setBB g b f).blocks).isSome =
      (List.lookup b' g.blocks).isSome := by
  rw [lookup_blocks_setBB]
  by_cases hb : b' = b <;> simp [hb]

/-- Block count is untouched by a setBB whose function keeps counts. -/
theorem getBB_count_setBB {g : CFG} {b : Nat} {f : BBD → BBD} {b' : Nat}
    (hf : ∀ x, (f x).count = x.count) :
    (getBB (setBB g b f) b').count = (getBB g b').count := by
  unfold getBB
  rw [lookup_blocks_setBB]
  by_cases hb : b' = b
  · rw [if_pos hb]
    cases hv : List.lookup b' g.blocks with
    | none => rfl
    | some v => simp [hf v]
  · rw [if_neg hb]

/-- Block frequency is untouched by a setBB whose function keeps
frequencies. -/
theorem getBB_freq_setBB {g : CFG} {b : Nat} {f : BBD → BBD} {b' : Nat}
    (hf : ∀ x, (f x).frequency = x.frequency) :
    (getBB (setBB g b f) b').frequency = (getBB g b').frequency := by
  unfold getBB
  rw [lookup_blocks_setBB]
  by_cases hb : b' = b
  · rw [if_pos hb]
    cases hv : List.lookup b' g.blocks with
    | none => rfl
    | some v => simp [hf v]
  · rw [if_neg hb]

/-- getBB ignores edge updates. -/
theorem getBB_setEdge (g : CFG) (i : Nat) (f : EdgeD → EdgeD) (b : Nat) :
    getBB (setEdge g i f) b = getBB g b := rfl

/-- getEdge ignores block updates. -/
theorem getEdge_setBB (g : CFG) (b : Nat) (f : BBD → BBD) (j : Nat) :
    getEdge (setBB g b f) j = getEdge g j := rfl

/-- Block liveness ignores edge updates. -/
theorem lookup_blocks_setEdge (g : CFG) (i : Nat) (f : EdgeD → EdgeD) (b : Nat) :
    List.lookup b (setEdge g i f).blocks = List.lookup b g.blocks := rfl

/-- Counts of blocks survive a remove_edge. -/
theorem getBB_count_remove_edge (g : CFG) (i b : Nat) :
    (getBB (remove_edge g i) b).count = (getBB g b).count := by
  have h : getBB (remove_edge g i) b =
      getBB (setBB g (getEdge g i).dest (fun bd =>
        { bd with phis := bd.phis.map (fun phi =>
            phi.filter (fun pr => pr.1 ≠ i)) })) b := rfl
  rw [h]
  exact getBB_count_setBB (fun _ => rfl)

/-- Frequencies of blocks survive a remove_edge. -/
theorem getBB_freq_remove_edge (g : CFG) (i b : Nat) :
    (getBB (remove_edge g i) b).frequency = (getBB g b).frequency := by
  have h : getBB (remove_edge g i) b =
      getBB (setBB g (getEdge g i).dest (fun bd =>
        { bd with phis := bd.phis.map (fun phi =>
            phi.filter (fun pr => pr.1 ≠ i)) })) b := rfl
  rw [h]
  exact getBB_freq_setBB (fun _ => rfl)

/-- Liveness of blocks survives a remove_edge. -/
theorem lookup_blocks_remove_edge (g : CFG) (i b : Nat) :
    (List.lookup b (remove_edge g i).blocks).isSome =
      (List.lookup b g.blocks).isSome := by
  have h : (remove_edge g i).blocks =
      (setBB g (getEdge g i).dest (fun bd =>
        { bd with phis := bd.phis.map (fun phi =>
            phi.filter (fun pr => pr.1 ≠ i)) })).blocks := rfl
  rw [h]
  exact lookup_isSome_setBB _ _ _ _

/-- Edges other than the removed identity survive a remove_edge. -/
theorem getEdge_remove_edge {g : CFG} {i j : Nat} (hj : j ≠ i) :
    getEdge (remove_edge g i) j = getEdge g j := by
  have h : (remove_edge g i).edges =
      ((setBB g (getEdge g i).dest (fun bd =>
        { bd with phis := bd.phis.map (fun phi =>
            phi.filter (fun pr => pr.1 ≠ i)) })).edges).filter
        (fun p => p.1 ≠ i) := rfl
  unfold getEdge
  rw [h, lookup_filter_ne hj, edges_setBB]

/-- Unfolding of redirect_edge_and_branch in the merge case. -/
theorem redirect_merge_eq {g : CFG} {i nd s : Nat}
    (hfe : find_edge g (getEdge g i).src nd = some s) (hsi : s ≠ i) :
    redirect_edge_and_branch g i nd =
      (remove_edge (setEdge g s (fun se =>
        { se with
            flags := ⟨se.flags.fallthru || (getEdge g i).flags.fallthru,
                      se.flags.trueVal || (getEdge g i).flags.trueVal,
                      se.flags.falseVal || (getEdge g i).flags.falseVal,
                      se.flags.abnormal || (getEdge g i).flags.abnormal⟩
            probability := min (se.probability + (getEdge g i).probability)
              REG_BR_PROB_BASE
            count := se.count + (getEdge g i).count })) i, s) := by
  simp only [redirect_edge_and_branch, hfe, if_neg hsi]

/-- Unfolding of redirect_edge_and_branch in the self case. -/
theorem redirect_self_eq {g : CFG} {i nd : Nat}
    (hfe : find_edge g (getEdge g i).src nd = some i) :
    redirect_edge_and_branch g i nd = (g, i) := by
  simp [redirect_edge_and_branch, hfe]

/-- Unfolding of redirect_edge_and_branch in the in-place case. -/
theorem redirect_inplace_eq {g : CFG} {i nd : Nat}
    (hfe : find_edge g (getEdge g i).src nd = none) :
    redirect_edge_and_branch g i nd =
      (setEdge (setBB g (getEdge g i).dest (fun b =>
          { b with phis := b.phis.map (fun phi =>
              phi.filter (fun pr => pr.1 ≠ i)) })) i
        (fun ed => { ed with dest := nd }), i) := by
  simp only [redirect_edge_and_branch, hfe]

/-- Counts of blocks survive redirect_edge_and_branch. -/
theorem getBB_count_redirect (g : CFG) (i nd b : Nat) :
    (getBB (redirect_edge_and_branch g i nd).1 b).count = (getBB g b).count := by
  cases hfe : find_edge g (getEdge g i).src nd with
  | none =>
      rw [redirect_inplace_eq hfe, getBB_setEdge]
      exact getBB_count_setBB (fun _ => rfl)
  | some s =>
      by_cases hsi : s = i
      · subst hsi
        rw [redirect_self_eq hfe]
      · rw [redirect_merge_eq hfe hsi, getBB_count_remove_edge, getBB_setEdge]

/-- Frequencies of blocks survive redirect_edge_and_branch. -/
theorem getBB_freq_redirect (g : CFG) (i nd b : Nat) :
    (getBB (redirect_edge_and_branch g i nd).1 b).frequency =
      (getBB g b).frequency := by
  cases hfe : find_edge g (getEdge g i).src nd with
  | none =>
      rw [redirect_inplace_eq hfe, getBB_setEdge]
      exact getBB_freq_setBB (fun _ => rfl)
  | some s =>
      by_cases hsi : s = i
      · subst hsi
        rw [redirect_self_eq hfe]
      · rw [redirect_merge_eq hfe hsi, getBB_freq_remove_edge, getBB_setEdge]

/-- Liveness of blocks survives redirect_edge_and_branch. -/
theorem lookup_blocks_redirect (g : CFG) (i nd b : Nat) :
    (List.lookup b (redirect_edge_and_branch g i nd).1.blocks).isSome =
      (List.lookup b g.blocks).isSome := by
  cases hfe : find_edge g (getEdge g i).src nd with
  | none =>
      rw [redirect_inplace_eq hfe]
      rw [lookup_blocks_setEdge]
      exact lookup_isSome_setBB _ _ _ _
  | some s =>
      by_cases hsi : s = i
      · subst hsi
        rw [redirect_self_eq hfe]
      · rw [redirect_merge_eq hfe hsi, lookup_blocks_remove_edge,
          lookup_blocks_setEdge]

/-- With duplicate-free keys, membership determines lookup. -/
theorem lookup_eq_of_mem {α : Type} {l : List (Nat × α)}
    (hn : (l.map (·.1)).Nodup) {k : Nat} {v : α} (hm : (k, v) ∈ l) :
    l.lookup k = some v := by
  induction l with
  | nil => cases hm
  | cons hd tl ih =>
      rcases List.mem_cons.mp hm with heq | htl
      · subst heq
        simp [List.lookup]
      · have hk : k ∈ tl.map (·.1) :=
          List.mem_map.mpr ⟨(k, v), htl, rfl⟩
        have hn2 : (hd.1 :: tl.map (·.1)).Nodup := by
          simpa using hn
        have h1 : hd.1 ∉ tl.map (·.1) := (List.nodup_cons.mp hn2).1
        have hne : hd.1 ≠ k := by
          intro hc
          apply h1
          rw [hc]
          exact hk
        have hb : (k == hd.1) = false := beq_false_of_ne (Ne.symm hne)
        obtain ⟨a, b⟩ := hd
        simp only [List.lookup, hb]
        exact ih (List.nodup_cons.mp hn2).2 htl

/-- With duplicate-free keys, the edge found by find_edge has the
requested endpoints. -/
theorem find_edge_spec {g : CFG} (hn : (g.edges.map (·.1)).Nodup)
    {s d i : Nat} (h : find_edge g s d = some i) :
    (getEdge g i).src = s ∧ (getEdge g i).dest = d := by
  unfold find_edge at h
  cases hf : g.edges.find? (fun p => p.2.src = s ∧ p.2.dest = d) with
  | none => rw [hf] at h; simp at h
  | some p =>
      rw [hf] at h
      simp at h
      have hp := List.find?_some hf
      have hmem := List.mem_of_find?_eq_some hf
      have hpd : p.2.src = s ∧ p.2.dest = d := of_decide_eq_true hp
      have hlook : g.edges.lookup p.1 = some p.2 :=
        lookup_eq_of_mem hn (by exact hmem)
      have hid : i = p.1 := by omega
      subst hid
      unfold getEdge
      rw [hlook]
      exact ⟨hpd.1, hpd.2⟩

/-- Generic fold invariant. -/
theorem foldl_invariant {β : Type} (f : CFG → β → CFG) (P : CFG → Prop)
    (hf : ∀ acc x, P acc → P (f acc x)) :
    ∀ (l : List β) (s : CFG), P s → P (l.foldl f s) := by
  intro l
  induction l with
  | nil => intro s hs; exact hs
  | cons hd tl ih => intro s hs; exact ih (f s hd) (hf s hd hs)

/-- Generic fold blocks-preservation. -/
theorem foldl_blocks_invariant {β : Type} (f : CFG → β → CFG)
    (hf : ∀ acc x, (f acc x).blocks = acc.blocks) :
    ∀ (l : List β) (s : CFG), (l.foldl f s).blocks = s.blocks := by
  intro l
  induction l with
  | nil => intro s; rfl
  | cons hd tl ih => intro s; rw [List.foldl_cons, ih, hf]

/-- Lookup distributes over list append. -/
theorem lookup_append {α : Type} (l1 l2 : List (Nat × α)) (k : Nat) :
    (l1 ++ l2).lookup k =
      match l1.lookup k with
      | some v => some v
      | none => l2.lookup k := by
  induction l1 with
  | nil => simp [List.lookup]
  | cons hd tl ih =>
      obtain ⟨a, b⟩ := hd
      by_cases hk : k = a
      · subst hk
        simp [List.lookup]
      · have hb : (k == a) = false := beq_false_of_ne hk
        simp only [List.cons_append, List.lookup, hb]
        exact ih

/-- A key outside the key list has no binding. -/
theorem lookup_eq_none_of_not_mem {α : Type} {l : List (Nat × α)} {k : Nat}
    (h : k ∉ l.map (·.1)) : l.lookup k = none := by
  induction l with
  | nil => rfl
  | cons hd tl ih =>
      have h1 : k ≠ hd.1 := by
        intro hc
        exact h (by simp [hc])
      have hb : (k == hd.1) = false := beq_false_of_ne h1
      obtain ⟨a, b⟩ := hd
      simp only [List.lookup, hb]
      exact ih (fun hc => h (by simp; right; simpa using hc))

/-- setEdge preserves the edge keys. -/
theorem edges_map_fst_setEdge (g : CFG) (i : Nat) (f : EdgeD → EdgeD) :
    (setEdge g i f).edges.map (·.1) = g.edges.map (·.1) := by
  show (g.edges.map _).map _ = _
  rw [List.map_map]
  refine List.map_congr_left ?_
  intro p _
  by_cases hp : p.1 = i <;> simp [Function.comp, hp]

/-- remove_edge keeps the edge keys duplicate-free. -/
theorem nodup_keys_remove_edge {g : CFG} {i : Nat}
    (hn : (g.edges.map (·.1)).Nodup) :
    ((remove_edge g i).edges.map (·.1)).Nodup := by
  have h : (remove_edge g i).edges =
      ((setBB g (getEdge g i).dest (fun bd =>
        { bd with phis := bd.phis.map (fun phi =>
            phi.filter (fun pr => pr.1 ≠ i)) })).edges).filter
        (fun p => p.1 ≠ i) := rfl
  rw [h, edges_setBB]
  exact List.Nodup.sublist (List.Sublist.map _ (List.filter_sublist _)) hn

/-- redirect_edge_and_branch keeps the edge keys duplicate-free. -/
theorem nodup_keys_redirect {g : CFG} {i nd : Nat}
    (hn : (g.edges.map (·.1)).Nodup) :
    ((redirect_edge_and_branch g i nd).1.edges.map (·.1)).Nodup := by
  cases hfe : find_edge g (getEdge g i).src nd with
  | none =>
      rw [redirect_inplace_eq hfe]
      rw [edges_map_fst_setEdge]
      rw [show (setBB g (getEdge g i).dest _).edges = g.edges from rfl]
      exact hn
  | some s =>
      by_cases hsi : s = i
      · subst hsi
        rw [redirect_self_eq hfe]
        exact hn
      · rw [redirect_merge_eq hfe hsi]
        refine nodup_keys_remove_edge ?_
        rw [edges_map_fst_setEdge]
        exact hn

/-- Edges away from the redirected edge and the new destination survive
redirect_edge_and_branch. -/
theorem getEdge_redirect_pres {g : CFG} {i nd j : Nat}
    (hn : (g.edges.map (·.1)).Nodup) (hj : j ≠ i)
    (hjd : (getEdge g j).dest ≠ nd) :
    getEdge (redirect_edge_and_branch g i nd).1 j = getEdge g j := by
  cases hfe : find_edge g (getEdge g i).src nd with
  | none =>
      rw [redirect_inplace_eq hfe]
      show getEdge (setEdge _ i _) j = _
      rw [getEdge_setEdge_ne hj, getEdge_setBB]
  | some s =>
      by_cases hsi : s = i
      · subst hsi
        rw [redirect_self_eq hfe]
      · rw [redirect_merge_eq hfe hsi]
        have hsd : (getEdge g s).dest = nd := (find_edge_spec hn hfe).2
        have hjs : j ≠ s := by
          intro hc
          rw [hc] at hjd
          exact hjd hsd
        show getEdge (remove_edge (setEdge g s _) i) j = _
        rw [getEdge_remove_edge hj, getEdge_setEdge_ne hjs]

/-- A member of the succs vector of b is an edge with source b. -/
theorem src_of_mem_succs {g : CFG} (hn : (g.edges.map (·.1)).Nodup)
    {b s0 : Nat} (h : s0 ∈ succs g b) : (getEdge g s0).src = b := by
  unfold succs at h
  rcases List.mem_map.mp h with ⟨p, hp, hps⟩
  have hmem : p ∈ g.edges := List.mem_of_mem_filter hp
  have hsrc : p.2.src = b := by
    have := List.of_mem_filter hp
    simpa using this
  have hlook : g.edges.lookup p.1 = some p.2 :=
    lookup_eq_of_mem hn (by exact hmem)
  have : getEdge g s0 = p.2 := by
    unfold getEdge
    rw [← hps, hlook]
    rfl
  rw [this, hsrc]

/-- The head of a list is a member. -/
theorem head?_mem {α : Type} {l : List α} {a : α} (h : l.head? = some a) :
    a ∈ l := by
  cases l with
  | nil => cases h
  | cons hd tl =>
      have : hd = a := by simpa using h
      rw [← this]
      exact List.mem_cons_self hd tl

/-- Profile accumulation: effect on the duplicate's count, frequency,
on the remaining blocks, and on edges (none). -/
theorem redirectStepProfile_getEdge (dup : Nat) (acc : CFG) (e j : Nat) :
    getEdge (redirectStepProfile dup acc e) j = getEdge acc j := by
  simp only [redirectStepProfile]
  split <;> rfl

/-- Profile accumulation leaves every block's liveness. -/
theorem redirectStepProfile_live (dup : Nat) (acc : CFG) (e b : Nat) :
    (List.lookup b (redirectStepProfile dup acc e).blocks).isSome =
      (List.lookup b acc.blocks).isSome := by
  simp only [redirectStepProfile]
  split
  · rw [lookup_isSome_setBB, lookup_isSome_setBB]
  · rw [lookup_isSome_setBB]

/-- Profile accumulation leaves the frequency of other blocks. -/
theorem redirectStepProfile_freq_other {dup : Nat} {acc : CFG} {e b : Nat}
    (hb : b ≠ dup) :
    (getBB (redirectStepProfile dup acc e) b).frequency =
      (getBB acc b).frequency := by
  simp only [redirectStepProfile]
  split
  · rw [getBB_setBB_ne hb, getBB_setBB_ne hb]
  · rw [getBB_setBB_ne hb]

/-- Profile accumulation on the duplicate itself. -/
theorem redirectStepProfile_dup {dup : Nat} {acc : CFG} {e : Nat}
    (hlive : (List.lookup dup acc.blocks).isSome)
    (hse : (getEdge acc e).src ≠ dup) :
    (getBB (redirectStepProfile dup acc e) dup).count =
        (getBB acc dup).count + (getEdge acc e).count ∧
    (getBB (redirectStepProfile dup acc e) dup).frequency =
      (if (getBB acc dup).frequency < BB_FREQ_MAX * 2
       then (getBB acc dup).frequency + EDGE_FREQUENCY acc e
       else (getBB acc dup).frequency) := by
  simp only [redirectStepProfile]
  have hlive1 : (List.lookup dup (setBB acc dup (fun b =>
      { b with count := b.count + (getEdge acc e).count })).blocks).isSome := by
    rw [lookup_isSome_setBB]
    exact hlive
  have hc1 : (getBB (setBB acc dup (fun b =>
      { b with count := b.count + (getEdge acc e).count })) dup).count =
      (getBB acc dup).count + (getEdge acc e).count := by
    rw [getBB_setBB_self hlive]
  have hf1 : (getBB (setBB acc dup (fun b =>
      { b with count := b.count + (getEdge acc e).count })) dup).frequency =
      (getBB acc dup).frequency := by
    rw [getBB_setBB_self hlive]
  have hef : EDGE_FREQUENCY (setBB acc dup (fun b =>
      { b with count := b.count + (getEdge acc e).count })) e =
      EDGE_FREQUENCY acc e := by
    simp only [EDGE_FREQUENCY]
    rw [getEdge_setBB]
    by_cases hsd : (getEdge acc e).src = dup
    · exact absurd hsd hse
    · rw [getBB_setBB_ne hsd]
  split
  · next hcond =>
      rw [hf1] at hcond
      constructor
      · rw [getBB_setBB_self hlive1, hc1]
      · rw [getBB_setBB_self hlive1, hf1, hef, if_pos hcond]
  · next hcond =>
      rw [hf1] at hcond
      exact ⟨hc1, by rw [hf1, if_neg hcond]⟩

/-- The successor-count bump leaves every block untouched. -/
theorem redirectStepSuccCount_getBB (dup : Nat) (path : JTPath) (a2 : CFG)
    (e b : Nat) :
    getBB (redirectStepSuccCount dup path a2 e) b = getBB a2 b := by
  unfold redirectStepSuccCount
  split
  · split <;> rfl
  · rfl

/-- The successor-count bump leaves the blocks list untouched. -/
theorem redirectStepSuccCount_blocks (dup : Nat) (path : JTPath) (a2 : CFG)
    (e : Nat) :
    (redirectStepSuccCount dup path a2 e).blocks = a2.blocks := by
  unfold redirectStepSuccCount
  split
  · split <;> rfl
  · rfl

/-- The successor-count bump keeps the keys. -/
theorem redirectStepSuccCount_keys (dup : Nat) (path : JTPath) (a2 : CFG)
    (e : Nat) :
    (redirectStepSuccCount dup path a2 e).edges.map (·.1) =
      a2.edges.map (·.1) := by
  unfold redirectStepSuccCount
  split
  · split
    · rw [edges_map_fst_setEdge]
    · rfl
  · rfl

/-- The successor-count bump leaves edges not leaving the duplicate. -/
theorem redirectStepSuccCount_getEdge {dup : Nat} {path : JTPath} {a2 : CFG}
    {e j : Nat} (hn : (a2.edges.map (·.1)).Nodup)
    (hjs : (getEdge a2 j).src ≠ dup) :
    getEdge (redirectStepSuccCount dup path a2 e) j = getEdge a2 j := by
  unfold redirectStepSuccCount
  split
  · cases hs0 : (succs a2 dup).head? with
    | none => rfl
    | some s0 =>
        have hsrc : (getEdge a2 s0).src = dup :=
          src_of_mem_succs hn (head?_mem hs0)
        have hne : j ≠ s0 := by
          intro hc
          rw [hc] at hjs
          exact hjs hsrc
        simp only
        rw [getEdge_setEdge_ne hne]
  · rfl

/-- Profile accumulation does not touch the edge list. -/
theorem redirectStepProfile_edges (dup : Nat) (acc : CFG) (e : Nat) :
    (redirectStepProfile dup acc e).edges = acc.edges := by
  simp only [redirectStepProfile]
  split <;> rfl

/-- One redirection step: effect on the duplicate's count and
frequency. -/
theorem redirectStep_dup_profile {rd : RD} {d : Nat} {g : CFG} {e : Nat}
    (hd : rd.dupBlock = some d)
    (hlive : (List.lookup d g.blocks).isSome)
    (hse : (getEdge g e).src ≠ d) :
    (getBB (redirectStep rd g e) d).count =
        (getBB g d).count + (getEdge g e).count ∧
    (getBB (redirectStep rd g e) d).frequency =
      (if (getBB g d).frequency < BB_FREQ_MAX * 2
       then (getBB g d).frequency + EDGE_FREQUENCY g e
       else (getBB g d).frequency) := by
  simp only [redirectStep, hd]
  have hsa : ∀ x : CFG, getBB (setAux x e none) d = getBB x d := fun _ => rfl
  rw [hsa]
  have hite : ∀ x : CFG,
      getBB (if (redirect_edge_and_branch x e d).2 = e
             then (redirect_edge_and_branch x e d).1
             else { (redirect_edge_and_branch x e d).1 with
                      assertFailed := true }) d =
        getBB (redirect_edge_and_branch x e d).1 d := by
    intro x
    split <;> rfl
  rw [hite]
  constructor
  · rw [getBB_count_redirect, redirectStepSuccCount_getBB]
    exact (@redirectStepProfile_dup d
      { g with numThreadedEdges := g.numThreadedEdges + 1 } e hlive hse).1
  · have hfr :
        (getBB (redirect_edge_and_branch
            (redirectStepSuccCount d ((auxOf g e).getD [])
              (redirectStepProfile d
                { g with numThreadedEdges := g.numThreadedEdges + 1 } e) e)
            e d).1 d).frequency =
        (getBB (redirectStepProfile d
            { g with numThreadedEdges := g.numThreadedEdges + 1 } e)
          d).frequency := by
      rw [getBB_freq_redirect, redirectStepSuccCount_getBB]
    rw [hfr]
    exact (@redirectStepProfile_dup d
      { g with numThreadedEdges := g.numThreadedEdges + 1 } e hlive hse).2

/-- One redirection step leaves the liveness of every block. -/
theorem redirectStep_live (rd : RD) (g : CFG) (e b : Nat) :
    (List.lookup b (redirectStep rd g e).blocks).isSome =
      (List.lookup b g.blocks).isSome := by
  simp only [redirectStep]
  cases hdup : rd.dupBlock with
  | none => rfl
  | some d =>
      have hsa : ∀ x : CFG,
          List.lookup b (setAux x e none).blocks = List.lookup b x.blocks :=
        fun _ => rfl
      rw [hsa]
      have hite : ∀ x : CFG,
          (List.lookup b (if (redirect_edge_and_branch x e d).2 = e
              then (redirect_edge_and_branch x e d).1
              else { (redirect_edge_and_branch x e d).1 with
                       assertFailed := true }).blocks).isSome =
            (List.lookup b (redirect_edge_and_branch x e d).1.blocks).isSome := by
        intro x
        split <;> rfl
      rw [hite, lookup_blocks_redirect]
      rw [show (redirectStepSuccCount d ((auxOf g e).getD [])
            (redirectStepProfile d
              { g with numThreadedEdges := g.numThreadedEdges + 1 } e) e).blocks =
          (redirectStepProfile d
              { g with numThreadedEdges := g.numThreadedEdges + 1 } e).blocks
        from redirectStepSuccCount_blocks _ _ _ _]
      rw [redirectStepProfile_live]

/-- One redirection step keeps the edge keys duplicate-free. -/
theorem redirectStep_keys {rd : RD} {g : CFG} {e : Nat}
    (hn : (g.edges.map (·.1)).Nodup) :
    ((redirectStep rd g e).edges.map (·.1)).Nodup := by
  simp only [redirectStep]
  cases hdup : rd.dupBlock with
  | none =>
      rw [show (setAux { g with
          numThreadedEdges := g.numThreadedEdges + 1 } e none).edges.map (·.1) =
        g.edges.map (·.1) from edges_map_fst_setEdge _ _ _]
      exact hn
  | some d =>
      have hsa : ∀ x : CFG,
          ((setAux x e none).edges.map (·.1)).Nodup ↔
            (x.edges.map (·.1)).Nodup := by
        intro x
        rw [show (setAux x e none).edges.map (·.1) = x.edges.map (·.1) from
          edges_map_fst_setEdge _ _ _]
      rw [hsa]
      have hite : (if (redirect_edge_and_branch
            (redirectStepSuccCount d ((auxOf g e).getD [])
              (redirectStepProfile d
                { g with numThreadedEdges := g.numThreadedEdges + 1 } e) e)
            e d).2 = e
          then (redirect_edge_and_branch
            (redirectStepSuccCount d ((auxOf g e).getD [])
              (redirectStepProfile d
                { g with numThreadedEdges := g.numThreadedEdges + 1 } e) e)
            e d).1
          else { (redirect_edge_and_branch
            (redirectStepSuccCount d ((auxOf g e).getD [])
              (redirectStepProfile d
                { g with numThreadedEdges := g.numThreadedEdges + 1 } e) e)
            e d).1 with assertFailed := true }).edges =
          (redirect_edge_and_branch
            (redirectStepSuccCount d ((auxOf g e).getD [])
              (redirectStepProfile d
                { g with numThreadedEdges := g.numThreadedEdges + 1 } e) e)
            e d).1.edges := by
        split <;> rfl
      rw [hite]
      refine nodup_keys_redirect ?_
      rw [redirectStepSuccCount_keys]
      rw [redirectStepProfile_edges]
      exact hn

/-- One redirection step leaves edges unrelated to the step. -/
theorem redirectStep_getEdge_pres {rd : RD} {d : Nat} {g : CFG} {e j : Nat}
    (hd : rd.dupBlock = some d) (hn : (g.edges.map (·.1)).Nodup)
    (hj : j ≠ e) (hjd : (getEdge g j).dest ≠ d) (hjs : (getEdge g j).src ≠ d) :
    getEdge (redirectStep rd g e) j = getEdge g j := by
  simp only [redirectStep, hd]
  have hsa : ∀ x : CFG, getEdge (setAux x e none) j = getEdge x j :=
    fun x => getEdge_setEdge_ne hj
  rw [hsa]
  have hite : ∀ x : CFG,
      getEdge (if (redirect_edge_and_branch x e d).2 = e
          then (redirect_edge_and_branch x e d).1
          else { (redirect_edge_and_branch x e d).1 with
                   assertFailed := true }) j =
        getEdge (redirect_edge_and_branch x e d).1 j := by
    intro x
    split <;> rfl
  rw [hite]
  have hprofE : getEdge (redirectStepProfile d
      { g with numThreadedEdges := g.numThreadedEdges + 1 } e) j = getEdge g j :=
    redirectStepProfile_getEdge _ _ _ _
  have hprofN : ((redirectStepProfile d
      { g with numThreadedEdges := g.numThreadedEdges + 1 } e).edges.map
        (·.1)).Nodup := by
    rw [redirectStepProfile_edges]
    exact hn
  have hsucc : getEdge (redirectStepSuccCount d ((auxOf g e).getD [])
      (redirectStepProfile d
        { g with numThreadedEdges := g.numThreadedEdges + 1 } e) e) j =
      getEdge g j := by
    rw [redirectStepSuccCount_getEdge hprofN (by rw [hprofE]; exact hjs), hprofE]
  have hsuccN : ((redirectStepSuccCount d ((auxOf g e).getD [])
      (redirectStepProfile d
        { g with numThreadedEdges := g.numThreadedEdges + 1 } e) e).edges.map
        (·.1)).Nodup := by
    rw [redirectStepSuccCount_keys, redirectStepProfile_edges]
    exact hn
  rw [getEdge_redirect_pres hsuccN hj (by rw [hsucc]; exact hjd), hsucc]

/-- One redirection step leaves the frequency of blocks other than the
duplicate. -/
theorem redirectStep_freq_other {rd : RD} {d : Nat} {g : CFG} {e b : Nat}
    (hd : rd.dupBlock = some d) (hb : b ≠ d) :
    (getBB (redirectStep rd g e) b).frequency = (getBB g b).frequency := by
  simp only [redirectStep, hd]
  have hsa : ∀ x : CFG, getBB (setAux x e none) b = getBB x b := fun _ => rfl
  rw [hsa]
  have hite : ∀ x : CFG,
      getBB (if (redirect_edge_and_branch x e d).2 = e
          then (redirect_edge_and_branch x e d).1
          else { (redirect_edge_and_branch x e d).1 with
                   assertFailed := true }) b =
        getBB (redirect_edge_and_branch x e d).1 b := by
    intro x
    split <;> rfl
  rw [hite, getBB_freq_redirect, redirectStepSuccCount_getBB]
  exact redirectStepProfile_freq_other hb

/-- One redirection step leaves the edge-frequency contribution of
unrelated edges. -/
theorem redirectStep_EF_pres {rd : RD} {d : Nat} {g : CFG} {e j : Nat}
    (hd : rd.dupBlock = some d) (hn : (g.edges.map (·.1)).Nodup)
    (hj : j ≠ e) (hjd : (getEdge g j).dest ≠ d) (hjs : (getEdge g j).src ≠ d) :
    EDGE_FREQUENCY (redirectStep rd g e) j = EDGE_FREQUENCY g j := by
  simp only [EDGE_FREQUENCY]
  rw [redirectStep_getEdge_pres hd hn hj hjd hjs]
  rw [redirectStep_freq_other hd hjs]

/-- Saturating-guard accumulation of frequencies, as in the loop of
ssa_redirect_edges: a contribution is added only while the running
frequency is below twice BB_FREQ_MAX. -/
def freqAccum (f : Nat) (xs : List Nat) : Nat :=
  xs.foldl (fun a x => if a < BB_FREQ_MAX * 2 then a + x else a) f

/-- The fold of ssa_redirect_edges: the duplicate's count receives the
plain (unsaturated) sum of the incoming edges' counts, and its frequency
receives the guarded accumulation of their frequency contributions. -/
theorem ssa_redirect_edges_fold {rd : RD} {d : Nat}
    (hd : rd.dupBlock = some d) :
    ∀ (l : List Nat) (g : CFG),
      l.Nodup →
      (g.edges.map (·.1)).Nodup →
      (List.lookup d g.blocks).isSome →
      (∀ e ∈ l, (getEdge g e).dest ≠ d ∧ (getEdge g e).src ≠ d) →
      (getBB (l.foldl (redirectStep rd) g) d).count =
          (getBB g d).count + (l.map (fun e => (getEdge g e).count)).sum ∧
      (getBB (l.foldl (redirectStep rd) g) d).frequency =
          freqAccum (getBB g d).frequency (l.map (fun e => EDGE_FREQUENCY g e)) := by
  intro l
  induction l with
  | nil =>
      intro g _ _ _ _
      simp [freqAccum]
  | cons e tl ih =>
      intro g hnd hkeys hlive hcond
      have hce := hcond e (List.mem_cons_self _ _)
      have hstep := redirectStep_dup_profile hd hlive hce.2
      have hnd2 : tl.Nodup := (List.nodup_cons.mp hnd).2
      have hnem : e ∉ tl := (List.nodup_cons.mp hnd).1
      have hkeys2 : ((redirectStep rd g e).edges.map (·.1)).Nodup :=
        redirectStep_keys hkeys
      have hlive2 : (List.lookup d (redirectStep rd g e).blocks).isSome := by
        rw [redirectStep_live]
        exact hlive
      have hpres : ∀ x ∈ tl, getEdge (redirectStep rd g e) x = getEdge g x := by
        intro x hx
        have hxe : x ≠ e := fun hc => hnem (hc ▸ hx)
        have hcx := hcond x (List.mem_cons_of_mem _ hx)
        exact redirectStep_getEdge_pres hd hkeys hxe hcx.1 hcx.2
      have hcond2 : ∀ x ∈ tl,
          (getEdge (redirectStep rd g e) x).dest ≠ d ∧
          (getEdge (redirectStep rd g e) x).src ≠ d := by
        intro x hx
        rw [hpres x hx]
        exact hcond x (List.mem_cons_of_mem _ hx)
      have hmain := ih (redirectStep rd g e) hnd2 hkeys2 hlive2 hcond2
      rw [List.foldl_cons]
      constructor
      · rw [hmain.1, hstep.1]
        have hmap : tl.map (fun x => (getEdge (redirectStep rd g e) x).count) =
            tl.map (fun x => (getEdge g x).count) := by
          refine List.map_congr_left ?_
          intro x hx
          rw [hpres x hx]
        rw [hmap, List.map_cons, List.sum_cons]
        omega
      · rw [hmain.2, hstep.2]
        have hmap : tl.map (fun x => EDGE_FREQUENCY (redirectStep rd g e) x) =
            tl.map (fun x => EDGE_FREQUENCY g x) := by
          refine List.map_congr_left ?_
          intro x hx
          have hxe : x ≠ e := fun hc => hnem (hc ▸ hx)
          have hcx := hcond x (List.mem_cons_of_mem _ hx)
          exact redirectStep_EF_pres hd hkeys hxe hcx.1 hcx.2
        rw [hmap, List.map_cons]
        rfl

/-- The identity returned by duplicate_block is the fresh block. -/
theorem duplicate_block_snd (g : CFG) (bb : Nat) :
    (duplicate_block g bb).2 = g.nextBlock := rfl

/-- The blocks after duplicate_block. -/
theorem duplicate_block_blocks (g : CFG) (bb : Nat) :
    (duplicate_block g bb).1.blocks =
      g.blocks ++ [(g.nextBlock, { getBB g bb with phis := [] })] := by
  simp only [duplicate_block]
  apply foldl_blocks_invariant
  intro acc x
  rfl

/-- The identity returned by create_block_for_threading is the fresh
block. -/
theorem create_block_snd (g : CFG) (bb : Nat) :
    (create_block_for_threading g bb).2 = g.nextBlock := rfl

/-- Freshly created duplicates start with a zeroed profile. -/
theorem create_block_zero_profile (g : CFG) (bb : Nat)
    (hfresh : ∀ b ∈ g.blocks.map (·.1), b < g.nextBlock) :
    (getBB (create_block_for_threading g bb).1
        (create_block_for_threading g bb).2).count = 0 ∧
    (getBB (create_block_for_threading g bb).1
        (create_block_for_threading g bb).2).frequency = 0 := by
  have hlook1 : List.lookup g.nextBlock g.blocks = none := by
    refine lookup_eq_none_of_not_mem ?_
    intro hmem
    exact absurd (hfresh _ hmem) (lt_irrefl _)
  have hb2 : ((succs (duplicate_block g bb).1 (duplicate_block g bb).2).foldl
      (fun acc ei => setAux acc ei none) (duplicate_block g bb).1).blocks =
      (duplicate_block g bb).1.blocks := by
    apply foldl_blocks_invariant
    intro acc x
    rfl
  have hlive : (List.lookup g.nextBlock
      ((succs (duplicate_block g bb).1 (duplicate_block g bb).2).foldl
        (fun acc ei => setAux acc ei none) (duplicate_block g bb).1).blocks).isSome := by
    rw [hb2, duplicate_block_blocks, lookup_append, hlook1]
    simp [List.lookup]
  have key : ∀ (h : CFG) (nb2 : Nat), (List.lookup nb2 h.blocks).isSome →
      (getBB (setBB h nb2 (fun b =>
        { b with frequency := 0, count := 0 })) nb2).count = 0 ∧
      (getBB (setBB h nb2 (fun b =>
        { b with frequency := 0, count := 0 })) nb2).frequency = 0 := by
    intro h nb2 hl
    rw [getBB_setBB_self hl]
    exact ⟨rfl, rfl⟩
  simp only [create_block_for_threading]
  exact ⟨(key _ _ (by exact hlive)).1, (key _ _ (by exact hlive)).2⟩

/-! ## Claim C8: duplicate profile accumulation -/

/-- Concrete graph for the C8 counterexample: one incoming edge with a
large execution count, one duplicate block with a zeroed profile. -/
def gC8 : CFG :=
  { blocks := [(0, ⟨[], 50000, 0, 0, []⟩),
               (1, ⟨[], 0, 0, 0, []⟩),
               (2, ⟨[], 50000, 0, 0, []⟩)],
    edges := [(0, ⟨0, 2, ⟨false, false, false, false⟩, 50000, 10000,
                  some [⟨some 0, .startThread⟩, ⟨some 0, .srcBlock⟩]⟩)],
    loops := [(0, ⟨none, none, none⟩)],
    nextBlock := 3, nextEdge := 1,
    needsFixup := false, mayHaveMultipleLatches := false,
    assertFailed := false, numThreadedEdges := 0 }

/-- Redirection group for the C8 counterexample. -/
def rdC8 : RD :=
  { dupBlock := some 1,
    path := [⟨some 0, .startThread⟩, ⟨some 0, .srcBlock⟩],
    incoming := [0] }

/-- C8 counterexample: the claim says the accumulation of the incoming
edge's execution count into the duplicate's count saturates rather than
overflowing past twice the defined maximum (BB_FREQ_MAX); in the code
the count accumulation is a plain addition with no saturation, so on
this input the duplicate's count ends past twice the maximum. -/
theorem ssa_redirect_edges_count_not_saturated :
    (getBB gC8 1).count = 0 ∧
    (getEdge gC8 0).count = 50000 ∧
    ¬ ((getBB (ssa_redirect_edges gC8 rdC8) 1).count ≤ BB_FREQ_MAX * 2) ∧
    (getBB (ssa_redirect_edges gC8 rdC8) 1).count = 50000 := by
  refine ⟨rfl, rfl, ?_, ?_⟩ <;> decide

/-- C8 (amended).  Each freshly created duplicate block starts with
execution count and frequency zero.  Edge redirection accumulates each
redirected incoming edge's execution count into the duplicate's count as
a plain, unsaturated sum; it is only the frequency accumulation that is
guarded, a contribution being added only while the duplicate's frequency
is still below twice BB_FREQ_MAX.  Two incoming edges whose staged paths
are equal from step 1 onward are placed in one redirection group, so a
single duplicate serves both and its execution count ends up equal to
the sum of both original edges' counts. -/
theorem duplicate_profile_accumulation_spec :
    (∀ (g : CFG) (bb : Nat),
        (∀ b ∈ g.blocks.map (·.1), b < g.nextBlock) →
        (getBB (create_block_for_threading g bb).1
            (create_block_for_threading g bb).2).count = 0 ∧
        (getBB (create_block_for_threading g bb).1
            (create_block_for_threading g bb).2).frequency = 0) ∧
    (∀ (g : CFG) (rd : RD) (d : Nat),
        rd.dupBlock = some d →
        rd.incoming.Nodup →
        (g.edges.map (·.1)).Nodup →
        (List.lookup d g.blocks).isSome →
        (∀ e ∈ rd.incoming, (getEdge g e).dest ≠ d ∧ (getEdge g e).src ≠ d) →
        (getBB (ssa_redirect_edges g rd) d).count =
            (getBB g d).count +
              (rd.incoming.map (fun e => (getEdge g e).count)).sum ∧
        (getBB (ssa_redirect_edges g rd) d).frequency =
            freqAccum (getBB g d).frequency
              (rd.incoming.map (fun e => EDGE_FREQUENCY g e))) ∧
    (∀ (g : CFG) (e1 e2 : Nat),
        pathEqual ((auxOf g e1).getD []) ((auxOf g e2).getD []) = true →
        lookup_redirection_data (lookup_redirection_data [] g e1) g e2 =
          [{ dupBlock := none, path := (auxOf g e1).getD [],
             incoming := [e2, e1] }]) := by
  refine ⟨?_, ?_, ?_⟩
  · intro g bb hfresh
    exact create_block_zero_profile g bb hfresh
  · intro g rd d hd hnd hkeys hlive hcond
    exact ssa_redirect_edges_fold hd rd.incoming g hnd hkeys hlive hcond
  · intro g e1 e2 hpe
    have h1 : lookup_redirection_data [] g e1 =
        [{ dupBlock := none, path := (auxOf g e1).getD [], incoming := [e1] }] := by
      simp [lookup_redirection_data]
    rw [h1]
    simp [lookup_redirection_data, hpe]

/-- Witness graph for C8: two incoming edges with equal staged paths and
a duplicate block. -/
def gW8 : CFG :=
  { blocks := [(0, ⟨[], 3, 10, 0, []⟩),
               (1, ⟨[], 4, 20, 0, []⟩),
               (2, ⟨[], 7, 30, 0, []⟩),
               (3, ⟨[], 0, 0, 0, []⟩)],
    edges := [(0, ⟨0, 2, ⟨false, false, false, false⟩, 3, 10000,
                  some [⟨some 0, .startThread⟩, ⟨some 4, .srcBlock⟩]⟩),
              (1, ⟨1, 2, ⟨false, false, false, false⟩, 4, 10000,
                  some [⟨some 1, .startThread⟩, ⟨some 4, .srcBlock⟩]⟩),
              (4, ⟨2, 0, ⟨false, false, false, false⟩, 7, 10000, none⟩)],
    loops := [(0, ⟨none, none, none⟩)],
    nextBlock := 4, nextEdge := 5,
    needsFixup := false, mayHaveMultipleLatches := false,
    assertFailed := false, numThreadedEdges := 0 }

/-- Redirection group for the C8 witness. -/
def rdW8 : RD :=
  { dupBlock := some 3,
    path := [⟨some 0, .startThread⟩, ⟨some 4, .srcBlock⟩],
    incoming := [0, 1] }

/-- Witness for C8: on the concrete graph the freshly created duplicate
has a zeroed profile, the redirection gives the duplicate the exact sum
of the two incoming edges' counts, and the two equal paths share a
single redirection-group entry. -/
theorem duplicate_profile_accumulation_spec_witness :
    ((getBB (create_block_for_threading gW8 2).1
        (create_block_for_threading gW8 2).2).count = 0 ∧
     (getBB (create_block_for_threading gW8 2).1
        (create_block_for_threading gW8 2).2).frequency = 0) ∧
    ((getBB (ssa_redirect_edges gW8 rdW8) 3).count =
        (getBB gW8 3).count +
          (rdW8.incoming.map (fun e => (getEdge gW8 e).count)).sum ∧
     (getBB (ssa_redirect_edges gW8 rdW8) 3).frequency =
        freqAccum (getBB gW8 3).frequency
          (rdW8.incoming.map (fun e => EDGE_FREQUENCY gW8 e))) ∧
    lookup_redirection_data (lookup_redirection_data [] gW8 0) gW8 1 =
      [{ dupBlock := none, path := (auxOf gW8 0).getD [],
         incoming := [1, 0] }] ∧
    (getBB (ssa_redirect_edges gW8 rdW8) 3).count = 7 := by
  refine ⟨?_, ?_, ?_, ?_⟩
  · exact duplicate_profile_accumulation_spec.1 gW8 2 (by decide)
  · exact duplicate_profile_accumulation_spec.2.1 gW8 rdW8 3 rfl (by decide)
      (by decide) (by decide) (by decide)
  · exact duplicate_profile_accumulation_spec.2.2 gW8 0 1 (by decide)
  · decide

/-! ## Claim C10: the redirection assertion -/

/-- Membership in predSrcs characterizes the edges into a block. -/
theorem mem_predSrcs_iff {g : CFG} {d s : Nat} :
    s ∈ predSrcs g d ↔ ∃ p ∈ g.edges, p.2.dest = d ∧ p.2.src = s := by
  unfold predSrcs
  constructor
  · intro h
    rcases List.mem_map.mp h with ⟨p, hp, hps⟩
    refine ⟨p, List.mem_of_mem_filter hp, ?_, hps⟩
    have := List.of_mem_filter hp
    simpa using this
  · rintro ⟨p, hp, hd2, hs⟩
    refine List.mem_map.mpr ⟨p, ?_, hs⟩
    refine List.mem_filter.mpr ⟨hp, by simpa using hd2⟩

/-- find_edge fails exactly when the source is not among the block's
predecessors. -/
theorem find_edge_none_iff {g : CFG} {s d : Nat} :
    find_edge g s d = none ↔ s ∉ predSrcs g d := by
  unfold find_edge
  constructor
  · intro h hmem
    rcases mem_predSrcs_iff.mp hmem with ⟨p, hp, hd2, hs⟩
    cases hf : g.edges.find? (fun p => p.2.src = s ∧ p.2.dest = d) with
    | some q => rw [hf] at h; simp at h
    | none =>
        have := List.find?_eq_none.mp hf p hp
        simp [hs, hd2] at this
  · intro h
    cases hf : g.edges.find? (fun p => p.2.src = s ∧ p.2.dest = d) with
    | none => rfl
    | some q =>
        exfalso
        apply h
        have hq := List.find?_some hf
        have hmem := List.mem_of_find?_eq_some hf
        have hq2 : q.2.src = s ∧ q.2.dest = d := of_decide_eq_true hq
        exact mem_predSrcs_iff.mpr ⟨q, hmem, hq2.2, hq2.1⟩

/-- Edge skeleton across the successor-count bump. -/
theorem redirectStepSuccCount_skel (dup : Nat) (path : JTPath) (a2 : CFG)
    (e : Nat) :
    edgeSkel (redirectStepSuccCount dup path a2 e) = edgeSkel a2 := by
  unfold redirectStepSuccCount
  split
  · cases (succs a2 dup).head? with
    | none => rfl
    | some s0 =>
        simp only
        exact edgeSkel_setEdge (fun _ => ⟨rfl, rfl⟩)
  · rfl

/-- Edge skeleton across the profile accumulation. -/
theorem redirectStepProfile_skel (dup : Nat) (acc : CFG) (e : Nat) :
    edgeSkel (redirectStepProfile dup acc e) = edgeSkel acc := by
  unfold edgeSkel
  rw [redirectStepProfile_edges]

/-- assertFailed across the profile accumulation. -/
theorem redirectStepProfile_assert (dup : Nat) (acc : CFG) (e : Nat) :
    (redirectStepProfile dup acc e).assertFailed = acc.assertFailed := by
  simp only [redirectStepProfile]
  split <;> rfl

/-- assertFailed across the successor-count bump. -/
theorem redirectStepSuccCount_assert (dup : Nat) (path : JTPath) (a2 : CFG)
    (e : Nat) :
    (redirectStepSuccCount dup path a2 e).assertFailed = a2.assertFailed := by
  unfold redirectStepSuccCount
  split
  · cases (succs a2 dup).head? with
    | none => rfl
    | some s0 => rfl
  · rfl

/-- Edges of a remove_edge come from the original graph. -/
theorem mem_edges_remove_edge {g : CFG} {i : Nat} {p : Nat × EdgeD}
    (h : p ∈ (remove_edge g i).edges) : p ∈ g.edges := by
  have h2 : p ∈ ((setBB g (getEdge g i).dest (fun bd =>
      { bd with phis := bd.phis.map (fun phi =>
          phi.filter (fun pr => pr.1 ≠ i)) })).edges).filter
        (fun q => q.1 ≠ i) := h
  rw [edges_setBB] at h2
  exact List.mem_of_mem_filter h2

/-- Edges of a setEdge come from entries of the original graph with the
same source and destination, unless they carry the updated key. -/
theorem mem_edges_setEdge {g : CFG} {i : Nat} {f : EdgeD → EdgeD}
    {p : Nat × EdgeD} (h : p ∈ (setEdge g i f).edges) :
    ∃ q ∈ g.edges, (q.1 = i → p = (q.1, f q.2)) ∧ (q.1 ≠ i → p = q) := by
  have h2 : p ∈ g.edges.map
      (fun q => if q.1 = i then (q.1, f q.2) else q) := h
  rcases List.mem_map.mp h2 with ⟨q, hq, hqp⟩
  by_cases hqi : q.1 = i
  · rw [if_pos hqi] at hqp
    exact ⟨q, hq, fun _ => hqp.symm, fun hc => absurd hqi hc⟩
  · rw [if_neg hqi] at hqp
    exact ⟨q, hq, fun hc => absurd hc hqi, fun _ => hqp.symm⟩

/-- After redirection, a predecessor source of the new destination was
already one before, or is the source of the redirected edge. -/
theorem predSrcs_redirect_subset {g : CFG} {i nd : Nat}
    (hn : (g.edges.map (·.1)).Nodup) {s : Nat}
    (hmem : s ∈ predSrcs (redirect_edge_and_branch g i nd).1 nd) :
    s ∈ predSrcs g nd ∨ s = (getEdge g i).src := by
  cases hfe : find_edge g (getEdge g i).src nd with
  | none =>
      rw [redirect_inplace_eq hfe] at hmem
      rcases mem_predSrcs_iff.mp hmem with ⟨p, hp, hd2, hs⟩
      rcases mem_edges_setEdge (by exact hp) with ⟨q, hq, hqi, hqni⟩
      by_cases hqiq : q.1 = i
      · right
        have hpq := hqi hqiq
        have hqe : getEdge g q.1 = q.2 := by
          unfold getEdge
          rw [lookup_eq_of_mem hn (by exact hq)]
          rfl
        have h2 : q.2.src = s := by
          rw [← hs, hpq]
        rw [← hqiq, hqe]
        exact h2.symm
      · left
        have hpq := hqni hqiq
        rw [hpq] at hd2 hs
        exact mem_predSrcs_iff.mpr ⟨q, hq, hd2, hs⟩
  | some s0 =>
      by_cases hsi : s0 = i
      · subst hsi
        rw [redirect_self_eq hfe] at hmem
        exact Or.inl hmem
      · rw [redirect_merge_eq hfe hsi] at hmem
        rcases mem_predSrcs_iff.mp hmem with ⟨p, hp, hd2, hs⟩
        have hp2 := mem_edges_remove_edge (by exact hp)
        rcases mem_edges_setEdge (by exact hp2) with ⟨q, hq, hqi, hqni⟩
        left
        by_cases hqs : q.1 = s0
        · have hpq := hqi hqs
          refine mem_predSrcs_iff.mpr ⟨q, hq, ?_, ?_⟩
          · have : p.2.dest = q.2.dest := by rw [hpq]
            rw [← this, hd2]
          · have : p.2.src = q.2.src := by rw [hpq]
            rw [← this, hs]
        · have hpq := hqni hqs
          rw [hpq] at hd2 hs
          exact mem_predSrcs_iff.mpr ⟨q, hq, hd2, hs⟩

/-- One redirection step: a new predecessor source of the duplicate can
only be the source of the just-redirected edge. -/
theorem redirectStep_predSrcs_subset {rd : RD} {d : Nat} {g : CFG} {e : Nat}
    (hd : rd.dupBlock = some d) (hn : (g.edges.map (·.1)).Nodup)
    (hse : (getEdge g e).src ≠ d) {s : Nat}
    (hmem : s ∈ predSrcs (redirectStep rd g e) d) :
    s ∈ predSrcs g d ∨ s = (getEdge g e).src := by
  simp only [redirectStep, hd] at hmem
  have hskel1 : edgeSkel (setAux (if (redirect_edge_and_branch
      (redirectStepSuccCount d ((auxOf g e).getD [])
        (redirectStepProfile d
          { g with numThreadedEdges := g.numThreadedEdges + 1 } e) e)
      e d).2 = e
    then (redirect_edge_and_branch
      (redirectStepSuccCount d ((auxOf g e).getD [])
        (redirectStepProfile d
          { g with numThreadedEdges := g.numThreadedEdges + 1 } e) e)
      e d).1
    else { (redirect_edge_and_branch
      (redirectStepSuccCount d ((auxOf g e).getD [])
        (redirectStepProfile d
          { g with numThreadedEdges := g.numThreadedEdges + 1 } e) e)
      e d).1 with assertFailed := true }) e none) =
      edgeSkel (redirect_edge_and_branch
        (redirectStepSuccCount d ((auxOf g e).getD [])
          (redirectStepProfile d
            { g with numThreadedEdges := g.numThreadedEdges + 1 } e) e)
        e d).1 := by
    rw [edgeSkel_setAux]
    split <;> rfl
  have hmem2 : s ∈ predSrcs (redirect_edge_and_branch
      (redirectStepSuccCount d ((auxOf g e).getD [])
        (redirectStepProfile d
          { g with numThreadedEdges := g.numThreadedEdges + 1 } e) e)
      e d).1 d := by
    rw [← predSrcs_eq_of_edgeSkel hskel1]
    exact hmem
  have hnA : ((redirectStepSuccCount d ((auxOf g e).getD [])
      (redirectStepProfile d
        { g with numThreadedEdges := g.numThreadedEdges + 1 } e) e).edges.map
        (·.1)).Nodup := by
    rw [redirectStepSuccCount_keys, redirectStepProfile_edges]
    exact hn
  have hEe : getEdge (redirectStepSuccCount d ((auxOf g e).getD [])
      (redirectStepProfile d
        { g with numThreadedEdges := g.numThreadedEdges + 1 } e) e) e =
      getEdge g e := by
    have hp : getEdge (redirectStepProfile d
        { g with numThreadedEdges := g.numThreadedEdges + 1 } e) e =
        getEdge g e := redirectStepProfile_getEdge _ _ _ _
    rw [redirectStepSuccCount_getEdge (by rw [redirectStepProfile_edges]; exact hn)
      (by rw [hp]; exact hse), hp]
  have hsub := predSrcs_redirect_subset hnA hmem2
  rw [hEe] at hsub
  have hskelA : edgeSkel (redirectStepSuccCount d ((auxOf g e).getD [])
      (redirectStepProfile d
        { g with numThreadedEdges := g.numThreadedEdges + 1 } e) e) =
      edgeSkel g := by
    rw [redirectStepSuccCount_skel, redirectStepProfile_skel]
    rfl
  rcases hsub with h | h
  · left
    rw [predSrcs_eq_of_edgeSkel hskelA] at h
    exact h
  · right
    exact h

/-- One redirection step with no pre-existing edge from the incoming
edge's source to the duplicate keeps the assertion flag clear. -/
theorem redirectStep_assert_ok {rd : RD} {d : Nat} {g : CFG} {e : Nat}
    (hd : rd.dupBlock = some d) (hn : (g.edges.map (·.1)).Nodup)
    (hse : (getEdge g e).src ≠ d)
    (hfe : find_edge g (getEdge g e).src d = none)
    (ha : g.assertFailed = false) :
    (redirectStep rd g e).assertFailed = false := by
  simp only [redirectStep, hd]
  have hskelA : edgeSkel (redirectStepSuccCount d ((auxOf g e).getD [])
      (redirectStepProfile d
        { g with numThreadedEdges := g.numThreadedEdges + 1 } e) e) =
      edgeSkel g := by
    rw [redirectStepSuccCount_skel, redirectStepProfile_skel]
    rfl
  have hEe : getEdge (redirectStepSuccCount d ((auxOf g e).getD [])
      (redirectStepProfile d
        { g with numThreadedEdges := g.numThreadedEdges + 1 } e) e) e =
      getEdge g e := by
    have hp : getEdge (redirectStepProfile d
        { g with numThreadedEdges := g.numThreadedEdges + 1 } e) e =
        getEdge g e := redirectStepProfile_getEdge _ _ _ _
    rw [redirectStepSuccCount_getEdge (by rw [redirectStepProfile_edges]; exact hn)
      (by rw [hp]; exact hse), hp]
  have hfeA : find_edge (redirectStepSuccCount d ((auxOf g e).getD [])
      (redirectStepProfile d
        { g with numThreadedEdges := g.numThreadedEdges + 1 } e) e)
      (getEdge (redirectStepSuccCount d ((auxOf g e).getD [])
        (redirectStepProfile d
          { g with numThreadedEdges := g.numThreadedEdges + 1 } e) e) e).src
      d = none := by
    rw [hEe, find_edge_eq_of_edgeSkel hskelA]
    exact hfe
  rw [redirect_inplace_eq hfeA]
  split
  · show (redirectStepSuccCount d ((auxOf g e).getD [])
        (redirectStepProfile d
          { g with numThreadedEdges := g.numThreadedEdges + 1 } e) e).assertFailed
        = false
    rw [redirectStepSuccCount_assert, redirectStepProfile_assert]
    exact ha
  · next h => exact absurd rfl h

/-- The fold of ssa_redirect_edges never trips the assertion when the
staged incoming edges have pairwise distinct sources, avoid the
duplicate, and no edge into the duplicate exists from their sources. -/
theorem redirect_fold_assert (rd : RD) (d : Nat) (hd : rd.dupBlock = some d) :
    ∀ (l : List Nat) (g : CFG),
      g.assertFailed = false →
      (g.edges.map (·.1)).Nodup →
      ((l.map (fun e => (getEdge g e).src)).Nodup) →
      (∀ e ∈ l, (getEdge g e).src ≠ d ∧ (getEdge g e).dest ≠ d) →
      (∀ e ∈ l, find_edge g (getEdge g e).src d = none) →
      (l.foldl (redirectStep rd) g).assertFailed = false := by
  intro l
  induction l with
  | nil => intro g ha _ _ _ _; exact ha
  | cons e tl ih =>
      intro g ha hn hsrc hcond hfind
      have hce := hcond e (List.mem_cons_self _ _)
      have hfe := hfind e (List.mem_cons_self _ _)
      have ha2 : (redirectStep rd g e).assertFailed = false :=
        redirectStep_assert_ok hd hn hce.1 hfe ha
      have hn2 : ((redirectStep rd g e).edges.map (·.1)).Nodup :=
        redirectStep_keys hn
      have hsrcc : ((getEdge g e).src :: tl.map (fun x => (getEdge g x).src)).Nodup := by
        simpa using hsrc
      have hheadnotin : (getEdge g e).src ∉ tl.map (fun x => (getEdge g x).src) :=
        (List.nodup_cons.mp hsrcc).1
      have hxe : ∀ x ∈ tl, x ≠ e := by
        intro x hx hc
        subst hc
        exact hheadnotin (List.mem_map.mpr ⟨x, hx, rfl⟩)
      have hpres : ∀ x ∈ tl, getEdge (redirectStep rd g e) x = getEdge g x := by
        intro x hx
        have hcx := hcond x (List.mem_cons_of_mem _ hx)
        exact redirectStep_getEdge_pres hd hn (hxe x hx) hcx.2 hcx.1
      have hsrc2 : ((tl.map (fun x => (getEdge (redirectStep rd g e) x).src)).Nodup) := by
        have : tl.map (fun x => (getEdge (redirectStep rd g e) x).src) =
            tl.map (fun x => (getEdge g x).src) := by
          refine List.map_congr_left ?_
          intro x hx
          rw [hpres x hx]
        rw [this]
        exact (List.nodup_cons.mp hsrcc).2
      have hcond2 : ∀ x ∈ tl,
          (getEdge (redirectStep rd g e) x).src ≠ d ∧
          (getEdge (redirectStep rd g e) x).dest ≠ d := by
        intro x hx
        rw [hpres x hx]
        exact hcond x (List.mem_cons_of_mem _ hx)
      have hfind2 : ∀ x ∈ tl,
          find_edge (redirectStep rd g e)
            (getEdge (redirectStep rd g e) x).src d = none := by
        intro x hx
        rw [hpres x hx, find_edge_none_iff]
        intro hmem
        rcases redirectStep_predSrcs_subset hd hn hce.1 hmem with hold | hnew
        · exact (find_edge_none_iff.mp
            (hfind x (List.mem_cons_of_mem _ hx))) hold
        · apply hheadnotin
          rw [← hnew]
          exact List.mem_map.mpr ⟨x, hx, rfl⟩
      rw [List.foldl_cons]
      exact ih (redirectStep rd g e) ha2 hn2 hsrc2 hcond2 hfind2

/-- C10.  In ssa_redirect_edges, redirecting a threaded incoming edge to
the redirection group's freshly created duplicate block always returns
the very same edge: before each redirection no edge from the incoming
edge's source to the duplicate exists, so the modelled gcc_assert
(e == e2) holds on every iteration and the assertion-failure flag stays
clear.  The hypotheses state the well-formedness facts that hold at the
call site: the duplicate is fresh (no incoming edges at all), the edge
identities are duplicate-free, and the staged incoming edges have
pairwise distinct sources (they all enter the same threaded block, which
has at most one edge per predecessor) none of which is the duplicate. -/
theorem ssa_redirect_edges_assert_never_fails (g : CFG) (rd : RD) (d : Nat)
    (hd : rd.dupBlock = some d)
    (ha : g.assertFailed = false)
    (hn : (g.edges.map (·.1)).Nodup)
    (hfresh : predSrcs g d = [])
    (hsrc : (rd.incoming.map (fun e => (getEdge g e).src)).Nodup)
    (hcond : ∀ e ∈ rd.incoming,
      (getEdge g e).src ≠ d ∧ (getEdge g e).dest ≠ d) :
    (ssa_redirect_edges g rd).assertFailed = false := by
  refine redirect_fold_assert rd d hd rd.incoming g ha hn hsrc hcond ?_
  intro e _
  rw [find_edge_none_iff, hfresh]
  simp

/-- Witness for C10: on the concrete two-edge group the assertion flag
stays clear. -/
theorem ssa_redirect_edges_assert_never_fails_witness :
    (ssa_redirect_edges gW8 rdW8).assertFailed = false :=
  ssa_redirect_edges_assert_never_fails gW8 rdW8 3 rfl rfl (by decide)
    (by decide) (by decide) (by decide)

/-! ## Aux-variant framework: the filter stages of mark_threaded_blocks
only write annotation slots, so every other observation of the state is
stable across them. -/

/-- Erase the annotation slot of an edge record. -/
def eraseE (e : EdgeD) : EdgeD := { e with aux := none }

/-- The edge list with annotation slots erased. -/
def eraseAux (g : CFG) : List (Nat × EdgeD) :=
  g.edges.map (fun p => (p.1, eraseE p.2))

/-- Two states that differ only in annotation slots. -/
def AuxVar (g' g : CFG) : Prop :=
  g'.blocks = g.blocks ∧ g'.loops = g.loops ∧ eraseAux g' = eraseAux g

theorem auxVar_refl (g : CFG) : AuxVar g g := ⟨rfl, rfl, rfl⟩

theorem auxVar_trans {g2 g1 g0 : CFG} (h2 : AuxVar g2 g1) (h1 : AuxVar g1 g0) :
    AuxVar g2 g0 :=
  ⟨h2.1.trans h1.1, h2.2.1.trans h1.2.1, h2.2.2.trans h1.2.2⟩

theorem auxVar_setAux (g : CFG) (i : Nat) (a : Option JTPath) :
    AuxVar (setAux g i a) g := by
  refine ⟨rfl, rfl, ?_⟩
  unfold eraseAux
  show (g.edges.map _).map _ = _
  rw [List.map_map]
  refine List.map_congr_left ?_
  intro p _
  by_cases hp : p.1 = i <;> simp [Function.comp, hp, eraseE]

/-- Generic fold preservation of the aux-variant relation. -/
theorem foldl_auxVar {β : Type} (f : CFG → β → CFG)
    (hf : ∀ acc x, AuxVar (f acc x) acc) :
    ∀ (l : List β) (s : CFG), AuxVar (l.foldl f s) s := by
  intro l
  induction l with
  | nil => intro s; exact auxVar_refl s
  | cons hd tl ih =>
      intro s
      exact auxVar_trans (ih (f s hd)) (hf s hd)

/-- Aux-variant states share their edge skeleton. -/
theorem edgeSkel_eq_of_auxVar {g' g : CFG} (h : AuxVar g' g) :
    edgeSkel g' = edgeSkel g := by
  have key : ∀ (x : CFG), edgeSkel x =
      (eraseAux x).map (fun p => (p.1, p.2.src, p.2.dest)) := by
    intro x
    unfold edgeSkel eraseAux
    rw [List.map_map]
    rfl
  rw [key, key, h.2.2]

/-- Aux-variant states agree on every block. -/
theorem getBB_eq_of_auxVar {g' g : CFG} (h : AuxVar g' g) (b : Nat) :
    getBB g' b = getBB g b := by
  unfold getBB
  rw [h.1]

/-- Lookup through a key-preserving value map. -/
theorem lookup_map_val {α β : Type} (l : List (Nat × α)) (f : α → β) (k : Nat) :
    (l.map (fun p => (p.1, f p.2))).lookup k = (l.lookup k).map f := by
  induction l with
  | nil => rfl
  | cons hd tl ih =>
      obtain ⟨a, b⟩ := hd
      by_cases hk : k = a
      · subst hk
        simp [List.lookup]
      · have hb : (k == a) = false := beq_false_of_ne hk
        simp only [List.map_cons, List.lookup, hb]
        exact ih

/-- Aux-variant states agree on every edge up to the annotation slot. -/
theorem eraseE_getEdge_eq_of_auxVar {g' g : CFG} (h : AuxVar g' g) (j : Nat) :
    eraseE (getEdge g' j) = eraseE (getEdge g j) := by
  have key : ∀ (x : CFG), eraseE (getEdge x j) =
      ((eraseAux x).lookup j).getD default := by
    intro x
    unfold eraseAux getEdge
    rw [lookup_map_val]
    cases x.edges.lookup j with
    | none => rfl
    | some v => rfl
  rw [key, key, h.2.2]

/-- Destination agreement for aux-variant states. -/
theorem getEdge_dest_eq_of_auxVar {g' g : CFG} (h : AuxVar g' g) (j : Nat) :
    (getEdge g' j).dest = (getEdge g j).dest := by
  have h1 := eraseE_getEdge_eq_of_auxVar h j
  have h2 : (eraseE (getEdge g' j)).dest = (eraseE (getEdge g j)).dest :=
    congrArg EdgeD.dest h1
  exact h2

/-- Source agreement for aux-variant states. -/
theorem getEdge_src_eq_of_auxVar {g' g : CFG} (h : AuxVar g' g) (j : Nat) :
    (getEdge g' j).src = (getEdge g j).src := by
  have h1 := eraseE_getEdge_eq_of_auxVar h j
  have h2 : (eraseE (getEdge g' j)).src = (eraseE (getEdge g j)).src :=
    congrArg EdgeD.src h1
  exact h2

/-- Predecessor agreement for aux-variant states. -/
theorem preds_eq_of_auxVar {g' g : CFG} (h : AuxVar g' g) (b : Nat) :
    preds g' b = preds g b :=
  preds_eq_of_edgeSkel (edgeSkel_eq_of_auxVar h) b

/-- find_edge agreement for aux-variant states. -/
theorem find_edge_eq_of_auxVar {g' g : CFG} (h : AuxVar g' g) (s d : Nat) :
    find_edge g' s d = find_edge g s d :=
  find_edge_eq_of_edgeSkel (edgeSkel_eq_of_auxVar h) s d

/-- redirection_block_p agreement for aux-variant states. -/
theorem redirection_block_p_eq_of_auxVar {g' g : CFG} (h : AuxVar g' g)
    (b : Nat) : redirection_block_p g' b = redirection_block_p g b := by
  unfold redirection_block_p
  rw [getBB_eq_of_auxVar h]

/-- destFather agreement for aux-variant states. -/
theorem destFather_eq_of_auxVar {g' g : CFG} (h : AuxVar g' g) (s : JTE) :
    destFather g' s = destFather g s := by
  unfold destFather
  rw [getEdge_dest_eq_of_auxVar h, getBB_eq_of_auxVar h]

/-- trimFrom agreement for aux-variant states. -/
theorem trimFrom_eq_of_auxVar {g' g : CFG} (h : AuxVar g' g) (first : Nat) :
    ∀ (sec : Option Nat) (n : Nat) (p : JTPath),
      trimFrom g' first sec n p = trimFrom g first sec n p := by
  intro sec n p
  induction p generalizing sec n with
  | nil => rfl
  | cons s rest ih =>
      unfold trimFrom
      rw [destFather_eq_of_auxVar h]
      by_cases hc : destFather g s ≠ first ∧ sec ≠ some (destFather g s)
      · rw [if_pos hc, if_pos hc]
        cases sec with
        | some _ => rfl
        | none => exact ih _ _
      · rw [if_neg hc, if_neg hc]
        exact ih _ _

/-- phi_args_equal_on_edges agreement for aux-variant states. -/
theorem phi_args_equal_eq_of_auxVar {g' g : CFG} (h : AuxVar g' g)
    (e1 e2 : Nat) :
    phi_args_equal_on_edges g' e1 e2 = phi_args_equal_on_edges g e1 e2 := by
  unfold phi_args_equal_on_edges
  rw [getEdge_dest_eq_of_auxVar h, getBB_eq_of_auxVar h]

/-- The aux-clearing idiom is an aux variant. -/
theorem auxVar_clrAux (acc : CFG) (e : Nat) : AuxVar (clrAux acc e) acc := by
  unfold clrAux
  split
  · exact auxVar_setAux acc e none
  · exact auxVar_refl acc

/-- The per-edge trim of step 3 is an aux variant. -/
theorem auxVar_mtbTrimOne (acc : CFG) (e : Nat) :
    AuxVar (mtbTrimOne acc e) acc := by
  unfold mtbTrimOne
  cases auxOf acc e with
  | none => exact auxVar_refl acc
  | some path =>
      simp only
      cases trimFrom acc _ none 0 path with
      | none => exact auxVar_refl acc
      | some i =>
          simp only
          split
          · exact auxVar_setAux acc e none
          · exact auxVar_setAux acc e _

/-- The per-edge joiner check of step 4 is an aux variant. -/
theorem auxVar_mtbJoinerOne (acc : CFG) (e : Nat) :
    AuxVar (mtbJoinerOne acc e) acc := by
  unfold mtbJoinerOne
  cases auxOf acc e with
  | none => exact auxVar_refl acc
  | some path =>
      simp only
      split
      · cases find_edge acc (getEdge acc e).dest
          (getEdge acc (stepEdge (pathLast path))).dest with
        | none => exact auxVar_refl acc
        | some e2 =>
            simp only
            split
            · exact auxVar_setAux acc e none
            · exact auxVar_refl acc
      · exact auxVar_refl acc

/-- The per-block trim of step 3 is an aux variant. -/
theorem auxVar_trim_block (acc : CFG) (i : Nat) :
    AuxVar ((preds acc i).foldl (fun acc2 e => mtbTrimOne acc2 e) acc) acc :=
  foldl_auxVar _ auxVar_mtbTrimOne _ _

/-- Step 3 of mark_threaded_blocks is an aux variant. -/
theorem auxVar_mtbLoopTrim (g : CFG) (bits : List Nat) :
    AuxVar (mtbLoopTrim g bits) g := by
  unfold mtbLoopTrim
  exact foldl_auxVar _ (fun acc i => auxVar_trim_block acc i) bits g

/-- Step 4 of mark_threaded_blocks is an aux variant. -/
theorem auxVar_mtbJoinerCheck (g : CFG) (bits : List Nat) :
    AuxVar (mtbJoinerCheck g bits) g := by
  unfold mtbJoinerCheck
  exact foldl_auxVar _
    (fun acc i => foldl_auxVar _ auxVar_mtbJoinerOne _ _) bits g

/-- The attach step of mark_threaded_blocks is an aux variant. -/
theorem auxVar_mtbAttach (g : CFG) (paths : List JTPath) :
    AuxVar (mtbAttach g paths) g := by
  unfold mtbAttach
  refine foldl_auxVar _ ?_ paths g
  intro acc p
  cases p.head? with
  | none => exact auxVar_refl acc
  | some s =>
      dsimp only
      cases s.e with
      | none => exact auxVar_refl acc
      | some e0 => exact auxVar_setAux acc e0 _

/-- The block step of the size filter preserves the state as an aux
variant and only appends to the accumulated bitmap. -/
theorem sizeFilterStep_state (st : CFG × List Nat) (i : Nat) :
    AuxVar (sizeFilterStep st i).1 st.1 ∧
    ((sizeFilterStep st i).2 = st.2 ∨ (sizeFilterStep st i).2 = st.2 ++ [i]) := by
  unfold sizeFilterStep
  split
  · exact ⟨foldl_auxVar _ auxVar_clrAux _ _, Or.inl rfl⟩
  · exact ⟨auxVar_refl _, Or.inr rfl⟩

/-! ## Claim C4: the size-optimization filter -/

/-- An edge with a staged path is live. -/
theorem live_of_auxOf_isSome {g : CFG} {e : Nat}
    (h : (auxOf g e).isSome) : (g.edges.lookup e).isSome := by
  cases hv : g.edges.lookup e with
  | some v => rfl
  | none =>
      exfalso
      unfold auxOf getEdge at h
      rw [hv] at h
      exact absurd h (by decide)

/-- Clearing an edge leaves its slot empty. -/
theorem clrAux_self (acc : CFG) (y : Nat) : auxOf (clrAux acc y) y = none := by
  unfold clrAux
  split
  · next h => exact auxOf_setAux_self (live_of_auxOf_isSome h)
  · next h =>
      cases hv : auxOf acc y with
      | none => rfl
      | some v => rw [hv] at h; simp at h

/-- Clearing an edge keeps other empty slots empty. -/
theorem clrAux_pres_none {acc : CFG} {x : Nat} (y : Nat)
    (h : auxOf acc x = none) : auxOf (clrAux acc y) x = none := by
  unfold clrAux
  split
  · by_cases hxy : x = y
    · subst hxy
      by_cases hl : (acc.edges.lookup x).isSome
      · exact auxOf_setAux_self hl
      · exact auxOf_setAux_dead (Bool.eq_false_iff.mpr hl)
    · rw [auxOf_setAux_ne hxy]
      exact h
  · exact h

/-- The clearing fold of the size filter empties every processed slot. -/
theorem clrAux_fold_clears : ∀ (l : List Nat) (acc : CFG),
    ∀ x ∈ l, auxOf (l.foldl clrAux acc) x = none := by
  intro l
  induction l with
  | nil => intro acc x hx; cases hx
  | cons y tl ih =>
      intro acc x hx
      rw [List.foldl_cons]
      rcases List.mem_cons.mp hx with hxy | hxtl
      · subst hxy
        by_cases hmem : x ∈ tl
        · exact ih (clrAux acc x) x hmem
        · have hstart : auxOf (clrAux acc x) x = none := clrAux_self acc x
          refine foldl_invariant clrAux (fun s => auxOf s x = none) ?_ tl _ hstart
          intro a z hz
          exact clrAux_pres_none z hz
      · exact ih (clrAux acc y) x hxtl

/-- The per-edge trim keeps empty slots empty. -/
theorem mtbTrimOne_pres_none {acc : CFG} {x : Nat} (y : Nat)
    (h : auxOf acc x = none) : auxOf (mtbTrimOne acc y) x = none := by
  unfold mtbTrimOne
  cases hv : auxOf acc y with
  | none => exact h
  | some path =>
      have hxy : x ≠ y := by
        intro hc
        rw [hc, hv] at h
        cases h
      simp only
      cases trimFrom acc _ none 0 path with
      | none => exact h
      | some i =>
          simp only
          split
          · rw [auxOf_setAux_ne hxy]; exact h
          · rw [auxOf_setAux_ne hxy]; exact h

/-- The per-edge joiner check keeps empty slots empty. -/
theorem mtbJoinerOne_pres_none {acc : CFG} {x : Nat} (y : Nat)
    (h : auxOf acc x = none) : auxOf (mtbJoinerOne acc y) x = none := by
  unfold mtbJoinerOne
  cases hv : auxOf acc y with
  | none => exact h
  | some path =>
      have hxy : x ≠ y := by
        intro hc
        rw [hc, hv] at h
        cases h
      simp only
      split
      · cases find_edge acc (getEdge acc y).dest
          (getEdge acc (stepEdge (pathLast path))).dest with
        | none => exact h
        | some e2 =>
            simp only
            split
            · rw [auxOf_setAux_ne hxy]; exact h
            · exact h
      · exact h

/-- A block step of the size filter keeps empty slots empty. -/
theorem sizeFilterStep_pres_none {st : CFG × List Nat} {x : Nat} (i : Nat)
    (h : auxOf st.1 x = none) : auxOf (sizeFilterStep st i).1 x = none := by
  unfold sizeFilterStep
  split
  · exact foldl_invariant clrAux (fun s => auxOf s x = none)
      (fun a z hz => clrAux_pres_none z hz) _ _ h
  · exact h

/-- The CFG part of the size-filter fold is an aux variant of its
start. -/
theorem sizeFilter_fold_auxVar : ∀ (l : List Nat) (st : CFG × List Nat),
    AuxVar ((l.foldl sizeFilterStep st).1) st.1 := by
  intro l
  induction l with
  | nil => intro st; exact auxVar_refl _
  | cons i tl ih =>
      intro st
      rw [List.foldl_cons]
      exact auxVar_trans (ih (sizeFilterStep st i)) (sizeFilterStep_state st i).1

/-- Generic fold invariant over an arbitrary accumulator type. -/
theorem foldl_invariant_gen {α β : Type} (f : α → β → α) (P : α → Prop)
    (hf : ∀ acc x, P acc → P (f acc x)) :
    ∀ (l : List β) (s : α), P s → P (l.foldl f s) := by
  intro l
  induction l with
  | nil => intro s hs; exact hs
  | cons hd tl ih => intro s hs; exact ih (f s hd) (hf s hd hs)

/-- A block step of the size filter when the cancellation condition
holds. -/
theorem sizeFilterStep_pos {st : CFG × List Nat} {i : Nat}
    (h : ((preds st.1 i).length > 1 && !redirection_block_p st.1 i) = true) :
    sizeFilterStep st i = ((preds st.1 i).foldl clrAux st.1, st.2) := by
  unfold sizeFilterStep
  rw [if_pos h]

/-- The size filter never records a block whose requests it cancels. -/
theorem sizeFilter_not_added {g1 g : CFG} {b : Nat}
    (hA : AuxVar g1 g)
    (hpred : 1 < (preds g b).length)
    (hforw : redirection_block_p g b = false) :
    ∀ (l : List Nat) (st : CFG × List Nat),
      AuxVar st.1 g1 → b ∉ st.2 →
      b ∉ (l.foldl sizeFilterStep st).2 := by
  intro l
  induction l with
  | nil => intro st _ hb; exact hb
  | cons i tl ih =>
      intro st hst hb
      rw [List.foldl_cons]
      refine ih (sizeFilterStep st i)
        (auxVar_trans (sizeFilterStep_state st i).1 hst) ?_
      by_cases hib : i = b
      · subst hib
        have hcond : ((preds st.1 i).length > 1 &&
            !redirection_block_p st.1 i) = true := by
          have h1 : preds st.1 i = preds g i :=
            preds_eq_of_auxVar (auxVar_trans hst hA) i
          have h2 : redirection_block_p st.1 i = redirection_block_p g i :=
            redirection_block_p_eq_of_auxVar (auxVar_trans hst hA) i
          rw [h1, h2, hforw]
          simpa using hpred
        unfold sizeFilterStep
        rw [if_pos hcond]
        exact hb
      · unfold sizeFilterStep
        split
        · exact hb
        · intro hmem
          rcases List.mem_append.mp hmem with hmem1 | hmem2
          · exact hb hmem1
          · have : b = i := by simpa using hmem2
            exact hib this.symm

/-- C4.  Under the size-optimization policy, every threading target with
more than one predecessor that is not a pure redirection block (no
executable statements before an optional control terminator) has all
threading requests into it cancelled by mark_threaded_blocks: afterwards
every incoming edge of the block has an empty annotation slot, and the
block is excluded from the threaded-blocks bitmap — regardless of how
many of its predecessors actually carried a staged request. -/
theorem mark_threaded_blocks_size_filter_spec (g : CFG)
    (paths : List JTPath) (b : Nat)
    (hb : b ∈ mtbBits g paths)
    (hpred : 1 < (preds g b).length)
    (hforw : redirection_block_p g b = false) :
    (∀ e ∈ preds (mark_threaded_blocks g paths true).1 b,
        auxOf (mark_threaded_blocks g paths true).1 e = none) ∧
    b ∉ (mark_threaded_blocks g paths true).2 := by
  have hA1 : AuxVar (mtbAttach g paths) g := auxVar_mtbAttach g paths
  rcases List.append_of_mem hb with ⟨l1, l2, hsplit⟩
  have hsf : mtbSizeFilter (mtbAttach g paths) (mtbBits g paths) =
      (b :: l2).foldl sizeFilterStep
        (l1.foldl sizeFilterStep (mtbAttach g paths, [])) := by
    unfold mtbSizeFilter
    rw [hsplit, List.foldl_append]
  have hst1A : AuxVar (l1.foldl sizeFilterStep (mtbAttach g paths, [])).1
      (mtbAttach g paths) := sizeFilter_fold_auxVar l1 _
  have hpreds1 : preds (l1.foldl sizeFilterStep (mtbAttach g paths, [])).1 b =
      preds g b := preds_eq_of_auxVar (auxVar_trans hst1A hA1) b
  have hcond : ((preds (l1.foldl sizeFilterStep (mtbAttach g paths, [])).1
        b).length > 1 &&
      !redirection_block_p (l1.foldl sizeFilterStep
        (mtbAttach g paths, [])).1 b) = true := by
    rw [hpreds1,
      redirection_block_p_eq_of_auxVar (auxVar_trans hst1A hA1) b, hforw]
    simpa using hpred
  have hstepb : sizeFilterStep (l1.foldl sizeFilterStep (mtbAttach g paths, [])) b =
      ((preds (l1.foldl sizeFilterStep (mtbAttach g paths, [])).1 b).foldl
          clrAux (l1.foldl sizeFilterStep (mtbAttach g paths, [])).1,
        (l1.foldl sizeFilterStep (mtbAttach g paths, [])).2) :=
    sizeFilterStep_pos hcond
  have hcleared : ∀ x ∈ preds g b,
      auxOf (sizeFilterStep (l1.foldl sizeFilterStep
        (mtbAttach g paths, [])) b).1 x = none := by
    intro x hx
    rw [hstepb]
    exact clrAux_fold_clears _ _ x (by rw [hpreds1]; exact hx)
  have hafterfilter : ∀ x ∈ preds g b,
      auxOf (mtbSizeFilter (mtbAttach g paths) (mtbBits g paths)).1 x = none := by
    intro x hx
    rw [hsf, List.foldl_cons]
    exact foldl_invariant_gen sizeFilterStep
      (fun st => auxOf st.1 x = none)
      (fun st i h => sizeFilterStep_pres_none i h) l2 _ (hcleared x hx)
  constructor
  · intro e he
    have hAall : AuxVar (mark_threaded_blocks g paths true).1 g := by
      simp only [mark_threaded_blocks, if_pos rfl]
      exact auxVar_trans
        (auxVar_trans (auxVar_mtbJoinerCheck _ _) (auxVar_mtbLoopTrim _ _))
        (auxVar_trans (sizeFilter_fold_auxVar _ _) hA1)
    have hee : e ∈ preds g b := by
      rw [← preds_eq_of_auxVar hAall b]
      exact he
    have h1 : auxOf (mtbSizeFilter (mtbAttach g paths) (mtbBits g paths)).1 e =
        none := hafterfilter e hee
    have h2 : auxOf (mtbLoopTrim
        (mtbSizeFilter (mtbAttach g paths) (mtbBits g paths)).1
        (mtbBits g paths)) e = none := by
      unfold mtbLoopTrim
      exact foldl_invariant _ (fun s => auxOf s e = none)
        (fun acc i h => foldl_invariant _ (fun s => auxOf s e = none)
          (fun a z hz => mtbTrimOne_pres_none z hz) _ _ h) _ _ h1
    have h3 : auxOf (mtbJoinerCheck (mtbLoopTrim
        (mtbSizeFilter (mtbAttach g paths) (mtbBits g paths)).1
        (mtbBits g paths)) (mtbBits g paths)) e = none := by
      unfold mtbJoinerCheck
      exact foldl_invariant _ (fun s => auxOf s e = none)
        (fun acc i h => foldl_invariant _ (fun s => auxOf s e = none)
          (fun a z hz => mtbJoinerOne_pres_none z hz) _ _ h) _ _ h2
    show auxOf (mark_threaded_blocks g paths true).1 e = none
    simp only [mark_threaded_blocks, if_pos rfl]
    exact h3
  · show b ∉ (mark_threaded_blocks g paths true).2
    simp only [mark_threaded_blocks, if_pos rfl]
    show b ∉ (mtbSizeFilter (mtbAttach g paths) (mtbBits g paths)).2
    unfold mtbSizeFilter
    exact sizeFilter_not_added hA1 hpred hforw (mtbBits g paths)
      (mtbAttach g paths, []) (auxVar_refl _) (by simp)

/-- Witness graph for C4: the threading target (block 2) has two
predecessors and a non-empty body. -/
def gW4 : CFG :=
  { blocks := [(0, ⟨[], 3, 10, 0, []⟩),
               (1, ⟨[], 4, 20, 0, []⟩),
               (2, ⟨[.gassign, .gcond], 7, 30, 0, []⟩),
               (3, ⟨[], 9, 5, 0, []⟩)],
    edges := [(0, ⟨0, 2, ⟨false, false, false, false⟩, 3, 10000, none⟩),
              (1, ⟨1, 2, ⟨false, false, false, false⟩, 4, 10000, none⟩),
              (4, ⟨2, 3, ⟨false, true, false, false⟩, 7, 10000, none⟩)],
    loops := [(0, ⟨none, none, none⟩)],
    nextBlock := 4, nextEdge := 5,
    needsFixup := false, mayHaveMultipleLatches := false,
    assertFailed := false, numThreadedEdges := 0 }

/-- Witness for C4: on the concrete graph with one registered path into
the fat block, the filter cancels the request and drops the block. -/
theorem mark_threaded_blocks_size_filter_spec_witness :
    (∀ e ∈ preds (mark_threaded_blocks gW4
        [[⟨some 0, .startThread⟩, ⟨some 4, .srcBlock⟩]] true).1 2,
      auxOf (mark_threaded_blocks gW4
        [[⟨some 0, .startThread⟩, ⟨some 4, .srcBlock⟩]] true).1 e = none) ∧
    2 ∉ (mark_threaded_blocks gW4
        [[⟨some 0, .startThread⟩, ⟨some 4, .srcBlock⟩]] true).2 :=
  mark_threaded_blocks_size_filter_spec gW4
    [[⟨some 0, .startThread⟩, ⟨some 4, .srcBlock⟩]] 2
    (by decide) (by decide) (by decide)

/-! ## Claim C5: trimming paths crossing three loop structures -/

/-- The loop father recorded for the source block of the first step of a
path, the reference loop membership of the trim scan. -/
def pathFirstFather (g : CFG) (path : JTPath) : Nat :=
  (getBB g (getEdge g (stepEdge (pathStep path 0))).src).loopFather

/-- The trim scan expressed on the list of destination loop fathers of
the steps; proof infrastructure mirroring trimFrom. -/
def trimList (first : Nat) : Option Nat → Nat → List Nat → Option Nat
  | _, _, [] => none
  | second, i, d :: rest =>
      if d ≠ first ∧ second ≠ some d then
        match second with
        | some _ => some i
        | none => trimList first (some d) (i + 1) rest
      else trimList first second (i + 1) rest

/-- The trim scan only consults the destination loop fathers. -/
theorem trimFrom_eq_trimList (g : CFG) (first : Nat) :
    ∀ (p : JTPath) (second : Option Nat) (i : Nat),
      trimFrom g first second i p =
        trimList first second i (p.map (destFather g)) := by
  intro p
  induction p with
  | nil => intro s i; cases s <;> rfl
  | cons hd tl ih =>
      intro s i
      simp only [List.map_cons, trimFrom, trimList]
      split
      · cases s with
        | none => exact ih (some (destFather g hd)) (i + 1)
        | some v => rfl
      · exact ih s (i + 1)

/-- After the second loop father has been recorded, the scan stops at
the first value outside the two memberships seen so far. -/
theorem trimList_phase2 {first d1 d2 : Nat} (rest : List Nat)
    (hd2f : d2 ≠ first) (hd2s : d2 ≠ d1) :
    ∀ (p2 : List Nat) (i0 : Nat), (∀ x ∈ p2, x = first ∨ x = d1) →
      trimList first (some d1) i0 (p2 ++ d2 :: rest) = some (i0 + p2.length) := by
  intro p2
  induction p2 with
  | nil =>
      intro i0 _
      simp only [List.nil_append, trimList]
      rw [if_pos ⟨hd2f, fun hc => hd2s (Option.some.inj hc).symm⟩]
      simp
  | cons x p2' ih =>
      intro i0 hall
      simp only [List.cons_append, trimList, List.append_eq]
      rcases hall x (by simp) with hx | hx
      · rw [if_neg (by simp [hx])]
        rw [ih (i0 + 1) (fun y hy => hall y (by simp [hy]))]
        congr 1
        simp
        omega
      · rw [if_neg (by simp [hx])]
        rw [ih (i0 + 1) (fun y hy => hall y (by simp [hy]))]
        congr 1
        simp
        omega

/-- Full trim scan: after a prefix inside the first membership, a first
step into a second membership, and a stretch inside those two, the scan
reports the position of the first step entering a third distinct loop
membership. -/
theorem trimList_phase1 {first d1 d2 : Nat} (p2 rest : List Nat)
    (hd1 : d1 ≠ first)
    (hp2 : ∀ x ∈ p2, x = first ∨ x = d1)
    (hd2f : d2 ≠ first) (hd2s : d2 ≠ d1) :
    ∀ (p1 : List Nat) (i0 : Nat), (∀ x ∈ p1, x = first) →
      trimList first none i0 (p1 ++ d1 :: p2 ++ d2 :: rest) =
        some (i0 + (p1.length + 1 + p2.length)) := by
  intro p1
  induction p1 with
  | nil =>
      intro i0 _
      simp only [List.nil_append, trimList, List.append_eq]
      rw [if_pos ⟨hd1, by simp⟩]
      rw [trimList_phase2 rest hd2f hd2s p2 (i0 + 1) hp2]
      congr 1
      simp
      omega
  | cons x p1' ih =>
      intro i0 hall
      simp only [List.cons_append, trimList, List.append_eq]
      rw [if_neg (by simp [hall x (by simp)])]
      rw [ih (i0 + 1) (fun y hy => hall y (by simp [hy]))]
      congr 1
      simp
      omega

/-- C5.  A staged path whose step destinations cross three distinct loop
memberships — a prefix p1 inside the membership of the path's origin, a
first step into a second membership d1, a stretch p2 inside those two,
then a step into a third membership d2 — is truncated by the trim step
of mark_threaded_blocks exactly at that first step entering the third
membership (index p1.length + 1 + p2.length); and if the truncated path
is left with fewer than two steps or its last step is a joiner-copy
step, the whole path is discarded and the annotation slot cleared,
otherwise the truncated path replaces the original in the slot. -/
theorem mark_threaded_blocks_loop_trim_spec (g : CFG) (e : Nat)
    (path : JTPath) (p1 p2 rest : List Nat) (d1 d2 : Nat)
    (hpath : auxOf g e = some path)
    (hds : path.map (destFather g) = p1 ++ d1 :: p2 ++ d2 :: rest)
    (hp1 : ∀ x ∈ p1, x = pathFirstFather g path)
    (hd1 : d1 ≠ pathFirstFather g path)
    (hp2 : ∀ x ∈ p2, x = pathFirstFather g path ∨ x = d1)
    (hd2f : d2 ≠ pathFirstFather g path) (hd2s : d2 ≠ d1) :
    mtbTrimOne g e =
      (if (path.take (p1.length + 1 + p2.length)).length < 2
          || (pathLast (path.take (p1.length + 1 + p2.length))).ty =
            .joinerBlock
       then setAux g e none
       else setAux g e (some (path.take (p1.length + 1 + p2.length)))) := by
  have hkey : trimFrom g (pathFirstFather g path) none 0 path =
      some (p1.length + 1 + p2.length) := by
    rw [trimFrom_eq_trimList, hds,
      trimList_phase1 p2 rest hd1 hp2 hd2f hd2s p1 0 hp1]
    simp
  simp only [mtbTrimOne, hpath]
  have hff : (getBB g (getEdge g (stepEdge (pathStep path 0))).src).loopFather =
      pathFirstFather g path := rfl
  rw [hff, hkey]

/-- Witness path for C5: two steps whose destinations lie in a second
and a third loop membership. -/
def pW5 : JTPath := [⟨some 0, .startThread⟩, ⟨some 1, .srcBlock⟩]

/-- Witness graph for C5: three blocks in three distinct loop
memberships, the staged path crossing all three. -/
def gW5 : CFG :=
  { blocks := [(0, ⟨[], 0, 0, 0, []⟩),
               (1, ⟨[], 0, 0, 1, []⟩),
               (2, ⟨[], 0, 0, 2, []⟩)],
    edges := [(0, ⟨0, 1, ⟨false, false, false, false⟩, 0, 0, some pW5⟩),
              (1, ⟨1, 2, ⟨false, false, false, false⟩, 0, 0, none⟩)],
    loops := [(0, ⟨none, none, none⟩)],
    nextBlock := 3, nextEdge := 2,
    needsFixup := false, mayHaveMultipleLatches := false,
    assertFailed := false, numThreadedEdges := 0 }

/-- Witness for C5: the concrete path is truncated at its second step,
the single-step remainder is too short, so the path is discarded. -/
theorem mark_threaded_blocks_loop_trim_spec_witness :
    mtbTrimOne gW5 0 = setAux gW5 0 none := by
  have h := mark_threaded_blocks_loop_trim_spec gW5 0 pW5 [] [] [] 1 2
    (by decide) (by decide) (by decide) (by decide) (by decide)
    (by decide) (by decide)
  rw [h]
  decide

/-! ## Claim C6: phi consistency check for joiner paths -/

/-- C6.  For a staged joiner-typed path (second step of joiner-copy
kind), the joiner-check step of mark_threaded_blocks discards the path
(clearing the annotation slot) exactly when the joiner block has a
direct edge to the path's final destination whose phi arguments at that
destination disagree with those of the path's final edge; when no direct
edge exists or all phi arguments agree, the state — and so the staged
path — is kept unchanged. -/
theorem mark_threaded_blocks_joiner_check_spec (g : CFG) (e : Nat)
    (path : JTPath)
    (hpath : auxOf g e = some path)
    (hjoiner : (pathStep path 1).ty = .joinerBlock) :
    mtbJoinerOne g e =
      (match find_edge g (getEdge g e).dest
          (getEdge g (stepEdge (pathLast path))).dest with
       | some e2 =>
           if phi_args_equal_on_edges g e2 (stepEdge (pathLast path))
           then g else setAux g e none
       | none => g) := by
  simp only [mtbJoinerOne, hpath]
  rw [if_pos hjoiner]
  cases hfe : find_edge g (getEdge g e).dest
      (getEdge g (stepEdge (pathLast path))).dest with
  | none => rfl
  | some e2 =>
      cases hb : phi_args_equal_on_edges g e2 (stepEdge (pathLast path)) <;>
        simp [hb]

/-- Witness path for C6: a three-step path whose second step is a
joiner copy. -/
def pW6 : JTPath :=
  [⟨some 0, .startThread⟩, ⟨some 1, .joinerBlock⟩, ⟨some 2, .srcBlock⟩]

/-- Witness graph for C6: the joiner (block 1) has a direct edge to the
final destination (block 3) whose phi argument there disagrees with the
final edge's. -/
def gW6 : CFG :=
  { blocks := [(0, ⟨[], 0, 0, 0, []⟩),
               (1, ⟨[], 0, 0, 0, []⟩),
               (2, ⟨[], 0, 0, 0, []⟩),
               (3, ⟨[], 0, 0, 0, [[(3, 10), (2, 20)]]⟩)],
    edges := [(0, ⟨0, 1, ⟨false, false, false, false⟩, 0, 0, some pW6⟩),
              (1, ⟨1, 2, ⟨false, false, false, false⟩, 0, 0, none⟩),
              (2, ⟨2, 3, ⟨false, false, false, false⟩, 0, 0, none⟩),
              (3, ⟨1, 3, ⟨false, false, false, false⟩, 0, 0, none⟩)],
    loops := [(0, ⟨none, none, none⟩)],
    nextBlock := 4, nextEdge := 4,
    needsFixup := false, mayHaveMultipleLatches := false,
    assertFailed := false, numThreadedEdges := 0 }

/-- Witness for C6: on the concrete graph the direct edge exists and its
phi argument disagrees, so the staged path is discarded. -/
theorem mark_threaded_blocks_joiner_check_spec_witness :
    mtbJoinerOne gW6 0 = setAux gW6 0 none := by
  have h := mark_threaded_blocks_joiner_check_spec gW6 0 pW6
    (by decide) (by decide)
  rw [h]
  decide

/-! ## Claim C7: fixing up a joiner duplicate -/

/-- Block statements are untouched by a setBB whose function keeps
them. -/
theorem getBB_stmts_setBB {g : CFG} {b : Nat} {f : BBD → BBD} {b' : Nat}
    (hf : ∀ x, (f x).stmts = x.stmts) :
    (getBB (setBB g b f) b').stmts = (getBB g b').stmts := by
  unfold getBB
  rw [lookup_blocks_setBB]
  by_cases hb : b' = b
  · rw [if_pos hb]
    cases hv : List.lookup b' g.blocks with
    | none => rfl
    | some v => simp [hf v]
  · rw [if_neg hb]

/-- Statements of blocks survive a remove_edge. -/
theorem getBB_stmts_remove_edge (g : CFG) (i b : Nat) :
    (getBB (remove_edge g i) b).stmts = (getBB g b).stmts := by
  have h : getBB (remove_edge g i) b =
      getBB (setBB g (getEdge g i).dest (fun bd =>
        { bd with phis := bd.phis.map (fun phi =>
            phi.filter (fun pr => pr.1 ≠ i)) })) b := rfl
  rw [h]
  exact getBB_stmts_setBB (fun _ => rfl)

/-- Statements of blocks survive redirect_edge_and_branch. -/
theorem getBB_stmts_redirect (g : CFG) (i nd b : Nat) :
    (getBB (redirect_edge_and_branch g i nd).1 b).stmts =
      (getBB g b).stmts := by
  cases hfe : find_edge g (getEdge g i).src nd with
  | none =>
      rw [redirect_inplace_eq hfe, getBB_setEdge]
      exact getBB_stmts_setBB (fun _ => rfl)
  | some s =>
      by_cases hsi : s = i
      · subst hsi
        rw [redirect_self_eq hfe]
      · rw [redirect_merge_eq hfe hsi, getBB_stmts_remove_edge, getBB_setEdge]

/-- copy_phi_args does not touch the edges. -/
theorem copy_phi_args_edges (g : CFG) (bb srcE tgtE : Nat) :
    (copy_phi_args g bb srcE tgtE).edges = g.edges := rfl

/-- Edge lookups ignore copy_phi_args. -/
theorem getEdge_copy_phi_args (g : CFG) (bb srcE tgtE j : Nat) :
    getEdge (copy_phi_args g bb srcE tgtE) j = getEdge g j := rfl

/-- copy_phi_args keeps every block's statements. -/
theorem copy_phi_args_stmts (g : CFG) (bb srcE tgtE b : Nat) :
    (getBB (copy_phi_args g bb srcE tgtE) b).stmts = (getBB g b).stmts :=
  getBB_stmts_setBB (fun _ => rfl)

/-- update_destination_phis does not touch the edges. -/
theorem update_destination_phis_edges (g : CFG) (a b : Nat) :
    (update_destination_phis g a b).edges = g.edges := by
  unfold update_destination_phis
  refine foldl_invariant _ (fun acc => acc.edges = g.edges) ?_ _ _ rfl
  intro acc x h
  cases find_edge acc b (getEdge acc x).dest with
  | none => exact h
  | some e2 => exact h

/-- update_destination_phis keeps every block's statements. -/
theorem update_destination_phis_stmts (g : CFG) (a b d : Nat) :
    (getBB (update_destination_phis g a b) d).stmts = (getBB g d).stmts := by
  unfold update_destination_phis
  refine foldl_invariant _
    (fun acc => (getBB acc d).stmts = (getBB g d).stmts) ?_ _ _ rfl
  intro acc x h
  cases find_edge acc b (getEdge acc x).dest with
  | none => exact h
  | some e2 => rw [copy_phi_args_stmts]; exact h

/-- With duplicate-free keys, the edge found by find_edge is live. -/
theorem find_edge_isSome {g : CFG} (hn : (g.edges.map (·.1)).Nodup)
    {s d i : Nat} (h : find_edge g s d = some i) :
    (g.edges.lookup i).isSome := by
  unfold find_edge at h
  cases hf : g.edges.find? (fun p => p.2.src = s ∧ p.2.dest = d) with
  | none => rw [hf] at h; simp at h
  | some p =>
      rw [hf] at h
      simp at h
      have hmem := List.mem_of_find?_eq_some hf
      have hlook : g.edges.lookup p.1 = some p.2 :=
        lookup_eq_of_mem hn (by exact hmem)
      have hid : i = p.1 := by omega
      subst hid
      rw [hlook]
      rfl

/-- The edge list after a remove_edge is the original minus the removed
identity. -/
theorem remove_edge_edges (g : CFG) (i : Nat) :
    (remove_edge g i).edges = g.edges.filter (fun p => p.1 ≠ i) := rfl

/-- The edge returned by redirect_edge_and_branch points at the new
destination. -/
theorem redirect_result_dest {g : CFG} {i nd : Nat}
    (hn : (g.edges.map (·.1)).Nodup) (hi : (g.edges.lookup i).isSome) :
    (getEdge (redirect_edge_and_branch g i nd).1
      (redirect_edge_and_branch g i nd).2).dest = nd := by
  cases hfe : find_edge g (getEdge g i).src nd with
  | none =>
      rw [redirect_inplace_eq hfe]
      have hlive : ((setBB g (getEdge g i).dest (fun b =>
          { b with phis := b.phis.map (fun phi =>
              phi.filter (fun pr => pr.1 ≠ i)) })).edges.lookup i).isSome := by
        rw [edges_setBB]
        exact hi
      rw [getEdge_setEdge_self hlive]
  | some s =>
      by_cases hsi : s = i
      · subst hsi
        rw [redirect_self_eq hfe]
        exact (find_edge_spec hn hfe).2
      · rw [redirect_merge_eq hfe hsi]
        rw [getEdge_remove_edge hsi]
        have hlive : (g.edges.lookup s).isSome := find_edge_isSome hn hfe
        rw [getEdge_setEdge_self hlive]
        exact (find_edge_spec hn hfe).2

/-- The edge returned by redirect_edge_and_branch is live in the
result. -/
theorem redirect_result_live {g : CFG} {i nd : Nat}
    (hn : (g.edges.map (·.1)).Nodup) (hi : (g.edges.lookup i).isSome) :
    ((redirect_edge_and_branch g i nd).1.edges.lookup
      (redirect_edge_and_branch g i nd).2).isSome := by
  cases hfe : find_edge g (getEdge g i).src nd with
  | none =>
      rw [redirect_inplace_eq hfe]
      rw [lookup_edges_setEdge, if_pos rfl, edges_setBB]
      rcases Option.isSome_iff_exists.mp hi with ⟨v, hv⟩
      rw [hv]
      rfl
  | some s =>
      by_cases hsi : s = i
      · subst hsi
        rw [redirect_self_eq hfe]
        exact hi
      · rw [redirect_merge_eq hfe hsi]
        rw [remove_edge_edges, lookup_filter_ne hsi, lookup_edges_setEdge,
          if_pos rfl]
        rcases Option.isSome_iff_exists.mp (find_edge_isSome hn hfe) with ⟨v, hv⟩
        rw [hv]
        rfl

/-- Edges other than the redirected one and the result of the
redirection keep their records. -/
theorem redirect_lookup_edges_other {g : CFG} {i nd o : Nat}
    (ho1 : o ≠ i) (ho2 : o ≠ (redirect_edge_and_branch g i nd).2) :
    List.lookup o (redirect_edge_and_branch g i nd).1.edges =
      List.lookup o g.edges := by
  cases hfe : find_edge g (getEdge g i).src nd with
  | none =>
      rw [redirect_inplace_eq hfe]
      rw [lookup_edges_setEdge, if_neg ho1, edges_setBB]
  | some s =>
      by_cases hsi : s = i
      · subst hsi
        rw [redirect_self_eq hfe]
      · rw [redirect_merge_eq hfe hsi] at ho2 ⊢
        have ho2s : o ≠ s := ho2
        rw [remove_edge_edges, lookup_filter_ne ho1, lookup_edges_setEdge,
          if_neg ho2s]

/-- C7.  Fixing up a duplicate along a joiner path: the duplicate keeps
its statements (in particular its control terminator); the specific
outgoing edge of the duplicate leading to the next path step is
redirected to the path's final destination, the resulting edge pointing
there; every other edge record of the graph is untouched; and phi
arguments from the original final edge are copied at the final
destination exactly when the redirection handed back the redirected edge
itself (no merge with a pre-existing parallel edge), the state otherwise
being exactly the redirected graph with the resulting edge's count
overwritten by the final edge's count. -/
theorem ssa_fix_duplicate_joiner_spec
    (g g1 : CFG) (rd : RD) (infoBB e dup victim finalE finalDest : Nat)
    (path : JTPath) (rr : CFG × Nat)
    (hn : (g.edges.map (·.1)).Nodup)
    (he : rd.incoming.head? = some e)
    (hpath : auxOf g e = some path)
    (hdup : rd.dupBlock = some dup)
    (hjoiner : (pathStep path 1).ty = .joinerBlock)
    (hg1 : g1 = update_destination_phis g infoBB dup)
    (hvict : find_edge g1 dup
      (getEdge g1 (stepEdge (pathStep path 1))).dest = some victim)
    (hfinalE : finalE = stepEdge (pathLast path))
    (hfd : finalDest = (getEdge g1 finalE).dest)
    (hrr : rr = redirect_edge_and_branch g1 victim finalDest) :
    (getBB (ssa_fix_duplicate_block_edges g rd infoBB) dup).stmts =
        (getBB g dup).stmts ∧
    (getEdge (ssa_fix_duplicate_block_edges g rd infoBB) rr.2).dest =
        finalDest ∧
    (∀ o, o ≠ victim → o ≠ rr.2 →
      List.lookup o (ssa_fix_duplicate_block_edges g rd infoBB).edges =
        List.lookup o g.edges) ∧
    (rr.2 = victim →
      ssa_fix_duplicate_block_edges g rd infoBB =
        copy_phi_args (setEdge rr.1 rr.2 (fun ed =>
          { ed with count := (getEdge rr.1 finalE).count }))
          finalDest finalE rr.2) ∧
    (rr.2 ≠ victim →
      ssa_fix_duplicate_block_edges g rd infoBB =
        setEdge rr.1 rr.2 (fun ed =>
          { ed with count := (getEdge rr.1 finalE).count })) := by
  have hn1 : (g1.edges.map (·.1)).Nodup := by
    rw [hg1, update_destination_phis_edges]
    exact hn
  have hvlive : (g1.edges.lookup victim).isSome := find_edge_isSome hn1 hvict
  have hu : ssa_fix_duplicate_block_edges g rd infoBB =
      (if rr.2 = victim then
        copy_phi_args (setEdge rr.1 rr.2 (fun ed =>
          { ed with count := (getEdge rr.1 finalE).count }))
          finalDest finalE rr.2
       else
        setEdge rr.1 rr.2 (fun ed =>
          { ed with count := (getEdge rr.1 finalE).count })) := by
    simp only [ssa_fix_duplicate_block_edges, he, Option.getD_some, hpath,
      hdup]
    rw [if_pos hjoiner, ← hg1]
    simp only [hvict]
    rw [← hfinalE, ← hfd, ← hrr]
  have hlive2 : (rr.1.edges.lookup rr.2).isSome := by
    rw [hrr]
    exact redirect_result_live hn1 hvlive
  have hdest2 : (getEdge rr.1 rr.2).dest = finalDest := by
    rw [hrr]
    exact redirect_result_dest hn1 hvlive
  refine ⟨?_, ?_, ?_, ?_, ?_⟩
  · rw [hu]
    by_cases hv : rr.2 = victim
    · rw [if_pos hv, copy_phi_args_stmts]
      have h1 : (getBB (setEdge rr.1 rr.2 (fun ed =>
          { ed with count := (getEdge rr.1 finalE).count })) dup).stmts =
          (getBB rr.1 dup).stmts := rfl
      rw [h1, hrr, getBB_stmts_redirect, hg1, update_destination_phis_stmts]
    · rw [if_neg hv]
      have h1 : (getBB (setEdge rr.1 rr.2 (fun ed =>
          { ed with count := (getEdge rr.1 finalE).count })) dup).stmts =
          (getBB rr.1 dup).stmts := rfl
      rw [h1, hrr, getBB_stmts_redirect, hg1, update_destination_phis_stmts]
  · rw [hu]
    by_cases hv : rr.2 = victim
    · rw [if_pos hv, getEdge_copy_phi_args, getEdge_setEdge_self hlive2]
      exact hdest2
    · rw [if_neg hv, getEdge_setEdge_self hlive2]
      exact hdest2
  · intro o ho1 ho2
    have hstep : List.lookup o (setEdge rr.1 rr.2 (fun ed =>
        { ed with count := (getEdge rr.1 finalE).count })).edges =
        List.lookup o g.edges := by
      rw [lookup_edges_setEdge, if_neg ho2, hrr,
        redirect_lookup_edges_other ho1 (by rw [hrr] at ho2; exact ho2),
        hg1, update_destination_phis_edges]
    rw [hu]
    by_cases hv : rr.2 = victim
    · rw [if_pos hv, copy_phi_args_edges]
      exact hstep
    · rw [if_neg hv]
      exact hstep
  · intro hv
    rw [hu, if_pos hv]
  · intro hv
    rw [hu, if_neg hv]

/-- Witness path for C7: a three-step joiner path. -/
def pW7 : JTPath :=
  [⟨some 0, .startThread⟩, ⟨some 1, .joinerBlock⟩, ⟨some 2, .srcBlock⟩]

/-- Witness graph for C7: block 1 is the joiner with duplicate block 4,
whose outgoing edge 5 towards the threaded-through block 2 is the victim
to be redirected to the final destination 3. -/
def gW7 : CFG :=
  { blocks := [(0, ⟨[], 0, 0, 0, []⟩),
               (1, ⟨[.gcond], 0, 0, 0, []⟩),
               (2, ⟨[], 0, 0, 0, []⟩),
               (3, ⟨[], 0, 0, 0, [[(2, 7)]]⟩),
               (4, ⟨[.gcond], 0, 0, 0, []⟩)],
    edges := [(0, ⟨0, 1, ⟨false, false, false, false⟩, 0, 0, some pW7⟩),
              (1, ⟨1, 2, ⟨false, false, false, false⟩, 0, 0, none⟩),
              (2, ⟨2, 3, ⟨false, false, false, false⟩, 0, 0, none⟩),
              (5, ⟨4, 2, ⟨false, false, false, false⟩, 0, 0, none⟩)],
    loops := [(0, ⟨none, none, none⟩)],
    nextBlock := 5, nextEdge := 6,
    needsFixup := false, mayHaveMultipleLatches := false,
    assertFailed := false, numThreadedEdges := 0 }

/-- Witness redirection record for C7. -/
def rdW7 : RD := { dupBlock := some 4, path := pW7, incoming := [0] }

/-- Witness for C7: on the concrete graph the victim edge of the joiner
duplicate ends up pointing at the final destination. -/
theorem ssa_fix_duplicate_joiner_spec_witness :
    (getEdge (ssa_fix_duplicate_block_edges gW7 rdW7 1)
      (redirect_edge_and_branch (update_destination_phis gW7 1 4) 5 3).2).dest =
      3 :=
  (ssa_fix_duplicate_joiner_spec gW7 (update_destination_phis gW7 1 4) rdW7
    1 0 4 5 2 3 pW7
    (redirect_edge_and_branch (update_destination_phis gW7 1 4) 5 3)
    (by decide) (by decide) (by decide) (by decide) (by decide) rfl
    (by decide) (by decide) (by decide) rfl).2.1

/-! ## Claim C9: the single-predecessor optimization -/

/-- The observable record of the outgoing edges of a block: destination
and flags, in edge-list order. -/
def outRecords (g : CFG) (b : Nat) : List (Nat × EdgeFlags) :=
  (g.edges.filter (fun p => p.2.src = b)).map (fun p => (p.2.dest, p.2.flags))

/-- The observable successor graph of a threading result: the statements
of the returned block and the records of its outgoing edges. -/
def threadObs (g : CFG) (b : Nat) : List GCode × List (Nat × EdgeFlags) :=
  ((getBB g b).stmts, outRecords g b)

/-- The general duplication branch of thread_single_edge, extracted
verbatim for the single-predecessor refinement comparison: profile
bookkeeping on the bypassed block, creation and stripping of a
duplicate, wiring of its single outgoing edge, transfer of the threaded
edge's profile and redirection of the threaded edge to the duplicate. -/
def threadSingleEdgeCopy (g : CFG) (e : Nat) : CFG × Nat :=
  let bb := (getEdge g e).dest
  let path := (auxOf g e).getD []
  let eto := stepEdge (pathStep path 1)
  let g1 := setAux g e none
  let g2 := { g1 with numThreadedEdges := g1.numThreadedEdges + 1 }
  tse_copy g2 e bb eto

/-- A lookup hit names a member of the association list. -/
theorem lookup_mem {α : Type} {l : List (Nat × α)} {k : Nat} {v : α}
    (h : l.lookup k = some v) : (k, v) ∈ l := by
  induction l with
  | nil => cases h
  | cons hd tl ih =>
      obtain ⟨a, b⟩ := hd
      by_cases hk : k = a
      · subst hk
        simp [List.lookup] at h
        subst h
        exact List.mem_cons_self _ _
      · have hb : (k == a) = false := beq_false_of_ne hk
        simp only [List.lookup, hb] at h
        exact List.mem_cons_of_mem _ (ih h)

/-- Filtering commutes with a map that does not change the tested
field. -/
theorem filter_map_comm {α : Type} (u : α → α) (q : α → Bool)
    (hq : ∀ a, q (u a) = q a) :
    ∀ l : List α, (l.map u).filter q = (l.filter q).map u := by
  intro l
  induction l with
  | nil => rfl
  | cons a tl ih =>
      simp only [List.map_cons, List.filter_cons, hq a]
      cases hqa : q a <;> simp [hqa, ih]

/-- A filter that accepts exactly one member of a duplicate-free list
yields that member alone. -/
theorem filter_eq_singleton {α : Type} {l : List α} {q : α → Bool} {x : α}
    (hnd : l.Nodup) (hx : x ∈ l) (hqx : q x = true)
    (hu : ∀ y ∈ l, q y = true → y = x) : l.filter q = [x] := by
  induction l with
  | nil => cases hx
  | cons a tl ih =>
      have hnd2 := List.nodup_cons.mp hnd
      rcases List.mem_cons.mp hx with hxa | hxtl
      · subst hxa
        rw [List.filter_cons_of_pos hqx]
        have htl : tl.filter q = [] := by
          rw [List.eq_nil_iff_forall_not_mem]
          intro y hy
          rcases List.mem_filter.mp hy with ⟨hy1, hy2⟩
          have := hu y (List.mem_cons_of_mem _ hy1) hy2
          subst this
          exact hnd2.1 hy1
        rw [htl]
      · have hax : a ≠ x := by
          intro hc
          subst hc
          exact hnd2.1 hxtl
        have hqa : q a = false := by
          cases hv : q a with
          | false => rfl
          | true => exact absurd (hu a (List.mem_cons_self _ _) hv) hax
        rw [List.filter_cons_of_neg (by simp [hqa])]
        exact ih hnd2.2 hxtl (fun y hy hqy =>
          hu y (List.mem_cons_of_mem _ hy) hqy)

/-- A duplicate-free key list makes the whole pair list
duplicate-free. -/
theorem nodup_of_keys_nodup {α : Type} {l : List (Nat × α)}
    (hn : (l.map (·.1)).Nodup) : l.Nodup := List.Nodup.of_map _ hn

/-- With duplicate-free keys, an edge-list member whose identity lies in
the successor list of a block has that block as source. -/
theorem src_eq_of_key_mem_succs {g : CFG} (hn : (g.edges.map (·.1)).Nodup)
    {p : Nat × EdgeD} (hp : p ∈ g.edges) {b : Nat}
    (hmem : p.1 ∈ succs g b) : p.2.src = b := by
  rcases List.mem_map.mp hmem with ⟨q, hq1, hq2⟩
  rcases List.mem_filter.mp hq1 with ⟨hq3, hq4⟩
  have hlp : g.edges.lookup p.1 = some p.2 := lookup_eq_of_mem hn hp
  have hlq : g.edges.lookup q.1 = some q.2 := lookup_eq_of_mem hn hq3
  rw [hq2] at hlq
  rw [hlp] at hlq
  have h5 : q.2 = p.2 := (Option.some.inj hlq).symm
  rw [← h5]
  exact of_decide_eq_true hq4

/-- An edge-list member with the block as source has its identity in the
successor list. -/
theorem key_mem_succs_of_src {g : CFG} {p : Nat × EdgeD} (hp : p ∈ g.edges)
    {b : Nat} (hsrc : p.2.src = b) : p.1 ∈ succs g b := by
  unfold succs
  exact List.mem_map.mpr ⟨p, List.mem_filter.mpr ⟨hp, by simp [hsrc]⟩, rfl⟩

/-- The successor list of a block has no duplicates when the edge keys
have none. -/
theorem succs_nodup {g : CFG} (hn : (g.edges.map (·.1)).Nodup) (b : Nat) :
    (succs g b).Nodup := by
  unfold succs
  have hsub : (g.edges.filter (fun p => p.2.dest = b → p.2.src = b)).Sublist
      g.edges := List.filter_sublist _
  exact List.Nodup.sublist
    (List.Sublist.map _ (List.filter_sublist _)) hn

/-- Folding remove_edge over a list of identities filters them all
out of the edge list. -/
theorem fold_remove_edges : ∀ (l : List Nat) (acc : CFG),
    ((l.foldl (fun a ei => remove_edge a ei) acc).edges) =
      acc.edges.filter (fun p => decide (p.1 ∉ l)) := by
  intro l
  induction l with
  | nil =>
      intro acc
      simp
  | cons hd tl ih =>
      intro acc
      rw [List.foldl_cons, ih (remove_edge acc hd), remove_edge_edges,
        List.filter_filter]
      refine List.filter_congr ?_
      intro p _
      by_cases h1 : p.1 = hd <;> by_cases h2 : p.1 ∈ tl <;>
        simp [h1, h2]

/-- Stripping with no destination to keep removes every outgoing edge of
the block from the edge list. -/
theorem strip_all_edges (g : CFG) (bb : Nat)
    (hn : (g.edges.map (·.1)).Nodup) :
    (remove_ctrl_stmt_and_useless_edges g bb none).edges =
      g.edges.filter (fun p => decide (¬ p.2.src = bb)) := by
  simp only [remove_ctrl_stmt_and_useless_edges]
  have hstep : ∀ (l : List Nat) (acc : CFG),
      (l.foldl (fun a ei =>
        if some (getEdge a ei).dest = none then a else remove_edge a ei) acc) =
      (l.foldl (fun a ei => remove_edge a ei) acc) := by
    intro l
    induction l with
    | nil => intro acc; rfl
    | cons hd tl ih =>
        intro acc
        rw [List.foldl_cons, List.foldl_cons, if_neg (by simp)]
        exact ih _
  rw [hstep, fold_remove_edges]
  have hedges : (setBB g bb (fun b =>
      { b with stmts := removeCtrlStmt b.stmts })).edges = g.edges :=
    edges_setBB _ _ _
  rw [hedges]
  refine List.filter_congr ?_
  intro p hp
  have hiff : (p.1 ∉ succs (setBB g bb (fun b =>
      { b with stmts := removeCtrlStmt b.stmts })) bb) ↔ ¬ p.2.src = bb := by
    have hs : succs (setBB g bb (fun b =>
        { b with stmts := removeCtrlStmt b.stmts })) bb = succs g bb := rfl
    rw [hs]
    constructor
    · intro hnm hsrc
      exact hnm (key_mem_succs_of_src hp hsrc)
    · intro hnsrc hm
      exact hnsrc (src_eq_of_key_mem_succs hn hp hm)
  simp [hiff]

/-- Stripping while keeping one destination removes exactly the
block-sourced edges aiming elsewhere (over the fold's identity list). -/
theorem strip_keep_fold (d : Nat) : ∀ (l : List Nat), l.Nodup →
    ∀ (acc : CFG), ((acc.edges.map (·.1)).Nodup) →
    ((l.foldl (fun a ei =>
        if some (getEdge a ei).dest = some d then a else remove_edge a ei)
      acc).edges) =
      acc.edges.filter (fun p => decide (p.1 ∉ l) || decide (p.2.dest = d)) := by
  intro l
  induction l with
  | nil =>
      intro _ acc _
      simp
  | cons hd tl ih =>
      intro hnl acc hacc
      have hnl2 := List.nodup_cons.mp hnl
      rw [List.foldl_cons]
      by_cases hc : (getEdge acc hd).dest = d
      · rw [if_pos (by rw [hc])]
        rw [ih hnl2.2 acc hacc]
        refine List.filter_congr ?_
        intro p hp
        by_cases h1 : p.1 = hd
        · have hlp : acc.edges.lookup p.1 = some p.2 := lookup_eq_of_mem hacc hp
          have hge : getEdge acc p.1 = p.2 := by
            unfold getEdge
            rw [hlp]
            rfl
          have hpd : p.2.dest = d := by
            rw [← hge, h1, hc]
          simp [hpd]
        · by_cases h2 : p.1 ∈ tl <;> simp [h1, h2]
      · rw [if_neg (by simp [hc])]
        rw [ih hnl2.2 (remove_edge acc hd) (nodup_keys_remove_edge hacc),
          remove_edge_edges, List.filter_filter]
        refine List.filter_congr ?_
        intro p hp
        by_cases h1 : p.1 = hd
        · have hlp : acc.edges.lookup p.1 = some p.2 := lookup_eq_of_mem hacc hp
          have hge : getEdge acc p.1 = p.2 := by
            unfold getEdge
            rw [hlp]
            rfl
          have hpd : ¬ p.2.dest = d := by
            rw [← hge, h1]
            exact hc
          have hhd : hd ∉ (hd :: tl) ↔ False := by simp
          simp [h1, hpd, hnl2.1]
        · by_cases h2 : p.1 ∈ tl <;> simp [h1, h2]

/-- Stripping while keeping one destination, at the level of
remove_ctrl_stmt_and_useless_edges. -/
theorem strip_keep_edges (g : CFG) (bb d : Nat)
    (hn : (g.edges.map (·.1)).Nodup) :
    (remove_ctrl_stmt_and_useless_edges g bb (some d)).edges =
      g.edges.filter (fun p =>
        decide (¬ p.2.src = bb) || decide (p.2.dest = d)) := by
  simp only [remove_ctrl_stmt_and_useless_edges]
  have hedges : (setBB g bb (fun b =>
      { b with stmts := removeCtrlStmt b.stmts })).edges = g.edges :=
    edges_setBB _ _ _
  have hs : succs (setBB g bb (fun b =>
      { b with stmts := removeCtrlStmt b.stmts })) bb = succs g bb := rfl
  rw [hs, strip_keep_fold d (succs g bb) (succs_nodup hn bb) _
    (by rw [hedges]; exact hn), hedges]
  refine List.filter_congr ?_
  intro p hp
  have hiff : (p.1 ∉ succs g bb) ↔ ¬ p.2.src = bb := by
    constructor
    · intro hnm hsrc
      exact hnm (key_mem_succs_of_src hp hsrc)
    · intro hnsrc hm
      exact hnsrc (src_eq_of_key_mem_succs hn hp hm)
  simp [hiff]

/-- Statements survive the stripping fold. -/
theorem strip_fold_stmts (d : Option Nat) (b : Nat) :
    ∀ (l : List Nat) (acc : CFG),
    (getBB (l.foldl (fun a ei =>
        if some (getEdge a ei).dest = d then a else remove_edge a ei) acc)
      b).stmts = (getBB acc b).stmts := by
  intro l
  induction l with
  | nil => intro acc; rfl
  | cons hd tl ih =>
      intro acc
      rw [List.foldl_cons, ih]
      split
      · rfl
      · rw [getBB_stmts_remove_edge]

/-- The statements of the stripped block are its original statements
with the trailing control statement removed. -/
theorem strip_stmts_self (g : CFG) (bb : Nat) (d : Option Nat)
    (hl : (g.blocks.lookup bb).isSome) :
    (getBB (remove_ctrl_stmt_and_useless_edges g bb d) bb).stmts =
      removeCtrlStmt (getBB g bb).stmts := by
  simp only [remove_ctrl_stmt_and_useless_edges]
  rw [strip_fold_stmts]
  unfold getBB
  rw [lookup_blocks_setBB, if_pos rfl]
  rcases Option.isSome_iff_exists.mp hl with ⟨v, hv⟩
  rw [hv]
  rfl

/-- The statements of other blocks survive stripping. -/
theorem strip_stmts_other (g : CFG) (bb : Nat) (d : Option Nat) (b : Nat)
    (hb : b ≠ bb) :
    (getBB (remove_ctrl_stmt_and_useless_edges g bb d) b).stmts =
      (getBB g b).stmts := by
  simp only [remove_ctrl_stmt_and_useless_edges]
  rw [strip_fold_stmts, getBB_setBB_ne hb]

/-- The state of thread_single_edge after clearing the annotation slot
and counting the threaded edge, shared by both of its branches. -/
def tseState (g : CFG) (e : Nat) : CFG :=
  { setAux g e none with
      numThreadedEdges := (setAux g e none).numThreadedEdges + 1 }

/-- remove_edge keeps the allocation counter. -/
theorem remove_edge_nextBlock (g : CFG) (i : Nat) :
    (remove_edge g i).nextBlock = g.nextBlock := rfl

/-- remove_edge keeps the block keys. -/
theorem remove_edge_blockSkel (g : CFG) (i : Nat) :
    blockSkel (remove_edge g i) = blockSkel g := by
  have h : (remove_edge g i).blocks =
      (setBB g (getEdge g i).dest (fun bd =>
        { bd with phis := bd.phis.map (fun phi =>
            phi.filter (fun pr => pr.1 ≠ i)) })).blocks := rfl
  show ((remove_edge g i).blocks).map (·.1) = (g.blocks).map (·.1)
  rw [h]
  exact blockSkel_setBB _ _ _

/-- Stripping keeps the allocation counter. -/
theorem strip_nextBlock (g : CFG) (bb : Nat) (d : Option Nat) :
    (remove_ctrl_stmt_and_useless_edges g bb d).nextBlock = g.nextBlock := by
  simp only [remove_ctrl_stmt_and_useless_edges]
  refine foldl_invariant _ (fun a => a.nextBlock = g.nextBlock) ?_ _ _ rfl
  intro acc x h
  split
  · exact h
  · rw [remove_edge_nextBlock]; exact h

/-- Stripping keeps the block keys. -/
theorem strip_blockSkel (g : CFG) (bb : Nat) (d : Option Nat) :
    blockSkel (remove_ctrl_stmt_and_useless_edges g bb d) = blockSkel g := by
  simp only [remove_ctrl_stmt_and_useless_edges]
  refine foldl_invariant _ (fun a => blockSkel a = blockSkel g) ?_ _ _
    (blockSkel_setBB _ _ _)
  intro acc x h
  split
  · exact h
  · rw [remove_edge_blockSkel]; exact h

set_option maxHeartbeats 1000000 in
/-- The in-place single-predecessor branch of thread_single_edge: the
threaded block itself is returned without allocating a new block, its
trailing control statement is stripped, and its outgoing edges reduce
to the path edge alone, retargeted as a pure fallthrough edge. -/
theorem thread_single_edge_inplace
    (g : CFG) (e bb eto etoDest : Nat) (path : JTPath) (ve : EdgeD)
    (hn : (g.edges.map (·.1)).Nodup)
    (hpath : auxOf g e = some path)
    (hbb : bb = (getEdge g e).dest)
    (heto : eto = stepEdge (pathStep path 1))
    (hve : g.edges.lookup eto = some ve)
    (hetoDest : etoDest = ve.dest)
    (hbbLive : (g.blocks.lookup bb).isSome)
    (hsp : single_pred_p g bb = true)
    (hmem : eto ∈ succs g bb)
    (huniq : ∀ o ∈ succs g bb, (getEdge g o).dest = etoDest → o = eto)
    (hene : e ≠ eto) :
    (thread_single_edge g e).2 = bb ∧
    (thread_single_edge g e).1.nextBlock = g.nextBlock ∧
    blockSkel (thread_single_edge g e).1 = blockSkel g ∧
    (getBB (thread_single_edge g e).1 bb).stmts =
      removeCtrlStmt (getBB g bb).stmts ∧
    outRecords (thread_single_edge g e).1 bb =
      [(etoDest, ⟨true, false, false, false⟩)] := by
  have hkeys : ((tseState g e).edges.map (·.1)).Nodup := by
    have h1 : (tseState g e).edges = (setAux g e none).edges := rfl
    rw [h1]
    show (((setEdge g e (fun ed =>
      { ed with aux := none })).edges).map (·.1)).Nodup
    rw [edges_map_fst_setEdge]
    exact hn
  have hvet : (tseState g e).edges.lookup eto = some ve := by
    have h1 : (tseState g e).edges = (setEdge g e (fun ed =>
        { ed with aux := none })).edges := rfl
    rw [h1, lookup_edges_setEdge, if_neg (Ne.symm hene)]
    exact hve
  have hget : getEdge (tseState g e) eto = ve := by
    unfold getEdge
    rw [hvet]
    rfl
  have hvsrc : ve.src = bb := by
    have h1 := src_of_mem_succs hn hmem
    have h2 : getEdge g eto = ve := by
      unfold getEdge
      rw [hve]
      rfl
    rw [h2] at h1
    exact h1
  have hcond : single_pred_p { setAux g e none with
      numThreadedEdges := (setAux g e none).numThreadedEdges + 1 } bb = true := by
    have hsk : edgeSkel (tseState g e) = edgeSkel g := by
      have h1 : edgeSkel (tseState g e) = edgeSkel (setAux g e none) := rfl
      rw [h1]
      exact edgeSkel_setAux g e none
    have hpr : preds (tseState g e) bb = preds g bb := preds_eq_of_edgeSkel hsk bb
    show single_pred_p (tseState g e) bb = true
    unfold single_pred_p
    unfold single_pred_p at hsp
    rw [hpr]
    exact hsp
  have hunf : thread_single_edge g e =
      (setEdge (remove_ctrl_stmt_and_useless_edges
          (tseState g e) bb (some ((getEdge (tseState g e) eto).dest)))
        eto (fun ed => { ed with flags := ⟨true, false, false, false⟩ }), bb) := by
    simp only [thread_single_edge, hpath, Option.getD_some]
    rw [← hbb, ← heto]
    rw [if_pos hcond]
    simp only [tse_inplace]
    rfl
  have hd : (getEdge (tseState g e) eto).dest = etoDest := by
    rw [hget]
    exact hetoDest.symm
  rw [hunf, hd]
  refine ⟨rfl, ?_, ?_, ?_, ?_⟩
  · show (remove_ctrl_stmt_and_useless_edges (tseState g e) bb
        (some etoDest)).nextBlock = g.nextBlock
    rw [strip_nextBlock]
    rfl
  · show blockSkel (remove_ctrl_stmt_and_useless_edges (tseState g e) bb
        (some etoDest)) = blockSkel g
    rw [strip_blockSkel]
    rfl
  · show (getBB (remove_ctrl_stmt_and_useless_edges (tseState g e) bb
        (some etoDest)) bb).stmts = removeCtrlStmt (getBB g bb).stmts
    rw [strip_stmts_self _ _ _ (by exact hbbLive)]
    rfl
  · unfold outRecords
    have hedges : (setEdge (remove_ctrl_stmt_and_useless_edges
        (tseState g e) bb (some etoDest)) eto (fun ed =>
          { ed with flags := ⟨true, false, false, false⟩ })).edges =
        ((remove_ctrl_stmt_and_useless_edges (tseState g e) bb
          (some etoDest)).edges).map (fun p =>
            if p.1 = eto then (p.1, { p.2 with
              flags := (⟨true, false, false, false⟩ : EdgeFlags) }) else p) := rfl
    rw [hedges]
    rw [filter_map_comm _ _ (by
      intro a
      by_cases ha : a.1 = eto <;> simp [ha])]
    rw [strip_keep_edges _ _ _ hkeys, List.filter_filter]
    have hsingle : ((tseState g e).edges.filter (fun p =>
        decide (p.2.src = bb) &&
          (decide (¬ p.2.src = bb) || decide (p.2.dest = etoDest)))) =
        [(eto, ve)] := by
      refine filter_eq_singleton (nodup_of_keys_nodup hkeys)
        (lookup_mem hvet) (by simp [hvsrc, hetoDest.symm]) ?_
      intro y hy hqy
      have hy2 : y.2.src = bb ∧ y.2.dest = etoDest := by
        have h12 := hqy
        simp only [Bool.and_eq_true, Bool.or_eq_true, decide_eq_true_eq] at h12
        rcases h12 with ⟨h1, h3 | h3⟩
        · exact absurd h1 h3
        · exact ⟨h1, h3⟩
      have hy3 : y ∈ (setEdge g e (fun ed => { ed with aux := none })).edges :=
        hy
      rcases mem_edges_setEdge hy3 with ⟨q, hq, hqi, hqni⟩
      have hsd : y.1 = q.1 ∧ y.2.src = q.2.src ∧ y.2.dest = q.2.dest := by
        by_cases hc : q.1 = e
        · rw [hqi hc]
          exact ⟨rfl, rfl, rfl⟩
        · rw [hqni hc]
          exact ⟨rfl, rfl, rfl⟩
      have hqsrc : q.2.src = bb := by
        rw [← hsd.2.1]
        exact hy2.1
      have hqmem : q.1 ∈ succs g bb := key_mem_succs_of_src hq hqsrc
      have hqdest : (getEdge g q.1).dest = etoDest := by
        have hql : g.edges.lookup q.1 = some q.2 := lookup_eq_of_mem hn hq
        unfold getEdge
        rw [hql]
        show q.2.dest = etoDest
        rw [← hsd.2.2]
        exact hy2.2
      have hqeto : q.1 = eto := huniq q.1 hqmem hqdest
      have hyk : y.1 = eto := by rw [hsd.1, hqeto]
      have hyl : (tseState g e).edges.lookup y.1 = some y.2 :=
        lookup_eq_of_mem hkeys hy
      rw [hyk, hvet] at hyl
      have : ve = y.2 := Option.some.inj hyl
      calc y = (y.1, y.2) := rfl
        _ = (eto, ve) := by rw [hyk, ← this]
    rw [hsingle]
    simp [hetoDest]

/-- Appending fresh edges in a fold keeps the key bound, keeps the keys
duplicate-free, preserves old bindings, only adds records produced by
the generator, and leaves blocks and the block allocator alone. -/
theorem append_fold_facts (mk : Nat → EdgeD) :
    ∀ (l : List Nat) (acc : CFG),
    (∀ p ∈ acc.edges, p.1 < acc.nextEdge) →
    ((acc.edges.map (·.1)).Nodup) →
    (∀ p ∈ (l.foldl (fun a oi =>
        { a with edges := a.edges ++ [(a.nextEdge, mk oi)],
                 nextEdge := a.nextEdge + 1 }) acc).edges,
      p.1 < (l.foldl (fun a oi =>
        { a with edges := a.edges ++ [(a.nextEdge, mk oi)],
                 nextEdge := a.nextEdge + 1 }) acc).nextEdge) ∧
    (((l.foldl (fun a oi =>
        { a with edges := a.edges ++ [(a.nextEdge, mk oi)],
                 nextEdge := a.nextEdge + 1 }) acc).edges.map (·.1)).Nodup) ∧
    (∀ j, j < acc.nextEdge →
      (l.foldl (fun a oi =>
        { a with edges := a.edges ++ [(a.nextEdge, mk oi)],
                 nextEdge := a.nextEdge + 1 }) acc).edges.lookup j =
        acc.edges.lookup j) ∧
    (∀ p ∈ (l.foldl (fun a oi =>
        { a with edges := a.edges ++ [(a.nextEdge, mk oi)],
                 nextEdge := a.nextEdge + 1 }) acc).edges,
      p ∈ acc.edges ∨ (acc.nextEdge ≤ p.1 ∧ ∃ oi ∈ l, p.2 = mk oi)) ∧
    ((l.foldl (fun a oi =>
        { a with edges := a.edges ++ [(a.nextEdge, mk oi)],
                 nextEdge := a.nextEdge + 1 }) acc).blocks = acc.blocks) ∧
    ((l.foldl (fun a oi =>
        { a with edges := a.edges ++ [(a.nextEdge, mk oi)],
                 nextEdge := a.nextEdge + 1 }) acc).nextBlock = acc.nextBlock) ∧
    (acc.nextEdge ≤ (l.foldl (fun a oi =>
        { a with edges := a.edges ++ [(a.nextEdge, mk oi)],
                 nextEdge := a.nextEdge + 1 }) acc).nextEdge) := by
  intro l
  induction l with
  | nil =>
      intro acc hb hn
      exact ⟨hb, hn, fun j _ => rfl, fun p hp => Or.inl hp, rfl, rfl,
        Nat.le_refl _⟩
  | cons oi tl ih =>
      intro acc hb hn
      have hb1 : ∀ p ∈ (acc.edges ++ [(acc.nextEdge, mk oi)]),
          p.1 < acc.nextEdge + 1 := by
        intro p hp
        rcases List.mem_append.mp hp with h1 | h1
        · exact Nat.lt_trans (hb p h1) (Nat.lt_succ_self _)
        · have : p = (acc.nextEdge, mk oi) := by simpa using h1
          rw [this]
          exact Nat.lt_succ_self _
      have hfresh : acc.nextEdge ∉ acc.edges.map (·.1) := by
        intro hc
        rcases List.mem_map.mp hc with ⟨p, hp, hp1⟩
        have := hb p hp
        omega
      have hn1 : (((acc.edges ++ [(acc.nextEdge, mk oi)]).map (·.1))).Nodup := by
        rw [List.map_append]
        simp only [List.map_cons, List.map_nil]
        rw [List.nodup_append]
        refine ⟨hn, List.nodup_singleton _, ?_⟩
        intro a ha hb2
        have : a = acc.nextEdge := by simpa using hb2
        rw [this] at ha
        exact hfresh ha
      have hstep := ih ({ acc with
          edges := acc.edges ++ [(acc.nextEdge, mk oi)],
          nextEdge := acc.nextEdge + 1 }) hb1 hn1
      rw [List.foldl_cons]
      refine ⟨hstep.1, hstep.2.1, ?_, ?_, hstep.2.2.2.2.1,
        hstep.2.2.2.2.2.1, ?_⟩
      · intro j hj
        rw [hstep.2.2.1 j (Nat.lt_trans hj (Nat.lt_succ_self _))]
        show (acc.edges ++ [(acc.nextEdge, mk oi)]).lookup j = acc.edges.lookup j
        rw [lookup_append]
        cases hv : acc.edges.lookup j with
        | some v => rfl
        | none =>
            have hj2 : j ≠ acc.nextEdge := by omega
            simp [List.lookup, beq_false_of_ne hj2]
      · intro p hp
        rcases hstep.2.2.2.1 p hp with h1 | h1
        · rcases List.mem_append.mp h1 with h2 | h2
          · exact Or.inl h2
          · have : p = (acc.nextEdge, mk oi) := by simpa using h2
            exact Or.inr ⟨by rw [this], oi, by simp, by rw [this]⟩
        · rcases h1 with ⟨hk1, oi2, hoi2, hp2⟩
          have hk1' : acc.nextEdge + 1 ≤ p.1 := hk1
          exact Or.inr ⟨by omega, oi2, by simp [hoi2], hp2⟩
      · calc acc.nextEdge ≤ acc.nextEdge + 1 := Nat.le_succ _
          _ ≤ _ := hstep.2.2.2.2.2.2

/-- With duplicate-free keys, a surviving binding is found unchanged in
a filtered association list. -/
theorem lookup_filter_of_sat {l : List (Nat × EdgeD)} {P : Nat × EdgeD → Bool}
    {k : Nat} {v : EdgeD} (hn : (l.map (·.1)).Nodup)
    (hv : l.lookup k = some v) (hP : P (k, v) = true) :
    (l.filter P).lookup k = some v := by
  have hmem : (k, v) ∈ l := lookup_mem hv
  have hmf : (k, v) ∈ l.filter P := List.mem_filter.mpr ⟨hmem, hP⟩
  have hnf : ((l.filter P).map (·.1)).Nodup :=
    List.Nodup.sublist (List.Sublist.map _ (List.filter_sublist _)) hn
  exact lookup_eq_of_mem hnf hmf

/-- Liveness of blocks survives the stripping. -/
theorem strip_blocks_isSome (g : CFG) (bb : Nat) (d : Option Nat) (b : Nat) :
    ((remove_ctrl_stmt_and_useless_edges g bb d).blocks.lookup b).isSome =
      (g.blocks.lookup b).isSome := by
  simp only [remove_ctrl_stmt_and_useless_edges]
  have hfold : ∀ (l : List Nat) (acc : CFG),
      ((l.foldl (fun a ei =>
        if some (getEdge a ei).dest = d then a else remove_edge a ei)
          acc).blocks.lookup b).isSome = (acc.blocks.lookup b).isSome := by
    intro l
    induction l with
    | nil => intro acc; rfl
    | cons hd tl ih =>
        intro acc
        rw [List.foldl_cons, ih]
        split
        · rfl
        · exact lookup_blocks_remove_edge _ _ _
  rw [hfold]
  exact lookup_isSome_setBB _ _ _ _

/-- A block without incoming edges has no predecessor sources. -/
theorem predSrcs_nil {g : CFG} {d : Nat}
    (h : ∀ p ∈ g.edges, p.2.dest ≠ d) : predSrcs g d = [] := by
  unfold predSrcs
  have : g.edges.filter (fun p => p.2.dest = d) = [] := by
    rw [List.eq_nil_iff_forall_not_mem]
    intro p hp
    rcases List.mem_filter.mp hp with ⟨h1, h2⟩
    exact h p h1 (of_decide_eq_true h2)
  rw [this]
  rfl

/-- The block-append stage of duplicate_block. -/
def dupA (g : CFG) (bb : Nat) : CFG :=
  { g with
      blocks := g.blocks ++ [(g.nextBlock, { getBB g bb with phis := [] })]
      nextBlock := g.nextBlock + 1 }

/-- The edge-replication stage of duplicate_block. -/
def dupF (g : CFG) (bb : Nat) : CFG :=
  (succs g bb).foldl (fun acc oi =>
    { acc with
        edges := acc.edges ++ [(acc.nextEdge,
          ⟨g.nextBlock, (getEdge g oi).dest, (getEdge g oi).flags,
           (getEdge g oi).count, (getEdge g oi).probability,
           (getEdge g oi).aux⟩)]
        nextEdge := acc.nextEdge + 1 }) (dupA g bb)

/-- duplicate_block in staged form. -/
theorem duplicate_block_eq (g : CFG) (bb : Nat) :
    duplicate_block g bb = (dupF g bb, g.nextBlock) := rfl

/-- The full duplicate construction of create_block_for_threading. -/
def cbtF (g : CFG) (bb : Nat) : CFG :=
  setBB ((succs (dupF g bb) g.nextBlock).foldl
      (fun acc ei => setAux acc ei none) (dupF g bb))
    g.nextBlock (fun b => { b with frequency := 0, count := 0 })

/-- create_block_for_threading in staged form. -/
theorem create_block_eq (g : CFG) (bb : Nat) :
    create_block_for_threading g bb = (cbtF g bb, g.nextBlock) := rfl

/-- The annotation-clearing fold keeps keys, allocators, blocks, the
incidence data of every record, and the bindings of identities outside
the processed list. -/
theorem setAux_fold_facts : ∀ (l : List Nat) (acc : CFG),
    ((l.foldl (fun a ei => setAux a ei none) acc).edges.map (·.1) =
      acc.edges.map (·.1)) ∧
    ((l.foldl (fun a ei => setAux a ei none) acc).nextEdge = acc.nextEdge) ∧
    ((l.foldl (fun a ei => setAux a ei none) acc).nextBlock = acc.nextBlock) ∧
    ((l.foldl (fun a ei => setAux a ei none) acc).blocks = acc.blocks) ∧
    (∀ p ∈ (l.foldl (fun a ei => setAux a ei none) acc).edges,
      ∃ q ∈ acc.edges, p.1 = q.1 ∧ p.2.src = q.2.src ∧ p.2.dest = q.2.dest ∧
        p.2.flags = q.2.flags) ∧
    (∀ j, j ∉ l →
      (l.foldl (fun a ei => setAux a ei none) acc).edges.lookup j =
        acc.edges.lookup j) := by
  intro l
  induction l with
  | nil =>
      intro acc
      exact ⟨rfl, rfl, rfl, rfl,
        fun p hp => ⟨p, hp, rfl, rfl, rfl, rfl⟩, fun j _ => rfl⟩
  | cons hd tl ih =>
      intro acc
      rw [List.foldl_cons]
      have hstep := ih (setAux acc hd none)
      refine ⟨?_, ?_, ?_, ?_, ?_, ?_⟩
      · rw [hstep.1]
        exact edges_map_fst_setEdge _ _ _
      · rw [hstep.2.1]
        rfl
      · rw [hstep.2.2.1]
        rfl
      · rw [hstep.2.2.2.1]
        rfl
      · intro p hp
        rcases hstep.2.2.2.2.1 p hp with ⟨q, hq, h1, h2, h3, h4⟩
        rcases mem_edges_setEdge hq with ⟨q2, hq2, hqi, hqni⟩
        by_cases hc : q2.1 = hd
        · refine ⟨q2, hq2, ?_, ?_, ?_, ?_⟩ <;>
            rw [hqi hc] at h1 h2 h3 h4 <;> simpa using (by assumption)
        · refine ⟨q2, hq2, ?_, ?_, ?_, ?_⟩ <;>
            rw [hqni hc] at h1 h2 h3 h4 <;> assumption
      · intro j hj
        rw [hstep.2.2.2.2.2 j (fun hc => hj (List.mem_cons_of_mem _ hc))]
        show (setEdge acc hd _).edges.lookup j = acc.edges.lookup j
        rw [lookup_edges_setEdge, if_neg (by
          intro hc
          exact hj (by rw [hc]; exact List.mem_cons_self _ _))]

/-- The duplicate produced by create_block_for_threading: fresh keys
below the new allocator, old bindings untouched, destinations still
below the old block allocator, and the duplicate block itself carrying
the original's statements with a zeroed profile. -/
theorem create_block_facts (g : CFG) (bb : Nat)
    (hn : (g.edges.map (·.1)).Nodup)
    (hkb : ∀ p ∈ g.edges, p.1 < g.nextEdge)
    (hblk : ∀ p ∈ g.blocks, p.1 < g.nextBlock)
    (hsrc : ∀ p ∈ g.edges, p.2.src < g.nextBlock)
    (hdst : ∀ p ∈ g.edges, p.2.dest < g.nextBlock)
    (h0 : 0 < g.nextBlock) :
    ((cbtF g bb).edges.map (·.1)).Nodup ∧
    (∀ p ∈ (cbtF g bb).edges, p.1 < (cbtF g bb).nextEdge) ∧
    (∀ j, j < g.nextEdge →
      (cbtF g bb).edges.lookup j = g.edges.lookup j) ∧
    (∀ p ∈ (cbtF g bb).edges, p.2.dest < g.nextBlock) ∧
    ((getBB (cbtF g bb) g.nextBlock).stmts = (getBB g bb).stmts) ∧
    (((cbtF g bb).blocks.lookup g.nextBlock).isSome) ∧
    ((cbtF g bb).nextBlock = g.nextBlock + 1) ∧
    (g.nextEdge ≤ (cbtF g bb).nextEdge) := by
  have hbA : ∀ p ∈ (dupA g bb).edges, p.1 < (dupA g bb).nextEdge := hkb
  have hnA : ((dupA g bb).edges.map (·.1)).Nodup := hn
  have hF : (∀ p ∈ (dupF g bb).edges, p.1 < (dupF g bb).nextEdge) ∧
      (((dupF g bb).edges.map (·.1)).Nodup) ∧
      (∀ j, j < g.nextEdge →
        (dupF g bb).edges.lookup j = (dupA g bb).edges.lookup j) ∧
      (∀ p ∈ (dupF g bb).edges,
        p ∈ (dupA g bb).edges ∨ (g.nextEdge ≤ p.1 ∧ ∃ oi ∈ succs g bb,
          p.2 = ⟨g.nextBlock, (getEdge g oi).dest, (getEdge g oi).flags,
            (getEdge g oi).count, (getEdge g oi).probability,
            (getEdge g oi).aux⟩)) ∧
      ((dupF g bb).blocks = (dupA g bb).blocks) ∧
      ((dupF g bb).nextBlock = (dupA g bb).nextBlock) ∧
      (g.nextEdge ≤ (dupF g bb).nextEdge) :=
    append_fold_facts (fun oi =>
      ⟨g.nextBlock, (getEdge g oi).dest, (getEdge g oi).flags,
       (getEdge g oi).count, (getEdge g oi).probability, (getEdge g oi).aux⟩)
      (succs g bb) (dupA g bb) hbA hnA
  have hFdest : ∀ p ∈ (dupF g bb).edges, p.2.dest < g.nextBlock := by
    intro p hp
    rcases hF.2.2.2.1 p hp with h1 | ⟨_, oi, _, h2⟩
    · exact hdst p h1
    · rw [h2]
      show (getEdge g oi).dest < g.nextBlock
      unfold getEdge
      cases hv : g.edges.lookup oi with
      | none => exact h0
      | some v => exact hdst (oi, v) (lookup_mem hv)
  have hA := setAux_fold_facts (succs (dupF g bb) g.nextBlock) (dupF g bb)
  have hLfresh : ∀ i ∈ succs (dupF g bb) g.nextBlock, g.nextEdge ≤ i := by
    intro i hi
    unfold succs at hi
    rcases List.mem_map.mp hi with ⟨q, hq1, hq2⟩
    rcases List.mem_filter.mp hq1 with ⟨hq3, hq4⟩
    rcases hF.2.2.2.1 q hq3 with h1 | ⟨hk, _, _, _⟩
    · exfalso
      have hsq : q.2.src < g.nextBlock := hsrc q h1
      have : q.2.src = g.nextBlock := of_decide_eq_true hq4
      omega
    · rw [← hq2]
      exact hk
  have hkeysC : (cbtF g bb).edges.map (·.1) = (dupF g bb).edges.map (·.1) := by
    show ((setBB _ _ _).edges).map (·.1) = _
    rw [edges_setBB]
    exact hA.1
  refine ⟨?_, ?_, ?_, ?_, ?_, ?_, ?_, ?_⟩
  · rw [hkeysC]
    exact hF.2.1
  · intro p hp
    have hks : p.1 ∈ (cbtF g bb).edges.map (·.1) :=
      List.mem_map.mpr ⟨p, hp, rfl⟩
    rw [hkeysC] at hks
    rcases List.mem_map.mp hks with ⟨q, hq, hqk⟩
    have h1 : q.1 < (dupF g bb).nextEdge := hF.1 q hq
    have h2 : (cbtF g bb).nextEdge = (dupF g bb).nextEdge := by
      show ((setBB _ _ _).nextEdge) = _
      have h3 : (setBB ((succs (dupF g bb) g.nextBlock).foldl
          (fun acc ei => setAux acc ei none) (dupF g bb)) g.nextBlock
          (fun b => { b with frequency := 0, count := 0 })).nextEdge =
          ((succs (dupF g bb) g.nextBlock).foldl
            (fun acc ei => setAux acc ei none) (dupF g bb)).nextEdge := rfl
      rw [h3]
      exact hA.2.1
    rw [h2, ← hqk]
    exact h1
  · intro j hj
    have h1 : (cbtF g bb).edges = ((succs (dupF g bb) g.nextBlock).foldl
        (fun acc ei => setAux acc ei none) (dupF g bb)).edges := rfl
    rw [h1, hA.2.2.2.2.2 j (fun hc => by
      have := hLfresh j hc
      omega)]
    rw [hF.2.2.1 j hj]
    rfl
  · intro p hp
    have h1 : p ∈ ((succs (dupF g bb) g.nextBlock).foldl
        (fun acc ei => setAux acc ei none) (dupF g bb)).edges := hp
    rcases hA.2.2.2.2.1 p h1 with ⟨q, hq, _, _, h3, _⟩
    rw [h3]
    exact hFdest q hq
  · have h1 : (cbtF g bb).blocks.lookup g.nextBlock =
        ((dupF g bb).blocks.lookup g.nextBlock).map
          (fun b => { b with frequency := 0, count := 0 }) := by
      show (setBB _ _ _).blocks.lookup g.nextBlock = _
      rw [lookup_blocks_setBB, if_pos rfl, hA.2.2.2.1]
    have h2 : (dupF g bb).blocks.lookup g.nextBlock =
        some { getBB g bb with phis := [] } := by
      rw [hF.2.2.2.2.1]
      show (g.blocks ++ [(g.nextBlock, { getBB g bb with phis := [] })]).lookup
        g.nextBlock = _
      rw [lookup_append]
      rw [lookup_eq_none_of_not_mem (fun hc => by
        rcases List.mem_map.mp hc with ⟨q, hq, hqk⟩
        have := hblk q hq
        omega)]
      simp [List.lookup]
    unfold getBB
    rw [h1, h2]
    rfl
  · have h1 : (cbtF g bb).blocks.lookup g.nextBlock =
        ((dupF g bb).blocks.lookup g.nextBlock).map
          (fun b => { b with frequency := 0, count := 0 }) := by
      show (setBB _ _ _).blocks.lookup g.nextBlock = _
      rw [lookup_blocks_setBB, if_pos rfl, hA.2.2.2.1]
    have h2 : (dupF g bb).blocks.lookup g.nextBlock =
        some { getBB g bb with phis := [] } := by
      rw [hF.2.2.2.2.1]
      show (g.blocks ++ [(g.nextBlock, { getBB g bb with phis := [] })]).lookup
        g.nextBlock = _
      rw [lookup_append]
      rw [lookup_eq_none_of_not_mem (fun hc => by
        rcases List.mem_map.mp hc with ⟨q, hq, hqk⟩
        have := hblk q hq
        omega)]
      simp [List.lookup]
    rw [h1, h2]
    rfl
  · have h1 : (cbtF g bb).nextBlock = ((succs (dupF g bb) g.nextBlock).foldl
        (fun acc ei => setAux acc ei none) (dupF g bb)).nextBlock := rfl
    rw [h1, hA.2.2.1, hF.2.2.2.2.2.1]
    rfl
  · have h2 : (cbtF g bb).nextEdge = (dupF g bb).nextEdge := by
      have h3 : (cbtF g bb).nextEdge = ((succs (dupF g bb) g.nextBlock).foldl
          (fun acc ei => setAux acc ei none) (dupF g bb)).nextEdge := rfl
      rw [h3]
      exact hA.2.1
    rw [h2]
    exact hF.2.2.2.2.2.2

/-- Duplicate-free keys survive a filter. -/
theorem nodup_keys_filter {l : List (Nat × EdgeD)} (P : Nat × EdgeD → Bool)
    (hn : (l.map (·.1)).Nodup) : ((l.filter P).map (·.1)).Nodup :=
  List.Nodup.sublist (List.Sublist.map _ (List.filter_sublist _)) hn

/-- Stripping keeps the edge allocator. -/
theorem strip_nextEdge (g : CFG) (bb : Nat) (d : Option Nat) :
    (remove_ctrl_stmt_and_useless_edges g bb d).nextEdge = g.nextEdge := by
  simp only [remove_ctrl_stmt_and_useless_edges]
  refine foldl_invariant _ (fun a => a.nextEdge = g.nextEdge) ?_ _ _ rfl
  intro acc x h
  split
  · exact h
  · show (remove_edge acc x).nextEdge = _
    rw [show (remove_edge acc x).nextEdge = acc.nextEdge from rfl]
    exact h

/-- Lookups away from the touched key ignore a key-preserving map. -/
theorem lookup_map_keep {α : Type} (i : Nat) (u : Nat × α → Nat × α)
    (hu : ∀ p, p.1 ≠ i → u p = p) (hk : ∀ p, (u p).1 = p.1) :
    ∀ (l : List (Nat × α)) {j : Nat}, j ≠ i →
      (l.map u).lookup j = l.lookup j := by
  intro l
  induction l with
  | nil => intro j _; rfl
  | cons hd tl ih =>
      intro j hj
      rw [List.map_cons]
      by_cases hjh : j = hd.1
      · have hhd : u hd = hd := by
          apply hu
          rw [← hjh]
          exact hj
        rw [hhd]
        have hb : (j == hd.1) = true := by simp [hjh]
        obtain ⟨a, b⟩ := hd
        simp only [List.lookup, hb]
      · have hb : (j == hd.1) = false := beq_false_of_ne hjh
        have hb2 : (j == (u hd).1) = false := by
          rw [hk hd]
          exact hb
        have step1 : List.lookup j (u hd :: List.map u tl) =
            List.lookup j (List.map u tl) := by
          cases hud : u hd with
          | mk a2 b2 =>
              rw [hud] at hb2
              simp only [List.lookup, hb2]
        have step2 : List.lookup j (hd :: tl) = List.lookup j tl := by
          obtain ⟨a, b⟩ := hd
          simp only [List.lookup, hb]
        rw [step1, step2]
        exact ih hj

/-- The wiring of the single outgoing edge of a freshly stripped
duplicate: keys stay duplicate-free and bounded, old bindings and all
block statements survive, every record keeps its incidence data except
the one new edge from the duplicate to the final destination, and when
the duplicate had no outgoing edge left the source filter yields exactly
the new fallthrough edge. -/
theorem create_edge_facts (G : CFG) (rd : RD) (bb : Nat)
    (hn : (G.edges.map (·.1)).Nodup)
    (hfresh : ∀ p ∈ G.edges, p.1 < G.nextEdge) :
    (((create_edge_and_update_destination_phis G rd bb).edges.map
      (·.1)).Nodup) ∧
    ((create_edge_and_update_destination_phis G rd bb).nextEdge =
      G.nextEdge + 1) ∧
    (∀ p ∈ (create_edge_and_update_destination_phis G rd bb).edges,
      (∃ q ∈ G.edges, p.1 = q.1 ∧ p.2.src = q.2.src ∧ p.2.dest = q.2.dest ∧
        p.2.flags = q.2.flags) ∨
      (p.1 = G.nextEdge ∧ p.2.src = bb ∧
        p.2.dest = (getEdge G (stepEdge (pathLast rd.path))).dest ∧
        p.2.flags = ⟨true, false, false, false⟩)) ∧
    (∀ j, j < G.nextEdge →
      (create_edge_and_update_destination_phis G rd bb).edges.lookup j =
        G.edges.lookup j) ∧
    (∀ b, ((create_edge_and_update_destination_phis G rd bb).blocks.lookup
      b).isSome = (G.blocks.lookup b).isSome) ∧
    (∀ b, (getBB (create_edge_and_update_destination_phis G rd bb) b).stmts =
      (getBB G b).stmts) ∧
    ((create_edge_and_update_destination_phis G rd bb).nextBlock =
      G.nextBlock) ∧
    ((∀ p ∈ G.edges, ¬ p.2.src = bb) →
      ((create_edge_and_update_destination_phis G rd bb).edges.filter
          (fun p => p.2.src = bb)).map (fun p => (p.1, p.2.dest, p.2.flags)) =
        [(G.nextEdge, (getEdge G (stepEdge (pathLast rd.path))).dest,
          (⟨true, false, false, false⟩ : EdgeFlags))]) := by
  have hedges : (create_edge_and_update_destination_phis G rd bb).edges =
      ((G.edges ++ [(G.nextEdge,
          (⟨bb, (getEdge G (stepEdge (pathLast rd.path))).dest,
           ⟨true, false, false, false⟩, 0, 0, none⟩ : EdgeD))]).map (fun (p : Nat × EdgeD) =>
        if p.1 = G.nextEdge then (p.1,
          { p.2 with
              probability := REG_BR_PROB_BASE
              count := (getBB ({ G with
                edges := G.edges ++ [(G.nextEdge,
                  (⟨bb, (getEdge G (stepEdge (pathLast rd.path))).dest,
                   ⟨true, false, false, false⟩, 0, 0, none⟩ : EdgeD))]
                nextEdge := G.nextEdge + 1 } : CFG) bb).count }) else p)).map
        (fun (p : Nat × EdgeD) => if p.1 = G.nextEdge then (p.1,
          { p.2 with
              aux := (getEdge (setEdge ({ G with
                edges := G.edges ++ [(G.nextEdge,
                  (⟨bb, (getEdge G (stepEdge (pathLast rd.path))).dest,
                   ⟨true, false, false, false⟩, 0, 0, none⟩ : EdgeD))]
                nextEdge := G.nextEdge + 1 } : CFG) G.nextEdge (fun ed =>
                  { ed with
                      probability := REG_BR_PROB_BASE
                      count := (getBB ({ G with
                        edges := G.edges ++ [(G.nextEdge,
                          (⟨bb, (getEdge G (stepEdge (pathLast rd.path))).dest,
                           ⟨true, false, false, false⟩, 0, 0, none⟩ : EdgeD))]
                        nextEdge := G.nextEdge + 1 } : CFG) bb).count }))
                (stepEdge (pathLast rd.path))).aux }) else p) := rfl
  have hne : (create_edge_and_update_destination_phis G rd bb).nextEdge =
      G.nextEdge + 1 := rfl
  have hkeys0 : ((G.edges ++ [(G.nextEdge,
      (⟨bb, (getEdge G (stepEdge (pathLast rd.path))).dest,
       ⟨true, false, false, false⟩, 0, 0, none⟩ : EdgeD))]).map (·.1)) =
      G.edges.map (·.1) ++ [G.nextEdge] := by
    rw [List.map_append]
    rfl
  have hkeymap : ∀ (u : Nat × EdgeD → Nat × EdgeD),
      (∀ p, (u p).1 = p.1) → ∀ (l : List (Nat × EdgeD)),
      ((l.map u).map (·.1)) = l.map (·.1) := by
    intro u hu l
    rw [List.map_map]
    exact List.map_congr_left (fun p _ => hu p)
  have hu1 : ∀ p : Nat × EdgeD, ((if p.1 = G.nextEdge then (p.1,
      { p.2 with
          probability := REG_BR_PROB_BASE
          count := (getBB ({ G with
            edges := G.edges ++ [(G.nextEdge,
              (⟨bb, (getEdge G (stepEdge (pathLast rd.path))).dest,
               ⟨true, false, false, false⟩, 0, 0, none⟩ : EdgeD))]
            nextEdge := G.nextEdge + 1 } : CFG) bb).count }) else p) : Nat ×
        EdgeD).1 = p.1 := by
    intro p
    by_cases hc : p.1 = G.nextEdge <;> simp [hc]
  have hu2 : ∀ p : Nat × EdgeD, ((if p.1 = G.nextEdge then (p.1,
      { p.2 with
          aux := (getEdge (setEdge ({ G with
            edges := G.edges ++ [(G.nextEdge,
              (⟨bb, (getEdge G (stepEdge (pathLast rd.path))).dest,
               ⟨true, false, false, false⟩, 0, 0, none⟩ : EdgeD))]
            nextEdge := G.nextEdge + 1 } : CFG) G.nextEdge (fun ed =>
              { ed with
                  probability := REG_BR_PROB_BASE
                  count := (getBB ({ G with
                    edges := G.edges ++ [(G.nextEdge,
                      (⟨bb, (getEdge G (stepEdge (pathLast rd.path))).dest,
                       ⟨true, false, false, false⟩, 0, 0, none⟩ : EdgeD))]
                    nextEdge := G.nextEdge + 1 } : CFG) bb).count }))
            (stepEdge (pathLast rd.path))).aux }) else p) : Nat × EdgeD).1 =
      p.1 := by
    intro p
    by_cases hc : p.1 = G.nextEdge <;> simp [hc]
  have hkeysfin : ((create_edge_and_update_destination_phis G rd
      bb).edges.map (·.1)) = G.edges.map (·.1) ++ [G.nextEdge] := by
    rw [hedges, hkeymap _ hu2, hkeymap _ hu1, hkeys0]
  have hfreshk : G.nextEdge ∉ G.edges.map (·.1) := by
    intro hc
    rcases List.mem_map.mp hc with ⟨p, hp, hp1⟩
    have := hfresh p hp
    omega
  refine ⟨?_, hne, ?_, ?_, ?_, ?_, ?_, ?_⟩
  · rw [hkeysfin, List.nodup_append]
    refine ⟨hn, List.nodup_singleton _, ?_⟩
    intro a ha hb2
    have : a = G.nextEdge := by simpa using hb2
    rw [this] at ha
    exact hfreshk ha
  · intro p hp
    rw [hedges] at hp
    rcases List.mem_map.mp hp with ⟨q1, hq1, hq1p⟩
    rcases List.mem_map.mp hq1 with ⟨q0, hq0, hq0q⟩
    have hk : p.1 = q0.1 := by
      rw [← hq1p, ← hq0q, hu2, hu1]
    have hsd : p.2.src = q0.2.src ∧ p.2.dest = q0.2.dest ∧
        p.2.flags = q0.2.flags := by
      rw [← hq1p, ← hq0q]
      by_cases hc : q0.1 = G.nextEdge
      · by_cases hc2 : ((if q0.1 = G.nextEdge then (q0.1, { q0.2 with
            probability := REG_BR_PROB_BASE
            count := (getBB ({ G with
              edges := G.edges ++ [(G.nextEdge,
                (⟨bb, (getEdge G (stepEdge (pathLast rd.path))).dest,
                 ⟨true, false, false, false⟩, 0, 0, none⟩ : EdgeD))]
              nextEdge := G.nextEdge + 1 } : CFG) bb).count }) else q0) :
            Nat × EdgeD).1 = G.nextEdge
        · simp only [if_pos hc, if_pos hc2]
          exact ⟨trivial, trivial, trivial⟩
        · simp only [if_pos hc, if_neg hc2]
          exact ⟨trivial, trivial, trivial⟩
      · have hc2 : ¬ ((if q0.1 = G.nextEdge then (q0.1, { q0.2 with
            probability := REG_BR_PROB_BASE
            count := (getBB ({ G with
              edges := G.edges ++ [(G.nextEdge,
                (⟨bb, (getEdge G (stepEdge (pathLast rd.path))).dest,
                 ⟨true, false, false, false⟩, 0, 0, none⟩ : EdgeD))]
              nextEdge := G.nextEdge + 1 } : CFG) bb).count }) else q0) :
            Nat × EdgeD).1 = G.nextEdge := by
          rw [hu1]
          exact hc
        simp only [if_neg hc, if_neg hc2]
        exact ⟨trivial, trivial, trivial⟩
    rcases List.mem_append.mp hq0 with h1 | h1
    · exact Or.inl ⟨q0, h1, hk, hsd.1, hsd.2.1, hsd.2.2⟩
    · have hq0v : q0 = (G.nextEdge,
          (⟨bb, (getEdge G (stepEdge (pathLast rd.path))).dest,
           ⟨true, false, false, false⟩, 0, 0, none⟩ : EdgeD)) := by
        simpa using h1
      refine Or.inr ⟨?_, ?_, ?_, ?_⟩
      · rw [hk, hq0v]
      · rw [hsd.1, hq0v]
      · rw [hsd.2.1, hq0v]
      · rw [hsd.2.2, hq0v]
  · intro j hj
    have hjne : j ≠ G.nextEdge := by omega
    rw [hedges]
    rw [lookup_map_keep G.nextEdge _
      (fun p hp => by simp [hp]) (fun p => hu2 p) _ hjne]
    rw [lookup_map_keep G.nextEdge _
      (fun p hp => by simp [hp]) (fun p => hu1 p) _ hjne]
    rw [lookup_append]
    cases hv : G.edges.lookup j with
    | some v => rfl
    | none => simp [List.lookup, beq_false_of_ne hjne]
  · intro b
    have h1 : (create_edge_and_update_destination_phis G rd bb).blocks =
        (copy_phi_args (setEdge (setEdge ({ G with
          edges := G.edges ++ [(G.nextEdge,
            (⟨bb, (getEdge G (stepEdge (pathLast rd.path))).dest,
             ⟨true, false, false, false⟩, 0, 0, none⟩ : EdgeD))]
          nextEdge := G.nextEdge + 1 } : CFG) G.nextEdge (fun ed =>
            { ed with
                probability := REG_BR_PROB_BASE
                count := (getBB ({ G with
                  edges := G.edges ++ [(G.nextEdge,
                    (⟨bb, (getEdge G (stepEdge (pathLast rd.path))).dest,
                     ⟨true, false, false, false⟩, 0, 0, none⟩ : EdgeD))]
                  nextEdge := G.nextEdge + 1 } : CFG) bb).count }))
          G.nextEdge (fun ed =>
            { ed with aux := (getEdge (setEdge ({ G with
                edges := G.edges ++ [(G.nextEdge,
                  (⟨bb, (getEdge G (stepEdge (pathLast rd.path))).dest,
                   ⟨true, false, false, false⟩, 0, 0, none⟩ : EdgeD))]
                nextEdge := G.nextEdge + 1 } : CFG) G.nextEdge (fun ed =>
                  { ed with
                      probability := REG_BR_PROB_BASE
                      count := (getBB ({ G with
                        edges := G.edges ++ [(G.nextEdge,
                          ⟨bb, (getEdge G
                            (stepEdge (pathLast rd.path))).dest,
                           ⟨true, false, false, false⟩, 0, 0, none⟩)]
                        nextEdge := G.nextEdge + 1 } : CFG) bb).count }))
                (stepEdge (pathLast rd.path))).aux }))
          (getEdge G (stepEdge (pathLast rd.path))).dest
          (stepEdge (pathLast rd.path)) G.nextEdge).blocks := rfl
    rw [h1]
    show ((setBB _ _ _).blocks.lookup b).isSome = _
    rw [lookup_isSome_setBB]
    rfl
  · intro b
    exact copy_phi_args_stmts _ _ _ _ b
  · rfl
  · intro hnosrc
    rw [hedges]
    rw [filter_map_comm _ _ (by
      intro a
      by_cases hc : a.1 = G.nextEdge <;> simp [hc])]
    rw [filter_map_comm _ _ (by
      intro a
      by_cases hc : a.1 = G.nextEdge <;> simp [hc])]
    have hfl : (G.edges ++ [(G.nextEdge,
        (⟨bb, (getEdge G (stepEdge (pathLast rd.path))).dest,
         ⟨true, false, false, false⟩, 0, 0, none⟩ : EdgeD))]).filter
          (fun p => p.2.src = bb) = [(G.nextEdge,
        (⟨bb, (getEdge G (stepEdge (pathLast rd.path))).dest,
         ⟨true, false, false, false⟩, 0, 0, none⟩ : EdgeD))] := by
      rw [List.filter_append]
      have h2 : G.edges.filter (fun p => decide (p.2.src = bb)) = [] := by
        rw [List.eq_nil_iff_forall_not_mem]
        intro p hp
        rcases List.mem_filter.mp hp with ⟨h3, h4⟩
        exact hnosrc p h3 (of_decide_eq_true h4)
      rw [h2]
      simp
    rw [hfl]
    simp

/-- Stage 5 of the duplication tail: the stripped duplicate. -/
def tctG5 (g3 : CFG) (bb : Nat) : CFG :=
  remove_ctrl_stmt_and_useless_edges (cbtF g3 bb) g3.nextBlock none

/-- The two-step path built by the duplication tail. -/
def tctRD (e eto : Nat) : RD :=
  { dupBlock := none,
    path := [⟨some e, .startThread⟩, ⟨some eto, .srcBlock⟩],
    incoming := [] }

/-- Stage 6 of the duplication tail: the wired duplicate. -/
def tctG6 (g3 : CFG) (e bb eto : Nat) : CFG :=
  create_edge_and_update_destination_phis (tctG5 g3 bb) (tctRD e eto)
    g3.nextBlock

/-- Stage 7 of the duplication tail: profile transfer onto the
duplicate. -/
def tctG7 (g3 : CFG) (e bb eto : Nat) : CFG :=
  setBB (tctG6 g3 e bb eto) g3.nextBlock (fun b =>
    { b with count := (getEdge (tctG6 g3 e bb eto) e).count,
             frequency := EDGE_FREQUENCY (tctG6 g3 e bb eto) e })

/-- Stage 8 of the duplication tail: count transfer onto the single
outgoing edge. -/
def tctG8 (g3 : CFG) (e bb eto : Nat) : CFG :=
  match single_succ_edge (tctG7 g3 e bb eto) g3.nextBlock with
  | some s0 => setEdge (tctG7 g3 e bb eto) s0 (fun ed =>
      { ed with count := (getEdge (tctG7 g3 e bb eto) e).count })
  | none => tctG7 g3 e bb eto

set_option maxHeartbeats 1600000 in
/-- The duplication tail in staged form. -/
theorem tse_copy_tail_eq (g3 : CFG) (e bb eto : Nat) :
    tse_copy_tail g3 e bb eto =
      ((redirect_edge_and_branch (tctG8 g3 e bb eto) e g3.nextBlock).1,
        g3.nextBlock) := by
  simp only [tse_copy_tail]
  rw [create_block_eq]
  rfl

set_option maxHeartbeats 1600000 in
/-- Observable successor graph of the duplication tail: the new block is
the allocated duplicate, its statements are the original's without the
trailing control statement, and its only outgoing record is a pure
fallthrough edge to the path target's destination. -/
theorem tse_copy_tail_obs (g3 : CFG) (e bb eto etoDest : Nat) (veto : EdgeD)
    (hn : (g3.edges.map (·.1)).Nodup)
    (hkb : ∀ p ∈ g3.edges, p.1 < g3.nextEdge)
    (hblk : ∀ p ∈ g3.blocks, p.1 < g3.nextBlock)
    (hsrcb : ∀ p ∈ g3.edges, p.2.src < g3.nextBlock)
    (hdstb : ∀ p ∈ g3.edges, p.2.dest < g3.nextBlock)
    (hbbLive : (g3.blocks.lookup bb).isSome)
    (hveto : g3.edges.lookup eto = some veto)
    (hetoDest : etoDest = veto.dest)
    (heLt : e < g3.nextEdge) :
    (tse_copy_tail g3 e bb eto).2 = g3.nextBlock ∧
    (getBB (tse_copy_tail g3 e bb eto).1 g3.nextBlock).stmts =
      removeCtrlStmt (getBB g3 bb).stmts ∧
    outRecords (tse_copy_tail g3 e bb eto).1 g3.nextBlock =
      [(etoDest, ⟨true, false, false, false⟩)] := by
  have h0 : 0 < g3.nextBlock := by
    rcases Option.isSome_iff_exists.mp hbbLive with ⟨v, hv⟩
    have := hblk (bb, v) (lookup_mem hv)
    omega
  obtain ⟨hCn, hCb, hCl, hCd, hCs, hCbl, hCnb, hCne⟩ :=
    create_block_facts g3 bb hn hkb hblk hsrcb hdstb h0
  have hetoLt : eto < g3.nextEdge := hkb (eto, veto) (lookup_mem hveto)
  have hvetoC : (cbtF g3 bb).edges.lookup eto = some veto := by
    rw [hCl eto hetoLt]
    exact hveto
  have hG5e : (tctG5 g3 bb).edges =
      (cbtF g3 bb).edges.filter (fun p => decide (¬ p.2.src = g3.nextBlock)) :=
    strip_all_edges _ _ hCn
  have hG5n : ((tctG5 g3 bb).edges.map (·.1)).Nodup := by
    rw [hG5e]
    exact nodup_keys_filter _ hCn
  have hG5ne : (tctG5 g3 bb).nextEdge = (cbtF g3 bb).nextEdge :=
    strip_nextEdge _ _ _
  have hG5kb : ∀ p ∈ (tctG5 g3 bb).edges, p.1 < (tctG5 g3 bb).nextEdge := by
    intro p hp
    rw [hG5e] at hp
    rw [hG5ne]
    exact hCb p (List.mem_of_mem_filter hp)
  have hG5srcnot : ∀ p ∈ (tctG5 g3 bb).edges, ¬ p.2.src = g3.nextBlock := by
    intro p hp
    rw [hG5e] at hp
    have := (List.mem_filter.mp hp).2
    simpa using this
  have hG5d : ∀ p ∈ (tctG5 g3 bb).edges, p.2.dest < g3.nextBlock := by
    intro p hp
    rw [hG5e] at hp
    exact hCd p (List.mem_of_mem_filter hp)
  have hvetosrc : veto.src < g3.nextBlock := hsrcb _ (lookup_mem hveto)
  have hvetodst : veto.dest < g3.nextBlock := hdstb _ (lookup_mem hveto)
  have hveto5 : (tctG5 g3 bb).edges.lookup eto = some veto := by
    rw [hG5e]
    refine lookup_filter_of_sat hCn hvetoC ?_
    simp only [decide_eq_true_eq]
    omega
  have hG5bl : ((tctG5 g3 bb).blocks.lookup g3.nextBlock).isSome := by
    have h1 : ((tctG5 g3 bb).blocks.lookup g3.nextBlock).isSome =
        ((cbtF g3 bb).blocks.lookup g3.nextBlock).isSome :=
      strip_blocks_isSome _ _ _ _
    rw [h1]
    exact hCbl
  have hG5s : (getBB (tctG5 g3 bb) g3.nextBlock).stmts =
      removeCtrlStmt (getBB g3 bb).stmts := by
    have h1 : (getBB (tctG5 g3 bb) g3.nextBlock).stmts =
        removeCtrlStmt ((getBB (cbtF g3 bb) g3.nextBlock).stmts) :=
      strip_stmts_self _ _ _ hCbl
    rw [h1, hCs]
  have hlastE : stepEdge (pathLast (tctRD e eto).path) = eto := rfl
  obtain ⟨c6n, c6ne, c6dec, c6look, c6bl, c6st, c6nb, c6fil⟩ :=
    create_edge_facts (tctG5 g3 bb) (tctRD e eto) g3.nextBlock hG5n hG5kb
  have hdest6 : (getEdge (tctG5 g3 bb)
      (stepEdge (pathLast (tctRD e eto).path))).dest = etoDest := by
    rw [hlastE]
    unfold getEdge
    rw [hveto5]
    exact hetoDest.symm
  have hF6 : ((tctG6 g3 e bb eto).edges.filter
      (fun p => p.2.src = g3.nextBlock)).map
        (fun p => (p.1, p.2.dest, p.2.flags)) =
      [((tctG5 g3 bb).nextEdge, etoDest,
        (⟨true, false, false, false⟩ : EdgeFlags))] := by
    have h1 := c6fil hG5srcnot
    rw [hdest6] at h1
    exact h1
  have hDest6 : ∀ p ∈ (tctG6 g3 e bb eto).edges, p.2.dest < g3.nextBlock := by
    intro p hp
    rcases c6dec p hp with ⟨q, hq, _, _, h3, _⟩ | ⟨_, _, h3, _⟩
    · rw [h3]
      exact hG5d q hq
    · rw [h3, hdest6, hetoDest]
      exact hvetodst
  have hE7 : (tctG7 g3 e bb eto).edges = (tctG6 g3 e bb eto).edges := rfl
  have hF7 : ((tctG7 g3 e bb eto).edges.filter
      (fun p => p.2.src = g3.nextBlock)).map
        (fun p => (p.1, p.2.dest, p.2.flags)) =
      [((tctG5 g3 bb).nextEdge, etoDest,
        (⟨true, false, false, false⟩ : EdgeFlags))] := by
    rw [hE7]
    exact hF6
  have hsuccs7 : succs (tctG7 g3 e bb eto) g3.nextBlock =
      [(tctG5 g3 bb).nextEdge] := by
    have h := congrArg (List.map (fun q : Nat × Nat × EdgeFlags => q.1)) hF7
    rw [List.map_map] at h
    have h2 : ((tctG7 g3 e bb eto).edges.filter
        (fun p => p.2.src = g3.nextBlock)).map
          ((fun q : Nat × Nat × EdgeFlags => q.1) ∘
            (fun p : Nat × EdgeD => (p.1, p.2.dest, p.2.flags))) =
        ((tctG7 g3 e bb eto).edges.filter
          (fun p => p.2.src = g3.nextBlock)).map (·.1) :=
      List.map_congr_left (fun p _ => rfl)
    rw [h2] at h
    exact h
  have hsse : single_succ_edge (tctG7 g3 e bb eto) g3.nextBlock =
      some ((tctG5 g3 bb).nextEdge) := by
    unfold single_succ_edge
    rw [hsuccs7]
    rfl
  have hG8eq : tctG8 g3 e bb eto =
      setEdge (tctG7 g3 e bb eto) ((tctG5 g3 bb).nextEdge) (fun ed =>
        { ed with count := (getEdge (tctG7 g3 e bb eto) e).count }) := by
    simp only [tctG8, hsse]
  have hF8 : ((tctG8 g3 e bb eto).edges.filter
      (fun p => p.2.src = g3.nextBlock)).map
        (fun p => (p.1, p.2.dest, p.2.flags)) =
      [((tctG5 g3 bb).nextEdge, etoDest,
        (⟨true, false, false, false⟩ : EdgeFlags))] := by
    rw [hG8eq]
    have h1 : (setEdge (tctG7 g3 e bb eto) ((tctG5 g3 bb).nextEdge) (fun ed =>
        { ed with count := (getEdge (tctG7 g3 e bb eto) e).count })).edges =
        (tctG7 g3 e bb eto).edges.map (fun p =>
          if p.1 = (tctG5 g3 bb).nextEdge then (p.1,
            { p.2 with count := (getEdge (tctG7 g3 e bb eto) e).count })
          else p) := rfl
    rw [h1, filter_map_comm _ _ (by
      intro a
      by_cases hc : a.1 = (tctG5 g3 bb).nextEdge <;> simp [hc]), List.map_map]
    have h2 : ((tctG7 g3 e bb eto).edges.filter
        (fun p => p.2.src = g3.nextBlock)).map
          ((fun p : Nat × EdgeD => (p.1, p.2.dest, p.2.flags)) ∘
            (fun p : Nat × EdgeD =>
              if p.1 = (tctG5 g3 bb).nextEdge then (p.1,
                { p.2 with count := (getEdge (tctG7 g3 e bb eto) e).count })
              else p)) =
        ((tctG7 g3 e bb eto).edges.filter
          (fun p => p.2.src = g3.nextBlock)).map
            (fun p => (p.1, p.2.dest, p.2.flags)) :=
      List.map_congr_left (fun p _ => by
        by_cases hc : p.1 = (tctG5 g3 bb).nextEdge <;> simp [Function.comp, hc])
    rw [h2]
    exact hF7
  have hDest8 : ∀ p ∈ (tctG8 g3 e bb eto).edges, p.2.dest < g3.nextBlock := by
    rw [hG8eq]
    intro p hp
    rcases mem_edges_setEdge hp with ⟨q, hq, hqi, hqni⟩
    have hq6 : q ∈ (tctG6 g3 e bb eto).edges := by
      rw [← hE7]
      exact hq
    by_cases hc : q.1 = (tctG5 g3 bb).nextEdge
    · rw [hqi hc]
      exact hDest6 q hq6
    · rw [hqni hc]
      exact hDest6 q hq6
  have hN5 : g3.nextEdge ≤ (tctG5 g3 bb).nextEdge := by
    rw [hG5ne]
    exact hCne
  have heN5 : e ≠ (tctG5 g3 bb).nextEdge := by omega
  have hfe : find_edge (tctG8 g3 e bb eto)
      (getEdge (tctG8 g3 e bb eto) e).src g3.nextBlock = none := by
    rw [find_edge_none_iff, predSrcs_nil (fun p hp => by
      have := hDest8 p hp
      omega)]
    simp
  rw [tse_copy_tail_eq]
  refine ⟨rfl, ?_, ?_⟩
  · show (getBB (redirect_edge_and_branch (tctG8 g3 e bb eto) e
        g3.nextBlock).1 g3.nextBlock).stmts = _
    rw [getBB_stmts_redirect]
    have h8 : (getBB (tctG8 g3 e bb eto) g3.nextBlock).stmts =
        (getBB (tctG7 g3 e bb eto) g3.nextBlock).stmts := by
      rw [hG8eq]
      rfl
    have h7 : (getBB (tctG7 g3 e bb eto) g3.nextBlock).stmts =
        (getBB (tctG6 g3 e bb eto) g3.nextBlock).stmts :=
      getBB_stmts_setBB (fun _ => rfl)
    have c6st' : ∀ b, (getBB (tctG6 g3 e bb eto) b).stmts =
        (getBB (tctG5 g3 bb) b).stmts := c6st
    rw [h8, h7, c6st', hG5s]
  · show outRecords (redirect_edge_and_branch (tctG8 g3 e bb eto) e
        g3.nextBlock).1 g3.nextBlock = _
    have hred : (redirect_edge_and_branch (tctG8 g3 e bb eto) e
        g3.nextBlock).1 =
        setEdge (setBB (tctG8 g3 e bb eto)
          (getEdge (tctG8 g3 e bb eto) e).dest (fun b =>
            { b with phis := b.phis.map (fun phi =>
                phi.filter (fun pr => pr.1 ≠ e)) })) e
          (fun ed => { ed with dest := g3.nextBlock }) := by
      rw [redirect_inplace_eq hfe]
    rw [hred]
    unfold outRecords
    have h1 : (setEdge (setBB (tctG8 g3 e bb eto)
        (getEdge (tctG8 g3 e bb eto) e).dest (fun b =>
          { b with phis := b.phis.map (fun phi =>
              phi.filter (fun pr => pr.1 ≠ e)) })) e
        (fun ed => { ed with dest := g3.nextBlock })).edges =
        (tctG8 g3 e bb eto).edges.map (fun p =>
          if p.1 = e then (p.1, { p.2 with dest := g3.nextBlock }) else p) :=
      rfl
    rw [h1, filter_map_comm _ _ (by
      intro a
      by_cases hc : a.1 = e <;> simp [hc]), List.map_map]
    cases hfil : (tctG8 g3 e bb eto).edges.filter
        (fun p => p.2.src = g3.nextBlock) with
    | nil =>
        rw [hfil] at hF8
        cases hF8
    | cons p0 tl =>
        cases tl with
        | cons p1 tl2 =>
            rw [hfil] at hF8
            simp at hF8
        | nil =>
            rw [hfil] at hF8
            have hp0 : p0.1 = (tctG5 g3 bb).nextEdge ∧
                p0.2.dest = etoDest ∧
                p0.2.flags = (⟨true, false, false, false⟩ : EdgeFlags) := by
              have h2 : (p0.1, p0.2.dest, p0.2.flags) =
                  ((tctG5 g3 bb).nextEdge, etoDest,
                    (⟨true, false, false, false⟩ : EdgeFlags)) := by
                have := hF8
                simp only [List.map_cons, List.map_nil] at this
                exact (List.cons.injEq _ _ _ _).mp this |>.1
              refine ⟨?_, ?_, ?_⟩
              · exact congrArg (fun q : Nat × Nat × EdgeFlags => q.1) h2
              · exact congrArg (fun q : Nat × Nat × EdgeFlags => q.2.1) h2
              · exact congrArg (fun q : Nat × Nat × EdgeFlags => q.2.2) h2
            have hp0e : ¬ p0.1 = e := by
              rw [hp0.1]
              omega
            simp only [List.map_cons, List.map_nil, Function.comp]
            rw [if_neg hp0e]
            rw [hp0.2.1, hp0.2.2]

/-- Blocks of a setBB come from entries of the original graph. -/
theorem mem_blocks_setBB {g : CFG} {b : Nat} {f : BBD → BBD}
    {p : Nat × BBD} (h : p ∈ (setBB g b f).blocks) :
    ∃ q ∈ g.blocks, p.1 = q.1 := by
  have h2 : p ∈ g.blocks.map
      (fun q => if q.1 = b then (q.1, f q.2) else q) := h
  rcases List.mem_map.mp h2 with ⟨q, hq, hqp⟩
  by_cases hqb : q.1 = b
  · rw [if_pos hqb] at hqp
    exact ⟨q, hq, by rw [← hqp]⟩
  · rw [if_neg hqb] at hqp
    exact ⟨q, hq, by rw [← hqp]⟩

/-- Observable successor graph of the full duplication branch of
thread_single_edge: it allocates the next free block and that duplicate
carries the threaded block's statements without the trailing control
statement, and a single pure fallthrough edge to the path target's
destination. -/
theorem thread_single_edge_copy_obs
    (g : CFG) (e bb eto etoDest : Nat) (path : JTPath) (ve : EdgeD)
    (hn : (g.edges.map (·.1)).Nodup)
    (hpath : auxOf g e = some path)
    (hbb : bb = (getEdge g e).dest)
    (heto : eto = stepEdge (pathStep path 1))
    (hve : g.edges.lookup eto = some ve)
    (hetoDest : etoDest = ve.dest)
    (hbbLive : (g.blocks.lookup bb).isSome)
    (hene : e ≠ eto)
    (hkb : ∀ p ∈ g.edges, p.1 < g.nextEdge)
    (hblk : ∀ p ∈ g.blocks, p.1 < g.nextBlock)
    (hsrcb : ∀ p ∈ g.edges, p.2.src < g.nextBlock)
    (hdstb : ∀ p ∈ g.edges, p.2.dest < g.nextBlock) :
    (threadSingleEdgeCopy g e).2 = g.nextBlock ∧
    (getBB (threadSingleEdgeCopy g e).1 g.nextBlock).stmts =
      removeCtrlStmt (getBB g bb).stmts ∧
    outRecords (threadSingleEdgeCopy g e).1 g.nextBlock =
      [(etoDest, ⟨true, false, false, false⟩)] := by
  have hunf : threadSingleEdgeCopy g e =
      tse_copy_tail (tse_copy_g3 (tseState g e) e bb eto) e bb eto := by
    simp only [threadSingleEdgeCopy, tse_copy, hpath, Option.getD_some]
    rw [← hbb, ← heto]
    rfl
  have hg3edges : (tse_copy_g3 (tseState g e) e bb eto).edges =
      (tseState g e).edges := by
    unfold tse_copy_g3
    split <;> rfl
  have hg3nb : (tse_copy_g3 (tseState g e) e bb eto).nextBlock =
      g.nextBlock := by
    unfold tse_copy_g3
    split <;> rfl
  have hg3ne : (tse_copy_g3 (tseState g e) e bb eto).nextEdge =
      g.nextEdge := by
    unfold tse_copy_g3
    split <;> rfl
  have hT2 : (tseState g e).edges =
      (setEdge g e (fun ed => { ed with aux := none })).edges := rfl
  have hdecomp : ∀ p ∈ (tse_copy_g3 (tseState g e) e bb eto).edges,
      ∃ q ∈ g.edges, p.1 = q.1 ∧ p.2.src = q.2.src ∧ p.2.dest = q.2.dest := by
    intro p hp
    rw [hg3edges, hT2] at hp
    rcases mem_edges_setEdge hp with ⟨q, hq, hqi, hqni⟩
    by_cases hc : q.1 = e
    · rw [hqi hc]
      exact ⟨q, hq, rfl, rfl, rfl⟩
    · rw [hqni hc]
      exact ⟨q, hq, rfl, rfl, rfl⟩
  have hn3 : ((tse_copy_g3 (tseState g e) e bb eto).edges.map (·.1)).Nodup := by
    rw [hg3edges, hT2, edges_map_fst_setEdge]
    exact hn
  have hkb3 : ∀ p ∈ (tse_copy_g3 (tseState g e) e bb eto).edges,
      p.1 < (tse_copy_g3 (tseState g e) e bb eto).nextEdge := by
    intro p hp
    rcases hdecomp p hp with ⟨q, hq, h1, _, _⟩
    rw [h1, hg3ne]
    exact hkb q hq
  have hsrcb3 : ∀ p ∈ (tse_copy_g3 (tseState g e) e bb eto).edges,
      p.2.src < (tse_copy_g3 (tseState g e) e bb eto).nextBlock := by
    intro p hp
    rcases hdecomp p hp with ⟨q, hq, _, h2, _⟩
    rw [h2, hg3nb]
    exact hsrcb q hq
  have hdstb3 : ∀ p ∈ (tse_copy_g3 (tseState g e) e bb eto).edges,
      p.2.dest < (tse_copy_g3 (tseState g e) e bb eto).nextBlock := by
    intro p hp
    rcases hdecomp p hp with ⟨q, hq, _, _, h3⟩
    rw [h3, hg3nb]
    exact hdstb q hq
  have hblk3 : ∀ p ∈ (tse_copy_g3 (tseState g e) e bb eto).blocks,
      p.1 < (tse_copy_g3 (tseState g e) e bb eto).nextBlock := by
    intro p hp
    rw [hg3nb]
    have hp2 : ∃ q ∈ g.blocks, p.1 = q.1 := by
      unfold tse_copy_g3 at hp
      rcases (by
        revert hp
        split
        · intro hp
          exact mem_blocks_setBB hp
        · intro hp
          exact ⟨p, hp, rfl⟩ :
        ∃ q ∈ (tseState g e).blocks, p.1 = q.1) with ⟨q, hq, hqe⟩
      exact ⟨q, hq, hqe⟩
    rcases hp2 with ⟨q, hq, hqe⟩
    rw [hqe]
    exact hblk q hq
  have hbbLive3 : ((tse_copy_g3 (tseState g e) e bb eto).blocks.lookup
      bb).isSome := by
    unfold tse_copy_g3
    split
    · show ((setBB (tseState g e) bb _).blocks.lookup bb).isSome = true
      rw [lookup_isSome_setBB]
      exact hbbLive
    · exact hbbLive
  have hveto3 : (tse_copy_g3 (tseState g e) e bb eto).edges.lookup eto =
      some ve := by
    rw [hg3edges, hT2, lookup_edges_setEdge, if_neg (Ne.symm hene)]
    exact hve
  have heLt3 : e < (tse_copy_g3 (tseState g e) e bb eto).nextEdge := by
    rw [hg3ne]
    have hlv : (g.edges.lookup e).isSome := live_of_auxOf_isSome (by
      rw [hpath]; rfl)
    rcases Option.isSome_iff_exists.mp hlv with ⟨v, hv⟩
    exact hkb (e, v) (lookup_mem hv)
  have hg3stmts : (getBB (tse_copy_g3 (tseState g e) e bb eto) bb).stmts =
      (getBB g bb).stmts := by
    unfold tse_copy_g3
    split
    · have h1 : (getBB (setBB (tseState g e) bb (fun b =>
          { b with count := b.count - (getEdge (tseState g e) e).count,
                   frequency := b.frequency -
                     EDGE_FREQUENCY (tseState g e) e })) bb).stmts =
          (getBB (tseState g e) bb).stmts :=
        getBB_stmts_setBB (fun _ => rfl)
      exact h1
    · rfl
  obtain ⟨o1, o2, o3⟩ := tse_copy_tail_obs
    (tse_copy_g3 (tseState g e) e bb eto) e bb eto etoDest ve
    hn3 hkb3 hblk3 hsrcb3 hdstb3 hbbLive3 hveto3 hetoDest heLt3
  rw [hunf]
  refine ⟨?_, ?_, ?_⟩
  · rw [o1, hg3nb]
  · rw [← hg3nb, o2, hg3stmts]
  · rw [← hg3nb]
    exact o3

/-- C9.  When the threaded block has exactly one predecessor,
thread_single_edge returns the block itself without allocating any new
block (block allocator and block key list unchanged): the block is
mutated in place, its trailing control statement stripped, and its
outgoing edges reduced to the single path edge, whose branch-direction
and abnormal flags are cleared in favour of a pure fallthrough flag;
and the observable successor graph of this in-place result — statements
plus (destination, flags) records of the returned block — is exactly
what the general duplication branch would produce for its duplicate. -/
theorem thread_single_edge_single_pred_spec
    (g : CFG) (e bb eto etoDest : Nat) (path : JTPath) (ve : EdgeD)
    (hn : (g.edges.map (·.1)).Nodup)
    (hpath : auxOf g e = some path)
    (hbb : bb = (getEdge g e).dest)
    (heto : eto = stepEdge (pathStep path 1))
    (hve : g.edges.lookup eto = some ve)
    (hetoDest : etoDest = ve.dest)
    (hbbLive : (g.blocks.lookup bb).isSome)
    (hsp : single_pred_p g bb = true)
    (hmem : eto ∈ succs g bb)
    (huniq : ∀ o ∈ succs g bb, (getEdge g o).dest = etoDest → o = eto)
    (hene : e ≠ eto)
    (hkb : ∀ p ∈ g.edges, p.1 < g.nextEdge)
    (hblk : ∀ p ∈ g.blocks, p.1 < g.nextBlock)
    (hsrcb : ∀ p ∈ g.edges, p.2.src < g.nextBlock)
    (hdstb : ∀ p ∈ g.edges, p.2.dest < g.nextBlock) :
    (thread_single_edge g e).2 = bb ∧
    (thread_single_edge g e).1.nextBlock = g.nextBlock ∧
    blockSkel (thread_single_edge g e).1 = blockSkel g ∧
    (getBB (thread_single_edge g e).1 bb).stmts =
      removeCtrlStmt (getBB g bb).stmts ∧
    outRecords (thread_single_edge g e).1 bb =
      [(etoDest, ⟨true, false, false, false⟩)] ∧
    threadObs (thread_single_edge g e).1 (thread_single_edge g e).2 =
      threadObs (threadSingleEdgeCopy g e).1 (threadSingleEdgeCopy g e).2 := by
  obtain ⟨i1, i2, i3, i4, i5⟩ := thread_single_edge_inplace g e bb eto etoDest
    path ve hn hpath hbb heto hve hetoDest hbbLive hsp hmem huniq hene
  obtain ⟨c1, c2, c3⟩ := thread_single_edge_copy_obs g e bb eto etoDest
    path ve hn hpath hbb heto hve hetoDest hbbLive hene hkb hblk hsrcb hdstb
  refine ⟨i1, i2, i3, i4, i5, ?_⟩
  unfold threadObs
  rw [i1, c1, i4, i5, c2, c3]

/-- Witness path for C9. -/
def pW9 : JTPath := [⟨some 0, .startThread⟩, ⟨some 1, .srcBlock⟩]

/-- Witness graph for C9: block 1 is the threaded block with the single
predecessor edge 0 and the single outgoing path edge 1. -/
def gW9 : CFG :=
  { blocks := [(0, ⟨[], 0, 0, 0, []⟩),
               (1, ⟨[.gassign, .gcond], 5, 7, 0, []⟩),
               (2, ⟨[], 0, 0, 0, []⟩)],
    edges := [(0, ⟨0, 1, ⟨false, false, false, false⟩, 2, 5000, some pW9⟩),
              (1, ⟨1, 2, ⟨false, true, false, false⟩, 3, 10000, none⟩)],
    loops := [(0, ⟨none, none, none⟩)],
    nextBlock := 3, nextEdge := 2,
    needsFixup := false, mayHaveMultipleLatches := false,
    assertFailed := false, numThreadedEdges := 0 }

/-- Witness for C9: on the concrete single-predecessor graph the
in-place result is observably the duplication result. -/
theorem thread_single_edge_single_pred_spec_witness :
    threadObs (thread_single_edge gW9 0).1 (thread_single_edge gW9 0).2 =
      threadObs (threadSingleEdgeCopy gW9 0).1 (threadSingleEdgeCopy gW9 0).2 :=
  (thread_single_edge_single_pred_spec gW9 0 1 1 2 pW9
    ⟨1, 2, ⟨false, true, false, false⟩, 3, 10000, none⟩
    (by decide) (by decide) (by decide) (by decide) (by decide) (by decide)
    (by decide) (by decide) (by decide) (by decide) (by decide) (by decide)
    (by decide) (by decide) (by decide)).2.2.2.2.2

/-! ## Claim C2: the dominance classification -/

/-- Modelled from the spec: one backward walk step follows an incoming
edge from its destination to its source. -/
def specBwdWalk (g : CFG) (w : List Nat) : Prop :=
  List.Chain' (fun x y => y ∈ predSrcs g x) w

/-- Modelled from the spec: a backward path from the latch that reaches
the header, refusing to cross the header before its end, while never
meeting the candidate block. -/
def specReachesAvoiding (g : CFG) (header latch bb : Nat) : Prop :=
  ∃ w : List Nat, w.head? = some latch ∧ w.getLast? = some header ∧
    specBwdWalk g w ∧ (∀ x ∈ w, x ≠ bb) ∧ (∀ x ∈ w.dropLast, x ≠ header)

/-- Modelled from the spec: a backward path from the latch that reaches
the candidate block, refusing to cross the header or the candidate
before its end. -/
def specReachesBB (g : CFG) (header latch bb : Nat) : Prop :=
  ∃ w : List Nat, w.head? = some latch ∧ w.getLast? = some bb ∧
    specBwdWalk g w ∧ (∀ x ∈ w.dropLast, x ≠ header ∧ x ≠ bb)

/-- Inductive reachability along neighbors satisfying the predicate;
the start is admitted unconditionally. -/
inductive PReach (adj : Nat → List Nat) (P : Nat → Bool) (s : Nat) : Nat → Prop
  | refl : PReach adj P s s
  | step {x y : Nat} : PReach adj P s x → y ∈ adj x → P y = true →
      PReach adj P s y

/-- The reachability fold only grows its accumulator. -/
theorem reachAux_mono (adj : Nat → List Nat) (P : Nat → Bool) :
    ∀ (fuel : Nat) (acc : List Nat), ∀ x ∈ acc,
      x ∈ reachAux adj P fuel acc := by
  intro fuel
  induction fuel with
  | zero => intro acc x hx; exact hx
  | succ n ih =>
      intro acc x hx
      rw [reachAux]
      split
      · exact hx
      · exact ih _ x (List.mem_append.mpr (Or.inl hx))

/-- Everything the reachability fold collects satisfies any property
that holds on the accumulator and is closed under admissible steps. -/
theorem reachAux_sound (adj : Nat → List Nat) (P : Nat → Bool)
    (Q : Nat → Prop)
    (hstep : ∀ x, Q x → ∀ y ∈ adj x, P y = true → Q y) :
    ∀ (fuel : Nat) (acc : List Nat), (∀ x ∈ acc, Q x) →
      ∀ x ∈ reachAux adj P fuel acc, Q x := by
  intro fuel
  induction fuel with
  | zero => intro acc hacc x hx; exact hacc x hx
  | succ n ih =>
      intro acc hacc x hx
      rw [reachAux] at hx
      split at hx
      · exact hacc x hx
      · refine ih _ ?_ x hx
        intro z hz
        rcases List.mem_append.mp hz with h1 | h1
        · exact hacc z h1
        · have h2 := List.mem_dedup.mp h1
          rcases List.mem_filter.mp h2 with ⟨h3, h4⟩
          rcases List.mem_flatMap.mp h3 with ⟨x0, hx0, hzx0⟩
          have h5 : P z = true := by
            have h6 := h4
            simp only [Bool.and_eq_true] at h6
            exact h6.1
          exact hstep x0 (hacc x0 hx0) z hzx0 h5

/-- Monotonicity of filter length under pointwise implication. -/
theorem filter_length_le {α : Type} (p q : α → Bool)
    (himp : ∀ a, p a = true → q a = true) :
    ∀ U : List α, (U.filter p).length ≤ (U.filter q).length := by
  intro U
  induction U with
  | nil => exact Nat.le_refl _
  | cons a tl ih =>
      by_cases hp : p a = true
      · rw [List.filter_cons_of_pos hp, List.filter_cons_of_pos (himp a hp)]
        exact Nat.succ_le_succ ih
      · rw [List.filter_cons_of_neg (by simpa using hp)]
        cases hq : q a with
        | true =>
            rw [List.filter_cons_of_pos hq]
            exact Nat.le_trans ih (Nat.le_succ _)
        | false =>
            rw [List.filter_cons_of_neg (by simp [hq])]
            exact ih

/-- A witness excluded by the stronger filter but kept by the weaker
makes the filter length strictly drop. -/
theorem filter_length_lt {α : Type} (p q : α → Bool)
    (himp : ∀ a, p a = true → q a = true) (z : α)
    (hpz : p z = false) (hqz : q z = true) :
    ∀ U : List α, z ∈ U →
      (U.filter p).length < (U.filter q).length := by
  intro U
  induction U with
  | nil => intro h; cases h
  | cons a tl ih =>
      intro hz
      rcases List.mem_cons.mp hz with hza | hztl
      · rw [← hza] at *
        rw [List.filter_cons_of_neg (by simp [hpz]),
          List.filter_cons_of_pos hqz]
        exact Nat.lt_succ_of_le (filter_length_le p q himp tl)
      · by_cases hp : p a = true
        · rw [List.filter_cons_of_pos hp, List.filter_cons_of_pos (himp a hp)]
          exact Nat.succ_lt_succ (ih hztl)
        · rw [List.filter_cons_of_neg (by simpa using hp)]
          cases hq : q a with
          | true =>
              rw [List.filter_cons_of_pos hq]
              exact Nat.lt_trans (ih hztl) (Nat.lt_succ_self _)
          | false =>
              rw [List.filter_cons_of_neg (by simp [hq])]
              exact ih hztl

/-- With enough fuel relative to the untouched part of a finite
universe containing all neighbor images, the reachability fold is
closed under admissible steps. -/
theorem reachAux_saturated (adj : Nat → List Nat) (P : Nat → Bool)
    (U : List Nat) (hcl : ∀ x : Nat, ∀ y ∈ adj x, y ∈ U) :
    ∀ (fuel : Nat) (acc : List Nat),
      (U.filter (fun b => !acc.contains b)).length < fuel →
      ∀ x ∈ reachAux adj P fuel acc, ∀ y ∈ adj x, P y = true →
        y ∈ reachAux adj P fuel acc := by
  intro fuel
  induction fuel with
  | zero => intro acc h; omega
  | succ n ih =>
      intro acc hm x hx y hy hPy
      rw [reachAux] at hx ⊢
      split at hx
      · next hempty =>
          rw [if_pos hempty]
          by_cases hyacc : y ∈ acc
          · exact hyacc
          · exfalso
            have hmem : y ∈ ((acc.flatMap adj).filter
                (fun c => P c && !acc.contains c)).dedup := by
              rw [List.mem_dedup]
              refine List.mem_filter.mpr ⟨?_, ?_⟩
              · exact List.mem_flatMap.mpr ⟨x, hx, hy⟩
              · rw [hPy]
                simp [hyacc]
            rw [List.isEmpty_iff] at hempty
            rw [hempty] at hmem
            cases hmem
      · next hempty =>
          rw [if_neg hempty]
          have hnxt : ((acc.flatMap adj).filter
              (fun c => P c && !acc.contains c)).dedup ≠ [] := by
            intro hc
            exact hempty (by rw [List.isEmpty_iff]; exact hc)
          rcases List.exists_mem_of_ne_nil _ hnxt with ⟨z, hzmem⟩
          have hz2 := List.mem_dedup.mp hzmem
          rcases List.mem_filter.mp hz2 with ⟨hz3, hz4⟩
          rcases List.mem_flatMap.mp hz3 with ⟨x0, _, hzx0⟩
          have hz5 : P z = true ∧ (!acc.contains z) = true := by
            simpa only [Bool.and_eq_true] using hz4
          have hzU : z ∈ U := hcl x0 z hzx0
          have hznacc : z ∉ acc := by
            have h7 := hz5.2
            simp at h7
            exact h7
          have hmono : ∀ a : Nat,
              (!(acc ++ ((acc.flatMap adj).filter
                (fun c => P c && !acc.contains c)).dedup).contains a) = true →
              (!acc.contains a) = true := by
            intro a ha
            simp at ha ⊢
            exact ha.1
          have hdrop := filter_length_lt _ _ hmono z
            (by
              have hzin : z ∈ acc ++ ((acc.flatMap adj).filter
                  (fun c => P c && !acc.contains c)).dedup :=
                List.mem_append.mpr (Or.inr hzmem)
              have hcz : (acc ++ ((acc.flatMap adj).filter
                  (fun c => P c && !acc.contains c)).dedup).contains z =
                  true := List.elem_iff.mpr hzin
              rw [hcz]
              rfl)
            (by simp [hznacc]) U hzU
          exact ih _ (by omega) x hx y hy hPy

/-- Membership in the stop-predicate search coincides with inductive
reachability. -/
theorem mem_dfs_iff (g : CFG) (P : Nat → Bool) (latch : Nat)
    (hclosed : ∀ x : Nat, ∀ y ∈ predSrcs g x, y ∈ blockIds g)
    ( _hbn : (blockIds g).Nodup) :
    ∀ z, z ∈ dfs_enumerate_from g true P latch ↔
      PReach (fun b => predSrcs g b) P latch z := by
  intro z
  constructor
  · intro hz
    refine reachAux_sound _ P (PReach (fun b => predSrcs g b) P latch)
      (fun x hx y hy hPy => PReach.step hx hy hPy)
      (g.blocks.length + 1) [latch] ?_ z hz
    intro x hx
    have : x = latch := by simpa using hx
    rw [this]
    exact PReach.refl
  · intro hz
    induction hz with
    | refl =>
        exact reachAux_mono _ _ _ _ latch (by simp)
    | step hx hy hPy ih =>
        refine reachAux_saturated _ P (blockIds g)
          (fun x y hy2 => hclosed x y hy2) _ _ ?_ _ ih _ hy hPy
        have h1 : ((blockIds g).filter
            (fun b => !([latch] : List Nat).contains b)).length ≤
            (blockIds g).length := List.length_filter_le _ _
        have h2 : (blockIds g).length = g.blocks.length :=
          List.length_map _ _
        omega

/-- A walk whose start is already reachable makes its end reachable. -/
theorem walk_to_preach (adj : Nat → List Nat) (P : Nat → Bool) (latch : Nat) :
    ∀ (w : List Nat) (cur z : Nat), PReach adj P latch cur →
      w.head? = some cur → w.getLast? = some z →
      List.Chain' (fun x y => y ∈ adj x) w →
      (∀ x ∈ w.tail, P x = true) → PReach adj P latch z := by
  intro w
  induction w with
  | nil => intro cur z _ hh _ _ _; cases hh
  | cons a t ih =>
      intro cur z hcur hh hl hc ht
      have ha : a = cur := by simpa using hh
      cases t with
      | nil =>
          have hz : a = z := by simpa using hl
          rw [← hz, ha]
          exact hcur
      | cons b t2 =>
          have hstep : b ∈ adj a := (List.chain'_cons.mp hc).1
          have hPb : P b = true := ht b (by simp)
          have hcura : PReach adj P latch a := by
            rw [ha]
            exact hcur
          exact ih b z (PReach.step hcura hstep hPb) rfl
            (by
              have h2 : (a :: b :: t2).getLast? = (b :: t2).getLast? :=
                List.getLast?_cons_cons
              rw [← h2]
              exact hl)
            (List.chain'_cons.mp hc).2
            (fun x hx => ht x (List.mem_cons_of_mem _ hx))

/-- Reachability yields a walk whose inner nodes satisfy the
predicate. -/
theorem preach_to_walk (adj : Nat → List Nat) (P : Nat → Bool) (latch : Nat) :
    ∀ z, PReach adj P latch z →
      ∃ w : List Nat, w.head? = some latch ∧ w.getLast? = some z ∧
        List.Chain' (fun x y => y ∈ adj x) w ∧ ∀ x ∈ w.tail, P x = true := by
  intro z hz
  induction hz with
  | refl =>
      exact ⟨[latch], rfl, rfl, List.chain'_singleton _, by simp⟩
  | step hx hy hPy ih =>
      next x y =>
      rcases ih with ⟨w, hh, hl, hc, ht⟩
      cases w with
      | nil => cases hh
      | cons a t =>
          refine ⟨(a :: t) ++ [y], by simpa using hh, ?_, ?_, ?_⟩
          · rw [List.getLast?_concat]
          · rw [List.chain'_append]
            refine ⟨hc, List.chain'_singleton _, ?_⟩
            intro u hu v hv
            have hv2 : y = v := by simpa using hv
            have hu2 : x = u := by
              rw [hl] at hu
              simpa using hu
            rw [← hu2, ← hv2]
            exact hy
          · intro u hu
            have hu2 : u ∈ t ++ [y] := by simpa using hu
            rcases List.mem_append.mp hu2 with h1 | h1
            · exact ht u h1
            · have : u = y := by simpa using h1
              rw [this]
              exact hPy

/-- The header scan of the enumerated region holds exactly when a
backward path from the latch reaches the header while avoiding the
candidate and not crossing the header earlier. -/
theorem nondom_cond_iff (g : CFG) (header latch bb : Nat)
    (hclosed : ∀ x : Nat, ∀ y ∈ predSrcs g x, y ∈ blockIds g)
    (hbn : (blockIds g).Nodup)
    (hbl : bb ≠ latch) (hbh : bb ≠ header) (hlh : latch ≠ header) :
    ((dfs_enumerate_from g true (fun x => x ≠ bb && x ≠ header) latch).any
        (fun x => header ∈ predSrcs g x) = true) ↔
      specReachesAvoiding g header latch bb := by
  constructor
  · intro h
    rcases List.any_eq_true.mp h with ⟨x, hxR, hxp⟩
    have hxp2 : header ∈ predSrcs g x := of_decide_eq_true hxp
    have hre := (mem_dfs_iff g _ latch hclosed hbn x).mp hxR
    rcases preach_to_walk _ _ latch x hre with ⟨w, hh, hl, hc, ht⟩
    cases w with
    | nil => cases hh
    | cons a t =>
        have ha : a = latch := by simpa using hh
        refine ⟨(a :: t) ++ [header], by simpa using hh, ?_, ?_, ?_, ?_⟩
        · rw [List.getLast?_concat]
        · show List.Chain' (fun x y => y ∈ predSrcs g x) ((a :: t) ++ [header])
          rw [List.chain'_append]
          refine ⟨hc, List.chain'_singleton _, ?_⟩
          intro u hu v hv
          have hv2 : header = v := by simpa using hv
          have hu2 : x = u := by
            rw [hl] at hu
            simpa using hu
          rw [← hu2, ← hv2]
          exact hxp2
        · intro u hu
          rcases List.mem_append.mp hu with h1 | h1
          · rcases List.mem_cons.mp h1 with h2 | h2
            · rw [h2, ha]
              exact fun hc2 => hbl hc2.symm
            · have := ht u h2
              simp only [Bool.and_eq_true, decide_eq_true_eq] at this
              exact this.1
          · have : u = header := by simpa using h1
            rw [this]
            exact fun hc2 => hbh hc2.symm
        · rw [List.dropLast_concat]
          intro u hu
          rcases List.mem_cons.mp hu with h2 | h2
          · rw [h2, ha]
            exact hlh
          · have := ht u h2
            simp only [Bool.and_eq_true, decide_eq_true_eq] at this
            exact this.2
  · rintro ⟨w, hh, hl, hc, hnb, hnh⟩
    have hwne : w ≠ [] := by
      intro hc2
      rw [hc2] at hh
      cases hh
    have hgl : w.getLast hwne = header := by
      have := List.getLast?_eq_getLast w hwne
      rw [hl] at this
      exact (Option.some.inj this).symm
    have hsplit : w.dropLast ++ [header] = w := by
      have := List.dropLast_append_getLast hwne
      rw [hgl] at this
      exact this
    have hdne : w.dropLast ≠ [] := by
      intro hc2
      have : w = [header] := by
        rw [← hsplit, hc2]
        rfl
      rw [this] at hh
      have : latch = header := by simpa using hh.symm
      exact hlh this
    have hdh : w.dropLast.head? = some latch := by
      rw [← hsplit] at hh
      cases hd : w.dropLast with
      | nil => exact absurd hd hdne
      | cons a t =>
          rw [hd] at hh
          simpa using hh
    have hdl : ∃ x, w.dropLast.getLast? = some x := by
      cases hd : w.dropLast with
      | nil => exact absurd hd hdne
      | cons a t => exact ⟨(a :: t).getLast (by simp),
          List.getLast?_eq_getLast _ _⟩
    rcases hdl with ⟨x, hdlx⟩
    have hcsplit := List.chain'_append.mp (by rw [hsplit]; exact hc)
    have hxp : header ∈ predSrcs g x := by
      have h3 := hcsplit.2.2 x (by rw [hdlx]; rfl) header rfl
      exact h3
    have hPt : ∀ u ∈ w.dropLast.tail, (fun c : Nat =>
        c ≠ bb && c ≠ header) u = true := by
      intro u hu
      have humem : u ∈ w.dropLast := List.mem_of_mem_tail hu
      have h1 : u ≠ header := hnh u humem
      have h2 : u ≠ bb := hnb u (by
        rw [← hsplit]
        exact List.mem_append.mpr (Or.inl humem))
      simp [h1, h2]
    have hre : PReach (fun b => predSrcs g b)
        (fun x => x ≠ bb && x ≠ header) latch x :=
      walk_to_preach _ _ latch w.dropLast latch x PReach.refl hdh hdlx
        hcsplit.1 hPt
    refine List.any_eq_true.mpr ⟨x, ?_, by simpa using hxp⟩
    exact (mem_dfs_iff g _ latch hclosed hbn x).mpr hre

/-- The candidate scan of the enumerated region holds exactly when a
backward path from the latch reaches the candidate without crossing the
header or the candidate earlier. -/
theorem dom_cond_iff (g : CFG) (header latch bb : Nat)
    (hclosed : ∀ x : Nat, ∀ y ∈ predSrcs g x, y ∈ blockIds g)
    (hbn : (blockIds g).Nodup)
    (hbl : bb ≠ latch) (hlh : latch ≠ header) :
    ((dfs_enumerate_from g true (fun x => x ≠ bb && x ≠ header) latch).any
        (fun x => bb ∈ predSrcs g x) = true) ↔
      specReachesBB g header latch bb := by
  constructor
  · intro h
    rcases List.any_eq_true.mp h with ⟨x, hxR, hxp⟩
    have hxp2 : bb ∈ predSrcs g x := of_decide_eq_true hxp
    have hre := (mem_dfs_iff g _ latch hclosed hbn x).mp hxR
    rcases preach_to_walk _ _ latch x hre with ⟨w, hh, hl, hc, ht⟩
    cases w with
    | nil => cases hh
    | cons a t =>
        have ha : a = latch := by simpa using hh
        refine ⟨(a :: t) ++ [bb], by simpa using hh, ?_, ?_, ?_⟩
        · rw [List.getLast?_concat]
        · show List.Chain' (fun x y => y ∈ predSrcs g x) ((a :: t) ++ [bb])
          rw [List.chain'_append]
          refine ⟨hc, List.chain'_singleton _, ?_⟩
          intro u hu v hv
          have hv2 : bb = v := by simpa using hv
          have hu2 : x = u := by
            rw [hl] at hu
            simpa using hu
          rw [← hu2, ← hv2]
          exact hxp2
        · rw [List.dropLast_concat]
          intro u hu
          rcases List.mem_cons.mp hu with h2 | h2
          · rw [h2, ha]
            exact ⟨hlh, fun hc2 => hbl hc2.symm⟩
          · have := ht u h2
            simp only [Bool.and_eq_true, decide_eq_true_eq] at this
            exact ⟨this.2, this.1⟩
  · rintro ⟨w, hh, hl, hc, hnhb⟩
    have hwne : w ≠ [] := by
      intro hc2
      rw [hc2] at hh
      cases hh
    have hgl : w.getLast hwne = bb := by
      have := List.getLast?_eq_getLast w hwne
      rw [hl] at this
      exact (Option.some.inj this).symm
    have hsplit : w.dropLast ++ [bb] = w := by
      have := List.dropLast_append_getLast hwne
      rw [hgl] at this
      exact this
    have hdne : w.dropLast ≠ [] := by
      intro hc2
      have : w = [bb] := by
        rw [← hsplit, hc2]
        rfl
      rw [this] at hh
      have : latch = bb := by simpa using hh.symm
      exact hbl this.symm
    have hdh : w.dropLast.head? = some latch := by
      rw [← hsplit] at hh
      cases hd : w.dropLast with
      | nil => exact absurd hd hdne
      | cons a t =>
          rw [hd] at hh
          simpa using hh
    have hdl : ∃ x, w.dropLast.getLast? = some x := by
      cases hd : w.dropLast with
      | nil => exact absurd hd hdne
      | cons a t => exact ⟨(a :: t).getLast (by simp),
          List.getLast?_eq_getLast _ _⟩
    rcases hdl with ⟨x, hdlx⟩
    have hcsplit := List.chain'_append.mp (by rw [hsplit]; exact hc)
    have hxp : bb ∈ predSrcs g x := by
      have h3 := hcsplit.2.2 x (by rw [hdlx]; rfl) bb rfl
      exact h3
    have hPt : ∀ u ∈ w.dropLast.tail, (fun c : Nat =>
        c ≠ bb && c ≠ header) u = true := by
      intro u hu
      have humem : u ∈ w.dropLast := List.mem_of_mem_tail hu
      have h1 := hnhb u humem
      simp [h1.1, h1.2]
    have hre : PReach (fun b => predSrcs g b)
        (fun x => x ≠ bb && x ≠ header) latch x :=
      walk_to_preach _ _ latch w.dropLast latch x PReach.refl hdh hdlx
        hcsplit.1 hPt
    refine List.any_eq_true.mpr ⟨x, ?_, by simpa using hxp⟩
    exact (mem_dfs_iff g _ latch hclosed hbn x).mpr hre

/-- Witness graph for the dominance evaluation: header 0, latch 1,
candidate 2, edges 0 to 1 and 0 to 2. -/
def gW2 : CFG :=
  { blocks := [(0, ⟨[], 0, 0, 0, []⟩),
               (1, ⟨[], 0, 0, 0, []⟩),
               (2, ⟨[], 0, 0, 0, []⟩)],
    edges := [(0, ⟨0, 1, ⟨false, false, false, false⟩, 0, 0, none⟩),
              (1, ⟨0, 2, ⟨false, false, false, false⟩, 0, 0, none⟩)],
    loops := [(0, ⟨some 0, some 1, none⟩)],
    nextBlock := 3, nextEdge := 2,
    needsFixup := false, mayHaveMultipleLatches := false,
    assertFailed := false, numThreadedEdges := 0 }

/-- C2: counterexample to the spec's LOOP_BROKEN clause.  On gW2 with
header 0, latch 1 and candidate 2, the header is backward-reachable from
the latch (walk 1, 0) and no backward walk from the latch ever reaches
the candidate — the premise of the spec's LOOP_BROKEN clause — yet the
code classifies the candidate as NONDOMINATING, not LOOP_BROKEN. -/
theorem determine_bb_domination_status_loop_broken_counterexample :
    (∃ w : List Nat, w.head? = some 1 ∧ w.getLast? = some 0 ∧
       specBwdWalk gW2 w ∧ ∀ x ∈ w, x ≠ 2) ∧
    (∀ w : List Nat, w.head? = some 1 → specBwdWalk gW2 w → 2 ∉ w) ∧
    determine_bb_domination_status gW2 0 1 2 = .nondominating := by
  refine ⟨⟨[1, 0], rfl, rfl, ?_, by decide⟩, ?_, by decide⟩
  · exact List.chain'_cons.mpr ⟨by decide, List.chain'_singleton _⟩
  · intro w hh hc
    cases w with
    | nil => intro h; cases h
    | cons a t =>
        have ha : a = 1 := by simpa using hh
        cases t with
        | nil =>
            rw [ha]
            decide
        | cons b t2 =>
            have hb : b ∈ predSrcs gW2 a := (List.chain'_cons.mp hc).1
            rw [ha] at hb
            have hps : predSrcs gW2 1 = [0] := by decide
            rw [hps] at hb
            have hb0 : b = 0 := by simpa using hb
            cases t2 with
            | nil =>
                rw [ha, hb0]
                decide
            | cons c t3 =>
                have hcm : c ∈ predSrcs gW2 b :=
                  (List.chain'_cons.mp (List.chain'_cons.mp hc).2).1
                rw [hb0] at hcm
                have hpe : predSrcs gW2 0 = [] := by decide
                rw [hpe] at hcm
                cases hcm

/-- C2 (amended): given the guard that the candidate is a successor of
the header and that it differs from the latch, the dominance evaluation
returns NONDOMINATING exactly when some backward walk from the latch
reaches the header while avoiding the candidate (and not crossing the
header earlier); DOMINATING exactly when no such walk exists but some
backward walk from the latch reaches the candidate without crossing the
header or the candidate earlier; and LOOP_BROKEN exactly when neither
kind of walk exists — not, as the spec says, when the header is
reachable only through candidate-avoiding walks. -/
theorem determine_bb_domination_status_walk_spec (g : CFG)
    (header latch bb : Nat)
    (hclosed : ∀ p ∈ g.edges, p.2.src ∈ blockIds g)
    (hbn : (blockIds g).Nodup)
    (hguard : header ∈ predSrcs g bb)
    (hbl : bb ≠ latch) (hbh : bb ≠ header) (hlh : latch ≠ header) :
    (determine_bb_domination_status g header latch bb = .nondominating ↔
       specReachesAvoiding g header latch bb) ∧
    (determine_bb_domination_status g header latch bb = .dominating ↔
       ¬ specReachesAvoiding g header latch bb ∧
         specReachesBB g header latch bb) ∧
    (determine_bb_domination_status g header latch bb = .loopBroken ↔
       ¬ specReachesAvoiding g header latch bb ∧
         ¬ specReachesBB g header latch bb) := by
  have hclosed2 : ∀ x : Nat, ∀ y ∈ predSrcs g x, y ∈ blockIds g := by
    intro x y hy
    simp only [predSrcs, List.mem_map] at hy
    rcases hy with ⟨p, hp, hps⟩
    rw [← hps]
    exact hclosed p (List.mem_filter.mp hp).1
  have hE1 := nondom_cond_iff g header latch bb hclosed2 hbn hbl hbh hlh
  have hE2 := dom_cond_iff g header latch bb hclosed2 hbn hbl hlh
  have hexp : determine_bb_domination_status g header latch bb =
      (if (dfs_enumerate_from g true (fun x => x ≠ bb && x ≠ header)
            latch).any (fun x => header ∈ predSrcs g x) then
         BbDomStatus.nondominating
       else if (dfs_enumerate_from g true (fun x => x ≠ bb && x ≠ header)
            latch).any (fun x => bb ∈ predSrcs g x) then
         BbDomStatus.dominating
       else BbDomStatus.loopBroken) := by
    simp only [determine_bb_domination_status]
    rw [if_neg (not_not_intro hguard), if_neg hbl]
  by_cases h1 : ((dfs_enumerate_from g true
      (fun x => x ≠ bb && x ≠ header) latch).any
        (fun x => header ∈ predSrcs g x) = true)
  · have hA : specReachesAvoiding g header latch bb := hE1.mp h1
    rw [hexp, if_pos h1]
    exact ⟨iff_of_true rfl hA,
      iff_of_false (by decide) (fun hc => hc.1 hA),
      iff_of_false (by decide) (fun hc => hc.1 hA)⟩
  · have hnA : ¬ specReachesAvoiding g header latch bb :=
      fun hc => h1 (hE1.mpr hc)
    rw [hexp, if_neg h1]
    by_cases h2 : ((dfs_enumerate_from g true
        (fun x => x ≠ bb && x ≠ header) latch).any
          (fun x => bb ∈ predSrcs g x) = true)
    · have hB : specReachesBB g header latch bb := hE2.mp h2
      rw [if_pos h2]
      exact ⟨iff_of_false (by decide) hnA,
        iff_of_true rfl ⟨hnA, hB⟩,
        iff_of_false (by decide) (fun hc => hc.2 hB)⟩
    · have hnB : ¬ specReachesBB g header latch bb :=
        fun hc => h2 (hE2.mpr hc)
      rw [if_neg h2]
      exact ⟨iff_of_false (by decide) hnA,
        iff_of_false (by decide) (fun hc => hnB hc.2),
        iff_of_true rfl ⟨hnA, hnB⟩⟩

/-- Witness for the amended C2 theorem at the concrete graph gW2 with
header 0, latch 1 and candidate 2. -/
theorem determine_bb_domination_status_walk_spec_witness :
    determine_bb_domination_status gW2 0 1 2 = .nondominating ↔
      specReachesAvoiding gW2 0 1 2 :=
  (determine_bb_domination_status_walk_spec gW2 0 1 2 (by decide) (by decide)
    (by decide) (by decide) (by decide) (by decide)).1

/-- One sweep step clears the slot it touches. -/
theorem setAuxNone_self (g : CFG) (e : Nat) :
    auxOf (setAux g e none) e = none := by
  by_cases h : (g.edges.lookup e).isSome
  · exact auxOf_setAux_self h
  · exact auxOf_setAux_dead (Bool.eq_false_iff.mpr h)

/-- A sweep step keeps empty slots empty. -/
theorem setAuxNone_pres {g : CFG} {x : Nat} (e : Nat)
    (h : auxOf g x = none) : auxOf (setAux g e none) x = none := by
  by_cases hxe : x = e
  · subst hxe
    exact setAuxNone_self g x
  · rw [auxOf_setAux_ne hxe]
    exact h

/-- The per-block sweep of the final walk clears every processed
slot. -/
theorem sweepInner_clears : ∀ (l : List Nat) (acc : CFG), ∀ x ∈ l,
    auxOf (l.foldl (fun a e => setAux a e none) acc) x = none := by
  intro l
  induction l with
  | nil => intro acc x hx; cases hx
  | cons y tl ih =>
      intro acc x hx
      rw [List.foldl_cons]
      rcases List.mem_cons.mp hx with hxy | hxtl
      · subst hxy
        by_cases hmem : x ∈ tl
        · exact ih (setAux acc x none) x hmem
        · exact foldl_invariant (fun a e => setAux a e none)
            (fun s => auxOf s x = none)
            (fun a z hz => setAuxNone_pres z hz) tl _ (setAuxNone_self acc x)
      · exact ih (setAux acc y none) x hxtl

/-- The per-block sweep keeps empty slots empty. -/
theorem sweepInner_pres (l : List Nat) (acc : CFG) (x : Nat)
    (h : auxOf acc x = none) :
    auxOf (l.foldl (fun a e => setAux a e none) acc) x = none :=
  foldl_invariant (fun a e => setAux a e none) (fun s => auxOf s x = none)
    (fun a z hz => setAuxNone_pres z hz) l acc h

/-- The per-block sweep preserves the edge skeleton. -/
theorem sweepInner_edgeSkel (l : List Nat) (acc : CFG) :
    edgeSkel (l.foldl (fun a e => setAux a e none) acc) = edgeSkel acc :=
  foldl_invariant (fun a e => setAux a e none)
    (fun s => edgeSkel s = edgeSkel acc)
    (fun a z hz => by
      show edgeSkel (setAux a z none) = edgeSkel acc
      rw [edgeSkel_setAux]
      exact hz) l acc rfl

/-- The per-block sweep preserves the blocks. -/
theorem sweepInner_blocks (l : List Nat) (acc : CFG) :
    (l.foldl (fun a e => setAux a e none) acc).blocks = acc.blocks :=
  foldl_blocks_invariant (fun a e => setAux a e none)
    (fun a z => rfl) l acc

/-- The whole-graph sweep keeps empty slots empty. -/
theorem sweepOuter_pres (L : List (Nat × BBD)) (acc : CFG) (x : Nat)
    (h : auxOf acc x = none) :
    auxOf (L.foldl (fun a bp => (preds a bp.1).foldl
      (fun a2 e2 => setAux a2 e2 none) a) acc) x = none :=
  foldl_invariant _ (fun s => auxOf s x = none)
    (fun a bp hz => sweepInner_pres _ a x hz) L acc h

/-- The whole-graph sweep preserves the edge skeleton. -/
theorem sweepOuter_edgeSkel (L : List (Nat × BBD)) (acc : CFG) :
    edgeSkel (L.foldl (fun a bp => (preds a bp.1).foldl
      (fun a2 e2 => setAux a2 e2 none) a) acc) = edgeSkel acc :=
  foldl_invariant _ (fun s => edgeSkel s = edgeSkel acc)
    (fun a bp hz => by
      show edgeSkel ((preds a bp.1).foldl
        (fun a2 e2 => setAux a2 e2 none) a) = edgeSkel acc
      rw [sweepInner_edgeSkel]
      exact hz) L acc rfl

/-- The whole-graph sweep preserves the blocks. -/
theorem sweepOuter_blocks (L : List (Nat × BBD)) (acc : CFG) :
    (L.foldl (fun a bp => (preds a bp.1).foldl
      (fun a2 e2 => setAux a2 e2 none) a) acc).blocks = acc.blocks :=
  foldl_blocks_invariant _ (fun a bp => sweepInner_blocks _ a) L acc

/-- After the whole-graph sweep, every incoming edge of every swept
block has an empty slot. -/
theorem sweepOuter_clears : ∀ (L : List (Nat × BBD)) (acc g0 : CFG),
    edgeSkel acc = edgeSkel g0 →
    ∀ bp ∈ L, ∀ e ∈ preds g0 bp.1,
      auxOf (L.foldl (fun a p => (preds a p.1).foldl
        (fun a2 e2 => setAux a2 e2 none) a) acc) e = none := by
  intro L
  induction L with
  | nil => intro acc g0 _ bp hbp; cases hbp
  | cons hd tl ih =>
      intro acc g0 hsk bp hbp e he
      rw [List.foldl_cons]
      have hsk2 : edgeSkel ((preds acc hd.1).foldl
          (fun a2 e2 => setAux a2 e2 none) acc) = edgeSkel g0 := by
        rw [sweepInner_edgeSkel]
        exact hsk
      rcases List.mem_cons.mp hbp with h1 | h1
      · subst h1
        have hpe : preds acc bp.1 = preds g0 bp.1 :=
          preds_eq_of_edgeSkel hsk bp.1
        have he2 : e ∈ preds acc bp.1 := by
          rw [hpe]
          exact he
        exact sweepOuter_pres tl _ e (sweepInner_clears _ acc e he2)
      · exact ih _ g0 hsk2 bp h1 e he

/-- The final sweep clears the slot of every incoming edge of every
block. -/
theorem sweepAllAux_clears (g : CFG) :
    ∀ b ∈ blockIds g, ∀ e ∈ preds g b, auxOf (sweepAllAux g) e = none := by
  intro b hb e he
  rcases List.mem_map.mp hb with ⟨bp, hbp, hbp1⟩
  rw [← hbp1] at he
  unfold sweepAllAux
  exact sweepOuter_clears g.blocks g g rfl bp hbp e he

/-- The final sweep preserves the edge skeleton. -/
theorem sweepAllAux_edgeSkel (g : CFG) :
    edgeSkel (sweepAllAux g) = edgeSkel g := by
  unfold sweepAllAux
  exact sweepOuter_edgeSkel g.blocks g

/-- The final sweep preserves the blocks. -/
theorem sweepAllAux_blocks (g : CFG) :
    (sweepAllAux g).blocks = g.blocks := by
  unfold sweepAllAux
  exact sweepOuter_blocks g.blocks g

/-- A swept graph is annotation-clean on every incoming edge of every
live block. -/
theorem sweep_result_clean (h : CFG) (b e : Nat)
    (hb : b ∈ blockIds (sweepAllAux h))
    (he : e ∈ preds (sweepAllAux h) b) :
    auxOf (sweepAllAux h) e = none := by
  have hbk : blockIds (sweepAllAux h) = blockIds h := by
    unfold blockIds
    rw [sweepAllAux_blocks]
  have hpr : preds (sweepAllAux h) b = preds h b :=
    preds_eq_of_edgeSkel (sweepAllAux_edgeSkel h) b
  rw [hbk] at hb
  rw [hpr] at he
  exact sweepAllAux_clears h b hb e he

/-- The non-trivial branch of the driver ends with the final sweep,
possibly followed by the needs-fixup flag. -/
theorem tta_shape (g : CFG) (paths : List JTPath) (mp os : Bool)
    (hne : paths.isEmpty = false) :
    ∃ h : CFG, ∃ fl : Bool,
      (thread_through_all_blocks g paths mp os).1 =
        if fl then { sweepAllAux h with needsFixup := true }
        else sweepAllAux h := by
  unfold thread_through_all_blocks
  rw [if_neg (show ¬ (paths.isEmpty = true) by
    rw [hne]
    exact fun hc => absurd hc (by decide))]
  exact ⟨_, _, rfl⟩

/-- C1: annotation cleanliness.  For every graph whose edges arrive
with empty annotation slots and every registered path set, after the
driver thread_through_all_blocks returns, the annotation slot of every
incoming edge of every node of the result is empty: the final sweep
walks all blocks and all their incoming edges and clears any slot still
set. -/
theorem thread_through_all_blocks_annotation_clean
    (g : CFG) (paths : List JTPath) (may_peel optimizeSize : Bool)
    (b e : Nat)
    (hclean : ∀ p ∈ g.edges, p.2.aux = none)
    (hb : b ∈ blockIds (thread_through_all_blocks g paths
        may_peel optimizeSize).1)
    (he : e ∈ preds (thread_through_all_blocks g paths
        may_peel optimizeSize).1 b) :
    auxOf (thread_through_all_blocks g paths may_peel optimizeSize).1 e
      = none := by
  cases hemp : paths.isEmpty with
  | true =>
      have hres : (thread_through_all_blocks g paths
          may_peel optimizeSize).1 = g := by
        unfold thread_through_all_blocks
        rw [if_pos hemp]
      rw [hres]
      unfold auxOf getEdge
      cases hl : g.edges.lookup e with
      | none => rfl
      | some v => exact hclean (e, v) (lookup_mem hl)
  | false =>
      obtain ⟨h, fl, hres⟩ := tta_shape g paths may_peel optimizeSize hemp
      rw [hres] at hb he ⊢
      cases fl with
      | false => exact sweep_result_clean h b e hb he
      | true => exact sweep_result_clean h b e hb he

/-! ## Claim C3: path registration -/

/-- C3.  For every path passed to register_jump_thread: if the external
admission gate vetoes registration, or any step of the path has a
missing edge, the path is freed and not stored (the pending list is
unchanged); otherwise the path is appended to the pending list
unconditionally, in particular with no duplicate detection (the list
grows even if an equal path is already pending). -/
theorem register_jump_thread_spec (gate : Bool) (paths : List JTPath)
    (path : JTPath) :
    (gate = false → register_jump_thread gate paths path = paths) ∧
    ((∃ s ∈ path, s.e = none) →
      register_jump_thread gate paths path = paths) ∧
    (gate = true → (∀ s ∈ path, s.e ≠ none) →
      register_jump_thread gate paths path = paths ++ [path]) := by
  refine ⟨fun hg => ?_, fun hnull => ?_, fun hg hall => ?_⟩
  · simp [register_jump_thread, hg]
  · rcases hnull with ⟨s, hs, hse⟩
    have hany : path.any (fun s => s.e.isNone) = true := by
      exact List.any_eq_true.mpr ⟨s, hs, by simp [hse]⟩
    cases gate <;> simp [register_jump_thread, hany]
  · have hany : path.any (fun s => s.e.isNone) = false := by
      rw [List.any_eq_false]
      intro s hs
      have := hall s hs
      simp [Option.isNone_iff_eq_none]
      exact this
    simp [register_jump_thread, hg, hany]

/-- Witness for C3: a valid two-step path is appended even though an
equal path is already registered; a vetoed path and a path with a
missing edge leave the list unchanged. -/
theorem register_jump_thread_spec_witness :
    register_jump_thread true [[⟨some 0, .startThread⟩, ⟨some 1, .srcBlock⟩]]
        [⟨some 0, .startThread⟩, ⟨some 1, .srcBlock⟩] =
      [[⟨some 0, .startThread⟩, ⟨some 1, .srcBlock⟩],
       [⟨some 0, .startThread⟩, ⟨some 1, .srcBlock⟩]] ∧
    register_jump_thread false [] [⟨some 0, .startThread⟩] = [] ∧
    register_jump_thread true [] [⟨some 0, .startThread⟩, ⟨none, .srcBlock⟩] = [] := by
  refine ⟨?_, ?_, ?_⟩
  · exact (register_jump_thread_spec true
      [[⟨some 0, .startThread⟩, ⟨some 1, .srcBlock⟩]]
      [⟨some 0, .startThread⟩, ⟨some 1, .srcBlock⟩]).2.2 rfl (by decide)
  · exact (register_jump_thread_spec false []
      [⟨some 0, .startThread⟩]).1 rfl
  · exact (register_jump_thread_spec true []
      [⟨some 0, .startThread⟩, ⟨none, .srcBlock⟩]).2.1
      ⟨⟨none, .srcBlock⟩, by decide, rfl⟩

end ThreadUpdate
